import Mathlib

/-!
Verification of `pyradixtree` (`src/pyradixtree/rax.py`), a compressed radix
tree mapping string keys to values.

Embedding notes:
* Keys and edge labels are `List Char` (a Python `str` is a sequence of
  characters compared lexicographically by code point, which is exactly
  `lexLt` below).
* `RadixTreeNode.children` is a Python `dict` (insertion ordered).  No code
  path of `rax.py` observes the insertion order: children are only read
  through `sorted(...)`, `max(...)`, lookup by (unique) label, or as the
  unique single edge.  We therefore keep the children association list
  sorted by label; `add_child` inserts at the sorted position (replacing an
  existing entry in place, as the `dict` assignment would).
* The imperative walk/prune/recompress loops use parent back-references;
  we model the position of the current node by the list of contexts
  (zipper) accumulated while walking down, and climbing is popping
  contexts.  `elem_cnt` / `node_cnt` are Python ints, modelled as `Int`.
* Values are a type parameter `V`; `RadixTreeNode.data` is `Option V`
  (`None` at creation / after deletion, `some v` when a value is stored).
-/

namespace Rax

/-- Lexicographic (code-point) order on character lists: Python `str.__lt__`. -/
def lexLt : List Char → List Char → Bool
  | [], [] => false
  | [], _ :: _ => true
  | _ :: _, [] => false
  | a :: as, b :: bs => if a < b then true else if b < a then false else lexLt as bs

/-- `RadixTreeNode`: key flag, stored data, children (label-sorted assoc list). -/
inductive Node (V : Type) where
  | mk (is_key : Bool) (data : Option V) (children : List (List Char × Node V)) : Node V

variable {V : Type}

def Node.is_key : Node V → Bool
  | .mk k _ _ => k

def Node.get_data : Node V → Option V
  | .mk _ d _ => d

def Node.children : Node V → List (List Char × Node V)
  | .mk _ _ ch => ch

/-- `RadixTreeNode.children_num`. -/
def Node.children_num (n : Node V) : Nat := n.children.length

/-- `RadixTreeNode.has_no_child`. -/
def Node.has_no_child (n : Node V) : Bool := n.children_num == 0

/-- `RadixTreeNode.not_key_with_single_child`. -/
def Node.not_key_with_single_child (n : Node V) : Bool :=
  !n.is_key && (n.children_num == 1)

/-- `RadixTreeNode.single_edge`: first edge label (call sites ensure a single child). -/
def Node.single_edge (n : Node V) : List Char :=
  match n.children with
  | (e, _) :: _ => e
  | [] => []

/-- `RadixTreeNode.is_compressed`: exactly one child whose edge is longer than 1. -/
def Node.is_compressed (n : Node V) : Bool :=
  match n.children with
  | [(e, _)] => decide (e.length > 1)
  | _ => false

/-- Insert into a label-sorted association list: replace in place if the label
is present (Python `dict` assignment), otherwise insert at the sorted position. -/
def dictInsert (e : List Char) (c : Node V) : List (List Char × Node V) → List (List Char × Node V)
  | [] => [(e, c)]
  | (e', c') :: rest =>
    if e = e' then (e, c) :: rest
    else if lexLt e e' then (e, c) :: (e', c') :: rest
    else (e', c') :: dictInsert e c rest

/-- Delete the entry with the given label (Python `del dict[edge]`). -/
def dictRemove (e : List Char) : List (List Char × Node V) → List (List Char × Node V)
  | [] => []
  | (e', c') :: rest => if e = e' then rest else (e', c') :: dictRemove e rest

/-- Replace the node stored under a label, keeping the position. -/
def dictReplace (e : List Char) (n : Node V) (ch : List (List Char × Node V)) :
    List (List Char × Node V) :=
  ch.map (fun pr => if pr.1 = e then (pr.1, n) else pr)

/-- `RadixTreeNode.add_child`, including its silent guards: a compressed node or
an empty edge is refused; a multi-character edge is refused unless childless. -/
def Node.add_child (n : Node V) (e : List Char) (c : Node V) : Node V :=
  if n.is_compressed || e.length == 0 then n
  else if e.length > 1 && !n.has_no_child then n
  else .mk n.is_key n.get_data (dictInsert e c n.children)

/-- The character-by-character scan of `_match_edge` over a compressed edge.
Arguments: remaining edge characters, remaining key suffix, current offset in
the edge.  Returns (full match?, unconsumed key suffix, stop offset in edge). -/
def comprScan : List Char → List Char → Nat → Bool × List Char × Nat
  | [], s, _ => (true, s, 0)
  | _ :: _, [], j => (false, [], j)
  | c :: es, x :: xs, j => if c = x then comprScan es xs (j + 1) else (false, x :: xs, j)

/-- `RadixTree._match_edge`, phrased on the unconsumed key suffix instead of an
absolute position (`pos` in the source is the number of key characters already
consumed).  Returns (matched edge with its child — `None` on failure,
unconsumed suffix, offset inside a compressed edge where matching stopped). -/
def matchEdge (s : List Char) (cur : Node V) :
    Option (List Char × Node V) × List Char × Nat :=
  if cur.is_compressed then
    match cur.children with
    | (e, c) :: _ =>
      match comprScan e s 0 with
      | (true, rem, _) => (some (e, c), rem, 0)
      | (false, rem, j) => (none, rem, j)
    | [] => (none, s, 0)
  else
    match s with
    | [] => (none, s, 0)
    | x :: xs =>
      match cur.children.find? (fun pr => pr.1 = [x]) with
      | some (e, c) => (some (e, c), xs, 0)
      | none => (none, s, 0)

/-- One level of walk context: the fields of the parent node plus the label of
the edge the walk descended through (the "hole"). -/
structure Ctx (V : Type) where
  is_key : Bool
  data : Option V
  children : List (List Char × Node V)
  hole : List Char

/-- Rebuild the parent with the hole child replaced. -/
def Ctx.plug (ctx : Ctx V) (n : Node V) : Node V :=
  .mk ctx.is_key ctx.data (dictReplace ctx.hole n ctx.children)

/-- Rebuild a node from a list of contexts, outermost first. -/
def plugAll : List (Ctx V) → Node V → Node V
  | [], n => n
  | ctx :: cs, n => ctx.plug (plugAll cs n)

/-- Rebuild from contexts listed innermost first (as used when climbing). -/
def plugAllR (rctxs : List (Ctx V)) (n : Node V) : Node V :=
  rctxs.foldl (fun m c => c.plug m) n

theorem comprScan_true_len (e : List Char) :
    ∀ s j rem j', comprScan e s j = (true, rem, j') → s.length = e.length + rem.length := by
  induction e with
  | nil => intro s j rem j' h; simp [comprScan] at h; simp [h.1]
  | cons c es ih =>
    intro s j rem j' h
    match s with
    | [] => simp [comprScan] at h
    | x :: xs =>
      simp only [comprScan] at h
      by_cases hc : c = x
      · simp [hc] at h
        have := ih xs (j + 1) rem j' h
        simp [this]; omega
      · simp [hc] at h

theorem matchEdge_some_len (s : List Char) (cur : Node V) (e : List Char) (c : Node V)
    (rem : List Char) (j : Nat) (h : matchEdge s cur = (some (e, c), rem, j)) :
    rem.length < s.length := by
  unfold matchEdge at h
  split at h
  case isTrue hc =>
    split at h
    case h_1 e' c' rest hch =>
      split at h
      case h_1 rem' j' hscan =>
        simp only [Prod.mk.injEq, Option.some.injEq] at h
        obtain ⟨⟨he, _⟩, hrem, _⟩ := h
        subst hrem
        have hlen := comprScan_true_len e' s 0 _ j' hscan
        have hepos : 0 < e'.length := by
          unfold Node.is_compressed at hc
          rw [hch] at hc
          match rest with
          | [] => simp at hc; omega
          | _ :: _ => simp at hc
        omega
      case h_2 rem' j' hscan => simp at h
    case h_2 hch => simp at h
  case isFalse hc =>
    split at h
    case h_1 => simp at h
    case h_2 x xs =>
      split at h
      case h_1 pr e' c' hf =>
        simp only [Prod.mk.injEq, Option.some.injEq] at h
        obtain ⟨_, hrem, _⟩ := h
        simp [← hrem]
      case h_2 hf => simp at h

/-- `RadixTree._low_walk`, phrased on the unconsumed key suffix.  Returns the
contexts of the walk (outermost first), the stop node, the unconsumed suffix
(`i` in the source equals `key.length - rem.length`), and the offset inside a
compressed edge where matching stopped. -/
def lowWalkN (n : Node V) (s : List Char) :
    List (Ctx V) × Node V × List Char × Nat :=
  if n.has_no_child || s.length == 0 then ([], n, s, 0)
  else
    match hm : matchEdge s n with
    | (none, rem, j) => ([], n, rem, j)
    | (some (e, c), rem, _) =>
      let (cs, cur, r, j) := lowWalkN c rem
      (⟨n.is_key, n.get_data, n.children, e⟩ :: cs, cur, r, j)
  termination_by s.length
  decreasing_by exact matchEdge_some_len s n e c rem _ hm

/-- The `RadixTree` object: root node and the two counters. -/
structure RadixTree (V : Type) where
  head : Node V
  elem_cnt : Int
  node_cnt : Int

/-- `RadixTree.__init__`. -/
def RadixTree.empty : RadixTree V := ⟨.mk false none [], 0, 0⟩

/-- `RadixTree._find_key_node`: `none` models the raised `KeyError`. -/
def rax_find (t : RadixTree V) (key : List Char) : Option (Node V) :=
  match lowWalkN t.head key with
  | (_, cur, rem, j) =>
    if rem ≠ [] ∨ (cur.is_compressed ∧ j ≠ 0) ∨ cur.is_key = false then none
    else some cur

/-- `RadixTree.__getitem__`: the found node's data, `none` models `KeyError`. -/
def rax_get (t : RadixTree V) (key : List Char) : Option (Option V) :=
  (rax_find t key).map Node.get_data

/-- `RadixTree.__contains__` (catches the `KeyError` of `__getitem__`). -/
def rax_contains (t : RadixTree V) (key : List Char) : Bool :=
  (rax_get t key).isSome

/-- `__getitem__` with explicit state passing: the method body of the source
contains no assignment to any node or tree field, so the resulting tree is the
input tree. -/
def rax_get_st (t : RadixTree V) (key : List Char) : Option (Option V) × RadixTree V :=
  (rax_get t key, t)

/-- `__contains__` with explicit state passing (no mutation in the source). -/
def rax_contains_st (t : RadixTree V) (key : List Char) : Bool × RadixTree V :=
  (rax_contains t key, t)

/-- The suffix-extension loop at the end of `_insert_key_node` (lines 199-213):
while key characters remain, attach the whole remaining suffix as one
compressed edge when the current node is childless and more than one character
remains, otherwise attach a single-character edge; finally mark the last node
as a key node and store the value.  Returns the rebuilt subtree and the number
of nodes created. -/
def extendChain : Node V → List Char → V → Node V × Int
  | n, [], v => (.mk true (some v) n.children, 0)
  | n, ch :: cs, v =>
    if n.has_no_child && decide (cs.length + 1 > 1) then
      (n.add_child (ch :: cs) (.mk true (some v) []), 1)
    else
      let (child, d) := extendChain (.mk false none []) cs v
      (n.add_child [ch] child, d + 1)

/-- `_split_compressed_node`, `key_match_end = True` branch: the key ended `j`
characters into the compressed edge; split there and make the split point a new
key node holding the value (the caller adds 1 to both counters). -/
def splitEnd (cur : Node V) (j : Nat) (v : V) : Node V :=
  match cur.children with
  | (e, child) :: _ =>
    let sfx_node := Node.add_child (.mk true (some v) []) (e.drop j) child
    Node.add_child (.mk cur.is_key cur.get_data []) (e.take j) sfx_node
  | [] => cur

/-- `_split_compressed_node`, `key_match_end = False` branch, composed with the
suffix-extension loop that `_insert_key_node` runs afterwards from the split
node.  `j` is `trimmed_len`, `rem` the unconsumed key suffix.  Returns the
rebuilt subtree at the split node's original position and the number of nodes
created (split node if `j ≠ 0`, suffix node if characters remain after the
diverging one, plus the nodes of the extension). -/
def splitMidExtend (cur : Node V) (j : Nat) (rem : List Char) (v : V) : Node V × Int :=
  match cur.children with
  | (e, child) :: _ =>
    let sfx_len := e.length - j - 1
    let sfx_node := if sfx_len = 0 then child
                    else Node.add_child (.mk false none []) (e.drop (j + 1)) child
    let split0 : Node V := if j = 0 then .mk cur.is_key cur.get_data [] else .mk false none []
    let split1 := split0.add_child ((e.drop j).take 1) sfx_node
    let (split2, dN) := extendChain split1 rem v
    let newSub := if j = 0 then split2
                  else Node.add_child (.mk cur.is_key cur.get_data []) (e.take j) split2
    (newSub, ((if j = 0 then 0 else 1) + (if sfx_len = 0 then 0 else 1) : Int) + dN)
  | [] => (cur, 0)

/-- `RadixTree._insert_key_node` (`__setitem__`). -/
def rax_set (t : RadixTree V) (key : List Char) (v : V) : RadixTree V :=
  match lowWalkN t.head key with
  | (ctxs, cur, rem, j) =>
    let is_compr := cur.is_compressed
    if rem = [] ∧ (is_compr = false ∨ j = 0) then
      -- full match ending at a node boundary: set the value, mark as key
      ⟨plugAll ctxs (.mk true (some v) cur.children),
       t.elem_cnt + (if cur.is_key then 0 else 1), t.node_cnt⟩
    else if is_compr then
      if rem = [] then
        ⟨plugAll ctxs (splitEnd cur j v), t.elem_cnt + 1, t.node_cnt + 1⟩
      else
        match splitMidExtend cur j rem v with
        | (sub, dN) => ⟨plugAll ctxs sub, t.elem_cnt + 1, t.node_cnt + dN⟩
    else
      match extendChain cur rem v with
      | (sub, dN) => ⟨plugAll ctxs sub, t.elem_cnt + 1, t.node_cnt + dN⟩

/-- The upward pruning loop of `_delete_key_node` (lines 281-288): while a
parent exists, detach the current (childless) node, move up, and stop as soon
as the node reached is a key node or still has children.  Contexts are listed
innermost first.  Returns remaining contexts, the node where climbing stopped,
and the number of nodes removed. -/
def pruneUp : List (Ctx V) → Node V → List (Ctx V) × Node V × Int
  | [], cur => ([], cur, 0)
  | ctx :: rest, _cur =>
    let parentNode : Node V := .mk ctx.is_key ctx.data (dictRemove ctx.hole ctx.children)
    if parentNode.is_key ∨ ¬parentNode.has_no_child then (rest, parentNode, 1)
    else
      match pruneUp rest parentNode with
      | (cs, n, d) => (cs, n, d + 1)

/-- The upward climb of `_try_compress` (lines 299-301): move to the parent
while it is a non-key node with a single child.  Contexts innermost first. -/
def compressClimb : List (Ctx V) → Node V → List (Ctx V) × Node V
  | [], cur => ([], cur)
  | ctx :: rest, cur =>
    if ctx.is_key = false ∧ ctx.children.length = 1 then compressClimb rest (ctx.plug cur)
    else (ctx :: rest, cur)

theorem sizeOf_children_head (n : Node V) (e : List Char) (c : Node V)
    (rest : List (List Char × Node V))
    (h : n.children = (e, c) :: rest) : sizeOf c < sizeOf n := by
  cases n with
  | mk k d ch =>
    simp only [Node.children] at h
    subst h
    simp only [Node.mk.sizeOf_spec, List.cons.sizeOf_spec, Prod.mk.sizeOf_spec]
    omega

/-- The downward chain walk of `_try_compress` (lines 308-312): follow single
edges through non-key single-child nodes, collecting the edge labels.  Returns
the labels, their number (`count` increments), and the chain's terminal node. -/
def chainDescend (cur : Node V) : List (List Char) × Nat × Node V :=
  if cur.not_key_with_single_child then
    match hch : cur.children with
    | (e, c) :: _ =>
      match chainDescend c with
      | (es, k, t) => (e :: es, k + 1, t)
    | [] => ([], 0, cur)
  else ([], 0, cur)
  termination_by sizeOf cur
  decreasing_by exact sizeOf_children_head cur e c _ hch

/-- The merge step of `_try_compress` without the start extension: from `top`,
collect the chain; if it has at least two edges, replace everything below `top`
by one compressed edge to the terminal node. -/
def compressAt (rctxs : List (Ctx V)) (top : Node V) : Node V × Int :=
  match chainDescend top with
  | (es, k, term) =>
    if k ≤ 1 then (plugAllR rctxs top, 0)
    else (plugAllR rctxs ((Node.mk top.is_key top.get_data []).add_child es.flatten term),
          1 - (k : Int))

/-- `RadixTree._try_compress`: climb to the topmost non-key single-child node;
if its parent has exactly one child, that parent becomes the start of the merge
and its edge joins the path (lines 303-307); merge if the chain has length at
least 2 (`count <= 1` returns unchanged).  Returns the rebuilt root and the
`node_cnt` delta. -/
def tryCompress (rctxs : List (Ctx V)) (cur : Node V) : Node V × Int :=
  match compressClimb rctxs cur with
  | (ctx :: rest, top) =>
    if ctx.children.length = 1 then
      match chainDescend top with
      | (es, k, term) =>
        if 1 + k ≤ 1 then (plugAllR (ctx :: rest) top, 0)
        else (plugAllR rest
                ((Node.mk ctx.is_key ctx.data []).add_child ((ctx.hole :: es).flatten) term),
              0 - (k : Int))
    else compressAt (ctx :: rest) top
  | ([], top) => compressAt [] top

/-- `RadixTree._delete_key_node` (`__delitem__`): `none` models `KeyError`. -/
def rax_del (t : RadixTree V) (key : List Char) : Option (RadixTree V) :=
  match lowWalkN t.head key with
  | (ctxs, cur, rem, j) =>
    if rem ≠ [] ∨ (cur.is_compressed ∧ j ≠ 0) ∨ cur.is_key = false then none
    else
      let cur1 : Node V := .mk false none cur.children
      let rctxs := ctxs.reverse
      match (if cur1.has_no_child then pruneUp rctxs cur1 else (rctxs, cur1, 0)) with
      | (rctxs2, cur2, removed) =>
        if cur2.not_key_with_single_child then
          match tryCompress rctxs2 cur2 with
          | (h, d) => some ⟨h, t.elem_cnt - 1, t.node_cnt - removed + d⟩
        else some ⟨plugAllR rctxs2 cur2, t.elem_cnt - 1, t.node_cnt - removed⟩

/-- `__delitem__` wrapped so that `KeyError` leaves the tree unchanged, for
building operation sequences. -/
def applyDel (t : RadixTree V) (key : List Char) : RadixTree V :=
  (rax_del t key).getD t

/-- Ascending insertion sort by label: Python `sorted(self.children)`. -/
def sortIns (pr : List Char × Node V) : List (List Char × Node V) → List (List Char × Node V)
  | [] => [pr]
  | q :: rest => if lexLt pr.1 q.1 then pr :: q :: rest else q :: sortIns pr rest

def sortCh (ch : List (List Char × Node V)) : List (List Char × Node V) :=
  ch.foldr sortIns []

/-- Descending insertion sort by label: `sorted(self.children, reverse=True)`. -/
def sortInsD (pr : List Char × Node V) : List (List Char × Node V) → List (List Char × Node V)
  | [] => [pr]
  | q :: rest => if lexLt q.1 pr.1 then pr :: q :: rest else q :: sortInsD pr rest

def sortChD (ch : List (List Char × Node V)) : List (List Char × Node V) :=
  ch.foldr sortInsD []

theorem sizeOf_sortIns (pr : List Char × Node V) (l : List (List Char × Node V)) :
    sizeOf (sortIns pr l) = 1 + sizeOf pr + sizeOf l := by
  induction l with
  | nil => simp only [sortIns, List.cons.sizeOf_spec, List.nil.sizeOf_spec]
  | cons q rest ih =>
    simp only [sortIns]
    split
    · simp only [List.cons.sizeOf_spec]
    · simp only [List.cons.sizeOf_spec, ih]; omega

theorem sizeOf_sortCh (ch : List (List Char × Node V)) : sizeOf (sortCh ch) = sizeOf ch := by
  induction ch with
  | nil => rfl
  | cons q rest ih =>
    simp only [sortCh, List.foldr] at *
    rw [sizeOf_sortIns, ih]
    simp only [List.cons.sizeOf_spec]

theorem sizeOf_sortInsD (pr : List Char × Node V) (l : List (List Char × Node V)) :
    sizeOf (sortInsD pr l) = 1 + sizeOf pr + sizeOf l := by
  induction l with
  | nil => simp only [sortInsD, List.cons.sizeOf_spec, List.nil.sizeOf_spec]
  | cons q rest ih =>
    simp only [sortInsD]
    split
    · simp only [List.cons.sizeOf_spec]
    · simp only [List.cons.sizeOf_spec, ih]; omega

theorem sizeOf_sortChD (ch : List (List Char × Node V)) : sizeOf (sortChD ch) = sizeOf ch := by
  induction ch with
  | nil => rfl
  | cons q rest ih =>
    simp only [sortChD, List.foldr] at *
    rw [sizeOf_sortInsD, ih]
    simp only [List.cons.sizeOf_spec]

mutual
/-- `RadixTree._iter_key_nodes` (ascending traversal): keys are yielded when
descending into a child, sorted edges first-to-last; the root's own key flag is
never consulted, so a key stored at the root is never yielded. -/
def ascFrom : Node V → List (List Char)
  | .mk _ _ ch => ascL (sortCh ch)
  termination_by n => sizeOf n
  decreasing_by
    rw [sizeOf_sortCh]
    simp only [Node.mk.sizeOf_spec]
    omega

def ascL : List (List Char × Node V) → List (List Char)
  | [] => []
  | (e, c) :: rest =>
    (if c.is_key then [e] else []) ++ (ascFrom c).map (fun p => e ++ p) ++ ascL rest
  termination_by l => sizeOf l
  decreasing_by
  · simp only [Prod.mk.sizeOf_spec, List.cons.sizeOf_spec]; omega
  · simp only [Prod.mk.sizeOf_spec, List.cons.sizeOf_spec]; omega
end

mutual
/-- `RadixTree._reversed_key_nodes` (descending traversal): seek the greatest
descendant first, yield on the way back up; the loop's yield also runs when the
backtracking reaches the root, so a key stored at the root IS yielded (last). -/
def descFrom : Node V → List (List Char)
  | .mk k _ ch => descL (sortChD ch) ++ (if k then [[]] else [])
  termination_by n => sizeOf n
  decreasing_by
    rw [sizeOf_sortChD]
    simp only [Node.mk.sizeOf_spec]
    omega

def descL : List (List Char × Node V) → List (List Char)
  | [] => []
  | (e, c) :: rest => (descFrom c).map (fun p => e ++ p) ++ descL rest
  termination_by l => sizeOf l
  decreasing_by
  · simp only [Prod.mk.sizeOf_spec, List.cons.sizeOf_spec]; omega
  · simp only [Prod.mk.sizeOf_spec, List.cons.sizeOf_spec]; omega
end

/-- `__iter__`: ascending key sequence. -/
def ascKeys (t : RadixTree V) : List (List Char) := ascFrom t.head

/-- `__reversed__`: descending key sequence. -/
def descKeys (t : RadixTree V) : List (List Char) := descFrom t.head

mutual
/-- The key/value pairs stored in a subtree, in tree order (which is sorted
order for valid trees): the node's own entry first, then the children's
entries with the edge labels prepended. -/
def model : Node V → List (List Char × Option V)
  | .mk k d ch => (if k then [([], d)] else []) ++ modelL ch
  termination_by n => sizeOf n
  decreasing_by simp only [Node.mk.sizeOf_spec]; omega

def modelL : List (List Char × Node V) → List (List Char × Option V)
  | [] => []
  | (e, c) :: rest => (model c).map (fun p => (e ++ p.1, p.2)) ++ modelL rest
  termination_by l => sizeOf l
  decreasing_by
  · simp only [Prod.mk.sizeOf_spec, List.cons.sizeOf_spec]; omega
  · simp only [Prod.mk.sizeOf_spec, List.cons.sizeOf_spec]; omega
end

mutual
/-- The number of nodes strictly below a node (what `node_cnt` counts for the
whole tree, since the root is not counted). -/
def countBelow : Node V → Nat
  | .mk _ _ ch => countL ch
  termination_by n => sizeOf n
  decreasing_by simp only [Node.mk.sizeOf_spec]; omega

def countL : List (List Char × Node V) → Nat
  | [] => 0
  | (_, c) :: rest => 1 + countBelow c + countL rest
  termination_by l => sizeOf l
  decreasing_by
  · simp only [Prod.mk.sizeOf_spec, List.cons.sizeOf_spec]; omega
  · simp only [Prod.mk.sizeOf_spec, List.cons.sizeOf_spec]; omega
end

/-- A `set`/`delete` operation, for building operation sequences. -/
inductive Op (V : Type) where
  | set (k : List Char) (v : V) : Op V
  | del (k : List Char) : Op V

def applyOp (t : RadixTree V) : Op V → RadixTree V
  | .set k v => rax_set t k v
  | .del k => applyDel t k

def runOps (ops : List (Op V)) : RadixTree V :=
  ops.foldl applyOp RadixTree.empty

/-- Reference ordered associative array: lookup. -/
def mFind (k : List Char) : List (List Char × V) → Option V
  | [] => none
  | (k', v') :: rest => if k = k' then some v' else mFind k rest

/-- Reference ordered associative array: insert or replace, keeping keys sorted. -/
def mSet (k : List Char) (v : V) : List (List Char × V) → List (List Char × V)
  | [] => [(k, v)]
  | (k', v') :: rest =>
    if k = k' then (k, v) :: rest
    else if lexLt k k' then (k, v) :: (k', v') :: rest
    else (k', v') :: mSet k v rest

/-- Reference ordered associative array: delete; `none` models `KeyError`. -/
def mDel (k : List Char) : List (List Char × V) → Option (List (List Char × V))
  | [] => none
  | (k', v') :: rest =>
    if k = k' then some rest else (mDel k rest).map (fun l => (k', v') :: l)

def applyOpM (m : List (List Char × V)) : Op V → List (List Char × V)
  | .set k v => mSet k v m
  | .del k => (mDel k m).getD m

def runOpsM (ops : List (Op V)) : List (List Char × V) :=
  ops.foldl applyOpM []

/-! ### Order lemmas for `lexLt` -/

theorem lexLt_irrefl : ∀ a : List Char, lexLt a a = false
  | [] => rfl
  | x :: xs => by simp [lexLt, lexLt_irrefl xs]

theorem lexLt_trans : ∀ a b c : List Char,
    lexLt a b = true → lexLt b c = true → lexLt a c = true
  | [], _ :: _, _ :: _, _, _ => rfl
  | [], [], _, h, _ => by simp [lexLt] at h
  | [], _ :: _, [], _, h => by simp [lexLt] at h
  | _ :: _, [], _, h, _ => by simp [lexLt] at h
  | _ :: _, _ :: _, [], _, h => by simp [lexLt] at h
  | a :: as, b :: bs, c :: cs, h1, h2 => by
    simp only [lexLt] at *
    rcases lt_trichotomy a b with hab | hab | hab
    · rcases lt_trichotomy b c with hbc | hbc | hbc
      · simp [lt_trans hab hbc]
      · subst hbc; simp [hab]
      · simp [hbc, not_lt_of_gt hbc] at h2
    · subst hab
      rcases lt_trichotomy a c with hac | hac | hac
      · simp [hac]
      · subst hac
        simp only [lt_irrefl, if_false] at *
        exact lexLt_trans as bs cs h1 h2
      · simp [hac, not_lt_of_gt hac] at h2
    · simp [hab, not_lt_of_gt hab] at h1

theorem lexLt_eq_of_not : ∀ a b : List Char,
    lexLt a b = false → lexLt b a = false → a = b
  | [], [], _, _ => rfl
  | [], _ :: _, h, _ => by simp [lexLt] at h
  | _ :: _, [], _, h => by simp [lexLt] at h
  | a :: as, b :: bs, h1, h2 => by
    simp only [lexLt] at h1 h2
    rcases lt_trichotomy a b with hab | hab | hab
    · simp [hab] at h1
    · subst hab
      simp only [lt_irrefl, if_false] at h1 h2
      rw [lexLt_eq_of_not as bs h1 h2]
    · simp [hab] at h2

theorem lexLt_asymm {a b : List Char} (h : lexLt a b = true) : lexLt b a = false := by
  by_contra hc
  have hba : lexLt b a = true := by
    cases hba : lexLt b a
    · exact absurd hba hc
    · rfl
  have := lexLt_trans a b a h hba
  rw [lexLt_irrefl] at this
  exact Bool.noConfusion this

theorem lexLt_append_same : ∀ p a b : List Char, lexLt (p ++ a) (p ++ b) = lexLt a b
  | [], _, _ => rfl
  | x :: p, a, b => by simp [lexLt, lexLt_append_same p a b]

theorem lexLt_nil_cons (x : Char) (xs : List Char) : lexLt [] (x :: xs) = true := rfl

theorem lexLt_self_append (p : List Char) (x : Char) (xs : List Char) :
    lexLt p (p ++ x :: xs) = true := by
  have := lexLt_append_same p [] (x :: xs)
  simpa using this

theorem lexLt_cons_of_lt {a b : Char} (h : a < b) (s t : List Char) :
    lexLt (a :: s) (b :: t) = true := by simp [lexLt, h]

theorem lexLt_cons_same (a : Char) (s t : List Char) :
    lexLt (a :: s) (a :: t) = lexLt s t := by simp [lexLt]

theorem lexLt_singleton_iff {a b : Char} : lexLt [a] [b] = true ↔ a < b := by
  constructor
  · intro h
    simp only [lexLt] at h
    rcases lt_trichotomy a b with hab | hab | hab
    · exact hab
    · subst hab; simp at h
    · simp [hab, not_lt_of_gt hab] at h
  · intro h; exact lexLt_cons_of_lt h [] []

/-- If the first characters differ, the shorter tail is irrelevant. -/
theorem lexLt_cons_of_head_lt {a b : Char} (h : a < b) (s t : List Char) :
    lexLt (a :: s) (b :: t) = true := lexLt_cons_of_lt h s t

theorem lexLt_of_append_head_lt {a b : Char} (h : a < b) (s t : List Char) :
    lexLt (a :: s) (b :: t) = true := lexLt_cons_of_lt h s t

/-! ### The reference ordered associative array over `Option V` values
(the form in which the tree's contents are observed through `model`). -/

def lookupM (k : List Char) : List (List Char × Option V) → Option (Option V)
  | [] => none
  | (k', d') :: rest => if k = k' then some d' else lookupM k rest

def insertM (k : List Char) (d : Option V) : List (List Char × Option V) →
    List (List Char × Option V)
  | [] => [(k, d)]
  | (k', d') :: rest =>
    if k = k' then (k, d) :: rest
    else if lexLt k k' then (k, d) :: (k', d') :: rest
    else (k', d') :: insertM k d rest

def eraseM (k : List Char) : List (List Char × Option V) → List (List Char × Option V)
  | [] => []
  | (k', d') :: rest => if k = k' then rest else (k', d') :: eraseM k rest

/-! ### Structural induction over nodes -/

theorem sizeOf_mem_list {e : List Char} {c : Node V} :
    ∀ {ch : List (List Char × Node V)}, (e, c) ∈ ch → sizeOf c < sizeOf ch := by
  intro ch h
  induction ch with
  | nil => cases h
  | cons q rest ih =>
    rcases List.mem_cons.mp h with h | h
    · subst h
      simp only [List.cons.sizeOf_spec, Prod.mk.sizeOf_spec]
      omega
    · have := ih h
      simp only [List.cons.sizeOf_spec]
      omega

theorem sizeOf_mem_children {e : List Char} {c : Node V} {k : Bool} {d : Option V}
    {ch : List (List Char × Node V)} (h : (e, c) ∈ ch) :
    sizeOf c < sizeOf (Node.mk k d ch) := by
  have := sizeOf_mem_list h
  simp only [Node.mk.sizeOf_spec]
  omega

/-- Strong induction on the node structure, recursing into children. -/
theorem Node.strongInd {P : Node V → Prop}
    (h : ∀ k d ch, (∀ e c, (e, c) ∈ ch → P c) → P (.mk k d ch)) (n : Node V) : P n := by
  have main : ∀ N (n : Node V), sizeOf n ≤ N → P n := by
    intro N
    induction N with
    | zero =>
      intro n hn
      cases n with
      | mk k d ch => simp only [Node.mk.sizeOf_spec] at hn; omega
    | succ N ih =>
      intro n hn
      cases n with
      | mk k d ch =>
        apply h
        intro e c hmem
        apply ih
        have := sizeOf_mem_children (k := k) (d := d) hmem
        omega
  exact main (sizeOf n) n le_rfl

/-! ### `model` equations and segment lemmas -/

theorem model_mk (k : Bool) (d : Option V) (ch : List (List Char × Node V)) :
    model (.mk k d ch) = (if k then [([], d)] else []) ++ modelL ch := by
  rw [model]

theorem modelL_nil : modelL ([] : List (List Char × Node V)) = [] := by rw [modelL]

theorem modelL_cons (e : List Char) (c : Node V) (rest : List (List Char × Node V)) :
    modelL ((e, c) :: rest) = (model c).map (fun p => (e ++ p.1, p.2)) ++ modelL rest := by
  rw [modelL]

theorem modelL_append : ∀ l1 l2 : List (List Char × Node V),
    modelL (l1 ++ l2) = modelL l1 ++ modelL l2
  | [], l2 => by rw [modelL_nil]; rfl
  | (e, c) :: rest, l2 => by
    rw [List.cons_append, modelL_cons, modelL_cons, modelL_append rest l2, List.append_assoc]

theorem mem_modelL {pr : List Char × Option V} :
    ∀ {ch : List (List Char × Node V)},
    pr ∈ modelL ch ↔ ∃ e c, (e, c) ∈ ch ∧ ∃ q ∈ model c, pr = (e ++ q.1, q.2) := by
  intro ch
  induction ch with
  | nil =>
    rw [modelL_nil]
    simp
  | cons hd rest ih =>
    match hd with
    | (e, c) =>
      rw [modelL_cons]
      simp only [List.mem_append, List.mem_map, ih, List.mem_cons, Prod.mk.injEq]
      constructor
      · rintro (⟨q, hq, hpr⟩ | ⟨e', c', hm, q, hq, hpr⟩)
        · exact ⟨e, c, Or.inl ⟨rfl, rfl⟩, q, hq, hpr.symm ▸ rfl⟩
        · exact ⟨e', c', Or.inr hm, q, hq, hpr⟩
      · rintro ⟨e', c', h | hm, q, hq, hpr⟩
        · obtain ⟨he, hc⟩ := h
          subst he; subst hc
          exact Or.inl ⟨q, hq, by rw [hpr]⟩
        · exact Or.inr ⟨e', c', hm, q, hq, hpr⟩

/-! ### Lemmas about the associative-array operations -/

theorem lookupM_none_of_all_ne {k : List Char} :
    ∀ {l : List (List Char × Option V)}, (∀ pr ∈ l, pr.1 ≠ k) → lookupM k l = none := by
  intro l h
  induction l with
  | nil => rfl
  | cons q rest ih =>
    match q with
    | (k', d') =>
      have hne : k ≠ k' := fun hk => (h (k', d') (List.mem_cons_self _ _)) (hk ▸ rfl)
      simp only [lookupM, if_neg hne]
      exact ih (fun pr hpr => h pr (List.mem_cons_of_mem _ hpr))

theorem lookupM_append_right {k : List Char} {P S : List (List Char × Option V)}
    (h : ∀ pr ∈ P, pr.1 ≠ k) : lookupM k (P ++ S) = lookupM k S := by
  induction P with
  | nil => rfl
  | cons q rest ih =>
    match q with
    | (k', d') =>
      have hne : k ≠ k' := fun hk => (h (k', d') (List.mem_cons_self _ _)) (hk ▸ rfl)
      simp only [List.cons_append, lookupM, if_neg hne]
      exact ih (fun pr hpr => h pr (List.mem_cons_of_mem _ hpr))

theorem lookupM_map_same (e t : List Char) :
    ∀ M : List (List Char × Option V),
    lookupM (e ++ t) (M.map (fun p => (e ++ p.1, p.2))) = lookupM t M
  | [] => rfl
  | (k', d') :: rest => by
    simp only [List.map_cons, lookupM]
    by_cases h : t = k'
    · simp [h]
    · have : ¬ (e ++ t = e ++ k') := fun hc => h (List.append_cancel_left hc)
      simp only [if_neg h, if_neg this]
      exact lookupM_map_same e t rest

theorem insertM_append_right {k : List Char} {d : Option V}
    {P S : List (List Char × Option V)}
    (h : ∀ pr ∈ P, lexLt pr.1 k = true) : insertM k d (P ++ S) = P ++ insertM k d S := by
  induction P with
  | nil => rfl
  | cons q rest ih =>
    match q with
    | (k', d') =>
      have hlt : lexLt k' k = true := h (k', d') (List.mem_cons_self _ _)
      have hne : k ≠ k' := by
        intro hk; subst hk; rw [lexLt_irrefl] at hlt; exact Bool.noConfusion hlt
      have hnlt : lexLt k k' = false := lexLt_asymm hlt
      simp only [List.cons_append, insertM, if_neg hne, hnlt, Bool.false_eq_true, if_false,
        List.append_eq]
      rw [ih (fun pr hpr => h pr (List.mem_cons_of_mem _ hpr))]

theorem insertM_front {k : List Char} {d : Option V} {S : List (List Char × Option V)}
    (h : ∀ pr ∈ S, lexLt k pr.1 = true) : insertM k d S = (k, d) :: S := by
  cases S with
  | nil => rfl
  | cons q rest =>
    match q with
    | (k', d') =>
      have hlt : lexLt k k' = true := h (k', d') (List.mem_cons_self _ _)
      have hne : k ≠ k' := by
        intro hk; subst hk; rw [lexLt_irrefl] at hlt; exact Bool.noConfusion hlt
      simp only [insertM, if_neg hne, hlt, if_true]

theorem insertM_map_same (e t : List Char) (d : Option V) :
    ∀ M : List (List Char × Option V),
    insertM (e ++ t) d (M.map (fun p => (e ++ p.1, p.2))) =
      (insertM t d M).map (fun p => (e ++ p.1, p.2))
  | [] => rfl
  | (k', d') :: rest => by
    simp only [List.map_cons, insertM, lexLt_append_same]
    by_cases h : t = k'
    · simp [h]
    · have : ¬ (e ++ t = e ++ k') := fun hc => h (List.append_cancel_left hc)
      simp only [if_neg h, if_neg this]
      by_cases hlt : lexLt t k' = true
      · simp [hlt]
      · simp only [Bool.not_eq_true] at hlt
        simp only [hlt, Bool.false_eq_true, if_false, List.map_cons]
        rw [insertM_map_same e t d rest]

theorem eraseM_append_right {k : List Char} {P S : List (List Char × Option V)}
    (h : ∀ pr ∈ P, pr.1 ≠ k) : eraseM k (P ++ S) = P ++ eraseM k S := by
  induction P with
  | nil => rfl
  | cons q rest ih =>
    match q with
    | (k', d') =>
      have hne : k ≠ k' := fun hk => (h (k', d') (List.mem_cons_self _ _)) (hk ▸ rfl)
      simp only [List.cons_append, eraseM, if_neg hne, List.append_eq]
      rw [ih (fun pr hpr => h pr (List.mem_cons_of_mem _ hpr))]

theorem eraseM_cons_self (k : List Char) (d : Option V) (S : List (List Char × Option V)) :
    eraseM k ((k, d) :: S) = S := by simp [eraseM]

theorem eraseM_append_left {k : List Char} :
    ∀ {A : List (List Char × Option V)} (B : List (List Char × Option V)),
    (lookupM k A).isSome = true → eraseM k (A ++ B) = eraseM k A ++ B := by
  intro A B h
  induction A with
  | nil => simp [lookupM] at h
  | cons q rest ih =>
    match q with
    | (k', d') =>
      show eraseM k ((k', d') :: (rest ++ B)) = eraseM k ((k', d') :: rest) ++ B
      rw [eraseM, eraseM]
      by_cases hk : k = k'
      · rw [if_pos hk, if_pos hk]
      · rw [if_neg hk, if_neg hk, List.cons_append, ih]
        rw [lookupM, if_neg hk] at h
        exact h

theorem eraseM_map_same (e t : List Char) :
    ∀ M : List (List Char × Option V),
    eraseM (e ++ t) (M.map (fun p => (e ++ p.1, p.2))) =
      (eraseM t M).map (fun p => (e ++ p.1, p.2))
  | [] => rfl
  | (k', d') :: rest => by
    simp only [List.map_cons, eraseM]
    by_cases h : t = k'
    · rw [if_pos h, if_pos (by rw [h])]
    · rw [if_neg h, if_neg (fun hc => h (List.append_cancel_left hc)),
        eraseM_map_same e t rest]
      rfl

/-- Keys in strictly increasing lexicographic order. -/
def KSorted {α : Type} (l : List (List Char × α)) : Prop :=
  l.Pairwise (fun p q => lexLt p.1 q.1 = true)

theorem lookupM_isSome_mem {k : List Char} :
    ∀ {l : List (List Char × Option V)}, (lookupM k l).isSome → ∃ d, (k, d) ∈ l := by
  intro l h
  induction l with
  | nil => simp [lookupM] at h
  | cons q rest ih =>
    match q with
    | (k', d') =>
      by_cases hk : k = k'
      · exact ⟨d', by rw [hk]; exact List.mem_cons_self _ _⟩
      · simp only [lookupM, if_neg hk] at h
        obtain ⟨d, hd⟩ := ih h
        exact ⟨d, List.mem_cons_of_mem _ hd⟩

theorem insertM_length_present {k : List Char} {d : Option V} :
    ∀ {l : List (List Char × Option V)}, KSorted l → (lookupM k l).isSome →
      (insertM k d l).length = l.length := by
  intro l hs h
  induction l with
  | nil => simp [lookupM] at h
  | cons q rest ih =>
    match q with
    | (k', d') =>
      by_cases hk : k = k'
      · simp [insertM, hk]
      · simp only [lookupM, if_neg hk] at h
        rw [KSorted, List.pairwise_cons] at hs
        have hlen := ih hs.2 h
        simp only [insertM, if_neg hk]
        by_cases hlt : lexLt k k' = true
        · exfalso
          obtain ⟨dd, hdd⟩ := lookupM_isSome_mem h
          have := hs.1 (k, dd) hdd
          rw [lexLt_asymm this] at hlt
          exact Bool.noConfusion hlt
        · simp [hlt, hlen]

theorem insertM_length_absent {k : List Char} {d : Option V} :
    ∀ {l : List (List Char × Option V)}, lookupM k l = none →
      (insertM k d l).length = l.length + 1 := by
  intro l h
  induction l with
  | nil => rfl
  | cons q rest ih =>
    match q with
    | (k', d') =>
      by_cases hk : k = k'
      · simp [lookupM, hk] at h
      · simp only [lookupM, if_neg hk] at h
        simp only [insertM, if_neg hk]
        by_cases hlt : lexLt k k' = true
        · simp [hlt]
        · simp only [hlt, Bool.false_eq_true, if_false, List.length_cons, ih h]

theorem eraseM_length_present {k : List Char} :
    ∀ {l : List (List Char × Option V)}, (lookupM k l).isSome →
      l.length = (eraseM k l).length + 1 := by
  intro l h
  induction l with
  | nil => simp [lookupM] at h
  | cons q rest ih =>
    match q with
    | (k', d') =>
      by_cases hk : k = k'
      · simp [eraseM, hk]
      · simp only [lookupM, if_neg hk] at h
        simp only [eraseM, if_neg hk, List.length_cons, ih h]

/-! ### The structural invariant maintained by the code

Components (of a valid subtree rooted at a node):
* a key node has stored data;
* children are strictly sorted by label and labels are nonempty;
* a node with two or more children reaches each through a length-1 label;
* a childless child is a key node (pruning never leaves a non-key leaf);
* if a node has exactly one child and is a non-key node or reaches the child
  through a compressed (length > 1) edge, the child is not a non-key node with
  exactly one child (otherwise recompression would have merged them). -/

/-- A non-key node with exactly one child (`not_key_with_single_child` as a Prop). -/
def nksc (n : Node V) : Prop := n.is_key = false ∧ n.children.length = 1

instance (n : Node V) : Decidable (nksc n) := by unfold nksc; infer_instance

theorem nksc_iff_bool (n : Node V) : nksc n ↔ n.not_key_with_single_child = true := by
  unfold nksc Node.not_key_with_single_child Node.children_num
  cases hk : n.is_key <;> simp

mutual
def Valid : Node V → Prop
  | .mk k d ch =>
    (k = true → d.isSome = true) ∧
    KSorted ch ∧
    (∀ pr ∈ ch, pr.1 ≠ []) ∧
    (2 ≤ ch.length → ∀ pr ∈ ch, pr.1.length = 1) ∧
    (∀ pr ∈ ch, pr.2.children = [] → pr.2.is_key = true) ∧
    (∀ e c, ch = [(e, c)] → (k = false ∨ 1 < e.length) → ¬ nksc c) ∧
    ValidL ch
  termination_by n => sizeOf n
  decreasing_by simp only [Node.mk.sizeOf_spec]; omega

def ValidL : List (List Char × Node V) → Prop
  | [] => True
  | (_, c) :: rest => Valid c ∧ ValidL rest
  termination_by l => sizeOf l
  decreasing_by
  · simp only [Prod.mk.sizeOf_spec, List.cons.sizeOf_spec]; omega
  · simp only [Prod.mk.sizeOf_spec, List.cons.sizeOf_spec]; omega
end

theorem Valid_mk (k : Bool) (d : Option V) (ch : List (List Char × Node V)) :
    Valid (.mk k d ch) ↔
    ((k = true → d.isSome = true) ∧
     KSorted ch ∧
     (∀ pr ∈ ch, pr.1 ≠ []) ∧
     (2 ≤ ch.length → ∀ pr ∈ ch, pr.1.length = 1) ∧
     (∀ pr ∈ ch, pr.2.children = [] → pr.2.is_key = true) ∧
     (∀ e c, ch = [(e, c)] → (k = false ∨ 1 < e.length) → ¬ nksc c) ∧
     ValidL ch) := by
  rw [Valid]

theorem ValidL_iff : ∀ {ch : List (List Char × Node V)},
    ValidL ch ↔ ∀ pr ∈ ch, Valid pr.2 := by
  intro ch
  induction ch with
  | nil => rw [ValidL]; simp
  | cons q rest ih =>
    match q with
    | (e, c) =>
      rw [ValidL, ih]
      constructor
      · rintro ⟨hc, hrest⟩ pr hpr
        rcases List.mem_cons.mp hpr with h | h
        · rw [h]; exact hc
        · exact hrest pr h
      · intro h
        exact ⟨h (e, c) (List.mem_cons_self _ _),
               fun pr hpr => h pr (List.mem_cons_of_mem _ hpr)⟩

theorem Valid.sortedCh {n : Node V} (h : Valid n) : KSorted n.children := by
  cases n with
  | mk k d ch => exact ((Valid_mk k d ch).mp h).2.1

theorem Valid.dataOk {n : Node V} (h : Valid n) : n.is_key = true → n.get_data.isSome = true := by
  cases n with
  | mk k d ch => exact ((Valid_mk k d ch).mp h).1

theorem Valid.labelsNe {n : Node V} (h : Valid n) : ∀ pr ∈ n.children, pr.1 ≠ [] := by
  cases n with
  | mk k d ch => exact ((Valid_mk k d ch).mp h).2.2.1

theorem Valid.multiLen1 {n : Node V} (h : Valid n) :
    2 ≤ n.children.length → ∀ pr ∈ n.children, pr.1.length = 1 := by
  cases n with
  | mk k d ch => exact ((Valid_mk k d ch).mp h).2.2.2.1

theorem Valid.leafKeys {n : Node V} (h : Valid n) :
    ∀ pr ∈ n.children, (pr.2 : Node V).children = [] → pr.2.is_key = true := by
  cases n with
  | mk k d ch => exact ((Valid_mk k d ch).mp h).2.2.2.2.1

theorem Valid.noChain {n : Node V} (h : Valid n) :
    ∀ e c, n.children = [(e, c)] → (n.is_key = false ∨ 1 < e.length) → ¬ nksc c := by
  cases n with
  | mk k d ch => exact ((Valid_mk k d ch).mp h).2.2.2.2.2.1

theorem Valid.childValid {n : Node V} (h : Valid n) : ∀ pr ∈ n.children, Valid pr.2 := by
  cases n with
  | mk k d ch => exact ValidL_iff.mp ((Valid_mk k d ch).mp h).2.2.2.2.2.2

/-! ### Sorted association lists of children -/

theorem KSorted_labels_unique {ch : List (List Char × Node V)} (hs : KSorted ch)
    {e : List Char} {c c' : Node V} (h1 : (e, c) ∈ ch) (h2 : (e, c') ∈ ch) : c = c' := by
  induction ch with
  | nil => cases h1
  | cons q rest ih =>
    rw [KSorted, List.pairwise_cons] at hs
    rcases List.mem_cons.mp h1 with h1 | h1 <;> rcases List.mem_cons.mp h2 with h2 | h2
    · rw [← h2] at h1
      simp only [Prod.mk.injEq] at h1
      exact h1.2
    · exfalso
      have := hs.1 _ h2
      rw [← h1] at this
      simp only at this
      rw [lexLt_irrefl] at this
      exact Bool.noConfusion this
    · exfalso
      have := hs.1 _ h1
      rw [← h2] at this
      simp only at this
      rw [lexLt_irrefl] at this
      exact Bool.noConfusion this
    · exact ih hs.2 h1 h2

/-- Decompose a sorted children list around a member. -/
theorem mem_decomp_sorted {ch : List (List Char × Node V)} (hs : KSorted ch)
    {e : List Char} {c : Node V} (hm : (e, c) ∈ ch) :
    ∃ P S, ch = P ++ (e, c) :: S ∧ (∀ pr ∈ P, lexLt pr.1 e = true) ∧
      (∀ pr ∈ S, lexLt e pr.1 = true) := by
  obtain ⟨P, S, hch⟩ := List.append_of_mem hm
  refine ⟨P, S, hch, ?_, ?_⟩
  · intro pr hpr
    subst hch
    rw [KSorted, List.pairwise_append] at hs
    exact hs.2.2 pr hpr (e, c) (List.mem_cons_self _ _)
  · intro pr hpr
    subst hch
    rw [KSorted, List.pairwise_append] at hs
    have := hs.2.1
    rw [List.pairwise_cons] at this
    exact this.1 pr hpr

/-- `dictReplace` leaves entries with other labels unchanged. -/
theorem dictReplace_keep {e : List Char} {X : Node V} :
    ∀ {l : List (List Char × Node V)}, (∀ pr ∈ l, pr.1 ≠ e) → dictReplace e X l = l := by
  intro l h
  induction l with
  | nil => rfl
  | cons q rest ih =>
    simp only [dictReplace, List.map_cons, if_neg (h q (List.mem_cons_self _ _))]
    have := ih (fun pr hpr => h pr (List.mem_cons_of_mem _ hpr))
    unfold dictReplace at this
    rw [this]

theorem dictReplace_append (e : List Char) (X : Node V) (P S : List (List Char × Node V)) :
    dictReplace e X (P ++ S) = dictReplace e X P ++ dictReplace e X S := by
  unfold dictReplace; rw [List.map_append]

theorem dictReplace_cons_self (e : List Char) (X c : Node V) (S : List (List Char × Node V)) :
    dictReplace e X ((e, c) :: S) = (e, X) :: dictReplace e X S := by
  simp [dictReplace]

theorem dictReplace_decomp {P S : List (List Char × Node V)} {e : List Char}
    {c : Node V} (X : Node V)
    (hP : ∀ pr ∈ P, pr.1 ≠ e) (hS : ∀ pr ∈ S, pr.1 ≠ e) :
    dictReplace e X (P ++ (e, c) :: S) = P ++ (e, X) :: S := by
  rw [dictReplace_append, dictReplace_cons_self, dictReplace_keep hP, dictReplace_keep hS]

theorem lexLt_ne {a b : List Char} (h : lexLt a b = true) : a ≠ b := by
  intro hab
  subst hab
  rw [lexLt_irrefl] at h
  exact Bool.noConfusion h

/-- Plugging back the child that is already there reconstructs the parent. -/
theorem dictReplace_self {ch : List (List Char × Node V)} (hs : KSorted ch)
    {e : List Char} {c : Node V} (hm : (e, c) ∈ ch) : dictReplace e c ch = ch := by
  obtain ⟨P, S, hch, hP, hS⟩ := mem_decomp_sorted hs hm
  subst hch
  exact dictReplace_decomp c (fun pr hpr => lexLt_ne (hP pr hpr))
    (fun pr hpr => (lexLt_ne (hS pr hpr)).symm)

theorem dictReplace_labels (e : List Char) (X : Node V) (ch : List (List Char × Node V)) :
    (dictReplace e X ch).map Prod.fst = ch.map Prod.fst := by
  unfold dictReplace
  rw [List.map_map]
  apply List.map_congr_left
  intro pr _
  by_cases h : pr.1 = e <;> simp [h]

theorem dictReplace_length (e : List Char) (X : Node V) (ch : List (List Char × Node V)) :
    (dictReplace e X ch).length = ch.length := by
  unfold dictReplace; rw [List.length_map]

theorem KSorted_of_labels_eq {α β : Type} {l1 : List (List Char × α)}
    {l2 : List (List Char × β)} (h : l1.map Prod.fst = l2.map Prod.fst)
    (hs : KSorted l2) : KSorted l1 := by
  have h2 : (l2.map Prod.fst).Pairwise (fun a b => lexLt a b = true) := by
    rw [List.pairwise_map]
    exact hs
  rw [← h, List.pairwise_map] at h2
  exact h2

theorem length_one_mem_eq {α : Type} {l : List α} {x : α}
    (hlen : l.length = 1) (hm : x ∈ l) : l = [x] := by
  match l with
  | [y] =>
    rcases List.mem_singleton.mp hm with h
    rw [h]
  | [] => cases hm
  | _ :: _ :: _ => simp at hlen

/-! ### Plugging lemmas -/

theorem plug_is_key (ctx : Ctx V) (X : Node V) : (ctx.plug X).is_key = ctx.is_key := rfl

theorem plug_get_data (ctx : Ctx V) (X : Node V) : (ctx.plug X).get_data = ctx.data := rfl

theorem plug_children (ctx : Ctx V) (X : Node V) :
    (ctx.plug X).children = dictReplace ctx.hole X ctx.children := rfl

theorem plug_children_length (ctx : Ctx V) (X : Node V) :
    (ctx.plug X).children.length = ctx.children.length := by
  rw [plug_children, dictReplace_length]

theorem nksc_plug_iff (ctx : Ctx V) (X : Node V) :
    nksc (ctx.plug X) ↔ nksc (Node.mk ctx.is_key ctx.data ctx.children) := by
  unfold nksc
  rw [plug_is_key, plug_children_length]
  exact Iff.rfl

theorem plugAllR_nil (X : Node V) : plugAllR [] X = X := rfl

theorem plugAllR_cons (ctx : Ctx V) (rest : List (Ctx V)) (X : Node V) :
    plugAllR (ctx :: rest) X = plugAllR rest (ctx.plug X) := rfl

/-- The walk contexts, innermost first: each context's hole names a child of
its (valid) parent node, and the next context holds that parent. -/
def RGood : List (Ctx V) → Node V → Prop
  | [], _ => True
  | ctx :: rest, cur => (ctx.hole, cur) ∈ ctx.children ∧
      Valid (Node.mk ctx.is_key ctx.data ctx.children) ∧
      RGood rest (Node.mk ctx.is_key ctx.data ctx.children)

theorem RGood_nil (cur : Node V) : RGood [] cur := trivial

theorem mem_dictReplace {pr : List Char × Node V} {e : List Char} {X : Node V}
    {ch : List (List Char × Node V)} (h : pr ∈ dictReplace e X ch) :
    ∃ pr0 ∈ ch, (pr0.1 = e ∧ pr = (pr0.1, X)) ∨ (pr0.1 ≠ e ∧ pr = pr0) := by
  unfold dictReplace at h
  obtain ⟨pr0, hpr0, heq⟩ := List.mem_map.mp h
  refine ⟨pr0, hpr0, ?_⟩
  by_cases hc : pr0.1 = e
  · left
    rw [if_pos hc] at heq
    exact ⟨hc, heq.symm⟩
  · right
    rw [if_neg hc] at heq
    exact ⟨hc, heq.symm⟩

/-- Replacing the hole child of a valid parent by a valid node `X` keeps the
parent valid, provided `X` is a key node if childless, and the single-child
conditions at the parent are not violated by `X`. -/
theorem plug_valid {ctx : Ctx V} {c0 X : Node V}
    (hmem : (ctx.hole, c0) ∈ ctx.children)
    (hpar : Valid (Node.mk ctx.is_key ctx.data ctx.children))
    (hX : Valid X)
    (bc1 : X.children = [] → X.is_key = true)
    (bc2 : ctx.children.length = 1 → (ctx.is_key = false ∨ 1 < ctx.hole.length) → ¬ nksc X) :
    Valid (ctx.plug X) := by
  have hsort : KSorted ctx.children := hpar.sortedCh
  rw [Ctx.plug, Valid_mk]
  have hlabels := dictReplace_labels ctx.hole X ctx.children
  refine ⟨?_, ?_, ?_, ?_, ?_, ?_, ?_⟩
  · exact hpar.dataOk
  · exact KSorted_of_labels_eq hlabels hsort
  · intro pr hpr
    obtain ⟨pr0, hpr0, hcase⟩ := mem_dictReplace hpr
    rcases hcase with ⟨_, hpr'⟩ | ⟨_, hpr'⟩
    · rw [hpr']
      exact hpar.labelsNe pr0 hpr0
    · rw [hpr']
      exact hpar.labelsNe pr0 hpr0
  · intro hlen pr hpr
    rw [dictReplace_length] at hlen
    obtain ⟨pr0, hpr0, hcase⟩ := mem_dictReplace hpr
    rcases hcase with ⟨_, hpr'⟩ | ⟨_, hpr'⟩
    · rw [hpr']
      exact hpar.multiLen1 hlen pr0 hpr0
    · rw [hpr']
      exact hpar.multiLen1 hlen pr0 hpr0
  · intro pr hpr
    obtain ⟨pr0, hpr0, hcase⟩ := mem_dictReplace hpr
    rcases hcase with ⟨_, hpr'⟩ | ⟨_, hpr'⟩
    · rw [hpr']
      exact bc1
    · rw [hpr']
      exact hpar.leafKeys pr0 hpr0
  · intro e c heq hcond
    have hlen : ctx.children.length = 1 := by
      have := dictReplace_length ctx.hole X ctx.children
      rw [heq] at this
      simpa using this.symm
    have hch : ctx.children = [(ctx.hole, c0)] := length_one_mem_eq hlen hmem
    have : dictReplace ctx.hole X ctx.children = [(ctx.hole, X)] := by
      rw [hch]
      exact dictReplace_cons_self _ _ _ _
    rw [this] at heq
    have he : e = ctx.hole := by
      have := congrArg (fun l => List.map Prod.fst l) heq
      simpa using this.symm
    have hc : c = X := by
      have := congrArg (fun l => List.map Prod.snd l) heq
      simpa using this.symm
    subst he; subst hc
    exact bc2 hlen hcond
  · rw [ValidL_iff]
    intro pr hpr
    obtain ⟨pr0, hpr0, hcase⟩ := mem_dictReplace hpr
    rcases hcase with ⟨_, hpr'⟩ | ⟨_, hpr'⟩
    · rw [hpr']
      exact hX
    · rw [hpr']
      exact hpar.childValid pr0 hpr0

/-- Rebuilding outward through valid contexts preserves validity.  Only the
innermost context's single-child conditions need to be checked against `X`:
further out, the rebuilt node has the same key flag and number of children as
the original node there, whose conditions the original tree satisfied. -/
theorem plugAllR_valid : ∀ (rctxs : List (Ctx V)) (cur X : Node V), RGood rctxs cur →
    Valid X →
    (X.children = [] → X.is_key = true) →
    (∀ ctx rest, rctxs = ctx :: rest → ctx.children.length = 1 →
      (ctx.is_key = false ∨ 1 < ctx.hole.length) → ¬ nksc X) →
    Valid (plugAllR rctxs X)
  | [], _, X, _, hX, _, _ => hX
  | ctx :: rest, cur, X, hg, hX, bc1, bc2 => by
    obtain ⟨hmem, hpar, hrest⟩ := hg
    rw [plugAllR_cons]
    apply plugAllR_valid rest (Node.mk ctx.is_key ctx.data ctx.children) (ctx.plug X) hrest
    · exact plug_valid hmem hpar hX bc1 (bc2 ctx rest rfl)
    · intro hch
      exfalso
      have := plug_children_length ctx X
      rw [hch] at this
      simp only [List.length_nil] at this
      have hpos : 0 < ctx.children.length := List.length_pos_of_mem hmem
      omega
    · intro ctx2 rest2 heq hlen hcond
      subst heq
      obtain ⟨hmem2, hpar2, _⟩ := hrest
      have hch2 : ctx2.children = [(ctx2.hole, Node.mk ctx.is_key ctx.data ctx.children)] :=
        length_one_mem_eq hlen hmem2
      have hnn := hpar2.noChain ctx2.hole (Node.mk ctx.is_key ctx.data ctx.children) hch2 hcond
      rw [nksc_plug_iff]
      exact hnn

/-! ### Model and node count under plugging -/

theorem countBelow_mk (k : Bool) (d : Option V) (ch : List (List Char × Node V)) :
    countBelow (.mk k d ch) = countL ch := by rw [countBelow]

theorem countL_nil : countL ([] : List (List Char × Node V)) = 0 := by rw [countL]

theorem countL_cons (e : List Char) (c : Node V) (rest : List (List Char × Node V)) :
    countL ((e, c) :: rest) = 1 + countBelow c + countL rest := by rw [countL]

theorem countL_append : ∀ l1 l2 : List (List Char × Node V),
    countL (l1 ++ l2) = countL l1 + countL l2
  | [], l2 => by rw [List.nil_append, countL_nil, Nat.zero_add]
  | (e, c) :: rest, l2 => by
    rw [List.cons_append, countL_cons, countL_cons, countL_append rest l2]
    omega

theorem map_prepend_prepend (f e : List Char) (M : List (List Char × Option V)) :
    (M.map (fun p => (e ++ p.1, p.2))).map (fun p => (f ++ p.1, p.2)) =
      M.map (fun p => ((f ++ e) ++ p.1, p.2)) := by
  rw [List.map_map]
  apply List.map_congr_left
  intro p _
  simp [List.append_assoc]

/-- Decompose a context around its hole. -/
theorem plug_decomp {ctx : Ctx V} {c0 : Node V}
    (hmem : (ctx.hole, c0) ∈ ctx.children) (hs : KSorted ctx.children) :
    ∃ P S, ctx.children = P ++ (ctx.hole, c0) :: S ∧
      (∀ pr ∈ P, lexLt pr.1 ctx.hole = true) ∧
      (∀ pr ∈ S, lexLt ctx.hole pr.1 = true) ∧
      (∀ X, ctx.plug X = Node.mk ctx.is_key ctx.data (P ++ (ctx.hole, X) :: S)) := by
  obtain ⟨P, S, hch, hP, hS⟩ := mem_decomp_sorted hs hmem
  refine ⟨P, S, hch, hP, hS, fun X => ?_⟩
  rw [Ctx.plug, hch]
  rw [dictReplace_decomp X (fun pr hpr => lexLt_ne (hP pr hpr))
    (fun pr hpr => (lexLt_ne (hS pr hpr)).symm)]

/-- The model and node count of the whole tree, as functions of the node
plugged in at the walk position. -/
theorem plugAllR_decomp : ∀ (rctxs : List (Ctx V)) (cur : Node V), RGood rctxs cur →
    ∃ (Pm Sm : List (List Char × Option V)) (path : List Char) (cE : Nat),
      path = ((rctxs.map Ctx.hole).reverse).flatten ∧
      (∀ X : Node V, model (plugAllR rctxs X) =
        Pm ++ (model X).map (fun p => (path ++ p.1, p.2)) ++ Sm) ∧
      (∀ X : Node V, countBelow (plugAllR rctxs X) = cE + rctxs.length + countBelow X)
  | [], cur, _ => by
    refine ⟨[], [], [], 0, by simp, fun X => ?_, fun X => by simp [plugAllR_nil]⟩
    rw [plugAllR_nil]
    simp only [List.nil_append, List.append_nil]
    rw [List.map_congr_left]
    · rw [List.map_id]
    · intro p _
      simp
  | ctx :: rest, cur, hg => by
    obtain ⟨hmem, hpar, hrest⟩ := hg
    obtain ⟨Pm', Sm', path', cE', hpath', hmodel', hcount'⟩ :=
      plugAllR_decomp rest (Node.mk ctx.is_key ctx.data ctx.children) hrest
    obtain ⟨P, S, hch, _, _, hplug⟩ := plug_decomp hmem hpar.sortedCh
    refine ⟨Pm' ++ ((if ctx.is_key then [(([] : List Char), ctx.data)] else []) ++
        modelL P).map (fun p => (path' ++ p.1, p.2)),
      (modelL S).map (fun p => (path' ++ p.1, p.2)) ++ Sm',
      path' ++ ctx.hole,
      cE' + (countL P + countL S), ?_, fun X => ?_, fun X => ?_⟩
    · rw [hpath']
      simp [List.flatten_append]
    · rw [plugAllR_cons, hmodel' (ctx.plug X), hplug X, model_mk, modelL_append, modelL_cons]
      simp only [List.map_append, map_prepend_prepend]
      simp [List.append_assoc]
    · rw [plugAllR_cons, hcount' (ctx.plug X), hplug X, countBelow_mk, countL_append, countL_cons]
      simp only [List.length_cons]
      omega

/-! ### Characterization of edge matching and the walk -/

theorem is_compressed_iff {cur : Node V} :
    cur.is_compressed = true ↔ ∃ e c, cur.children = [(e, c)] ∧ 1 < e.length := by
  unfold Node.is_compressed
  constructor
  · intro h
    match hch : cur.children with
    | [(e, c)] =>
      rw [hch] at h
      simp only [decide_eq_true_eq] at h
      exact ⟨e, c, rfl, h⟩
    | [] => rw [hch] at h; simp at h
    | _ :: _ :: _ => rw [hch] at h; simp at h
  · rintro ⟨e, c, hch, hlen⟩
    rw [hch]
    simpa using hlen

theorem comprScan_true_spec : ∀ (e s : List Char) (j0 : Nat) {rem : List Char} {j' : Nat},
    comprScan e s j0 = (true, rem, j') → s = e ++ rem
  | [], s, j0, rem, j', h => by
    simp only [comprScan, Prod.mk.injEq] at h
    rw [h.2.1]
    rfl
  | c :: es, [], j0, rem, j', h => by simp [comprScan] at h
  | c :: es, x :: xs, j0, rem, j', h => by
    simp only [comprScan] at h
    by_cases hc : c = x
    · rw [if_pos hc] at h
      have := comprScan_true_spec es xs (j0 + 1) h
      rw [List.cons_append, ← this, hc]
    · rw [if_neg hc] at h
      simp at h

theorem comprScan_false_spec : ∀ (e s : List Char) (j0 : Nat) {rem : List Char} {j' : Nat},
    comprScan e s j0 = (false, rem, j') →
    ∃ jd, j' = j0 + jd ∧ jd < e.length ∧ jd ≤ s.length ∧ e.take jd = s.take jd ∧
      rem = s.drop jd ∧
      (s.length = jd ∨ (jd < s.length ∧ e.getD jd 'A' ≠ s.getD jd 'A'))
  | [], s, j0, rem, j', h => by simp [comprScan] at h
  | c :: es, [], j0, rem, j', h => by
    simp only [comprScan, Prod.mk.injEq] at h
    refine ⟨0, by omega, by simp, by simp, by simp, by simp [h.2.1], Or.inl rfl⟩
  | c :: es, x :: xs, j0, rem, j', h => by
    simp only [comprScan] at h
    by_cases hc : c = x
    · rw [if_pos hc] at h
      obtain ⟨jd, hj', hlt, hle, htake, hrem, hlast⟩ := comprScan_false_spec es xs (j0 + 1) h
      refine ⟨jd + 1, by omega, by simp; omega, by simp; omega, ?_, ?_, ?_⟩
      · simp only [List.take_succ_cons, hc, htake]
      · simp only [List.drop_succ_cons, hrem]
      · rcases hlast with hl | ⟨hlt2, hne⟩
        · left; simp [hl]
        · right
          refine ⟨by simp; omega, ?_⟩
          simpa using hne
    · rw [if_neg hc] at h
      simp only [Prod.mk.injEq] at h
      refine ⟨0, by omega, by simp, by simp, by simp, by simp [← h.2.1], Or.inr ⟨by simp, ?_⟩⟩
      simpa using hc

theorem matchEdge_some_spec {s : List Char} {cur : Node V} {e : List Char} {c : Node V}
    {rem : List Char} {j : Nat} (h : matchEdge s cur = (some (e, c), rem, j)) :
    (e, c) ∈ cur.children ∧ s = e ++ rem ∧ j = 0 ∧ e ≠ [] := by
  unfold matchEdge at h
  split at h
  case isTrue hc =>
    obtain ⟨e0, c0, hch, hlen⟩ := is_compressed_iff.mp hc
    rw [hch] at h
    simp only at h
    split at h
    case h_1 rem' j' hscan =>
      simp only [Prod.mk.injEq, Option.some.injEq] at h
      obtain ⟨⟨he, hc'⟩, hrem, hj⟩ := h
      rw [← he, ← hc', ← hrem, ← hj]
      refine ⟨by rw [hch]; exact List.mem_singleton.mpr rfl,
        comprScan_true_spec e0 s 0 hscan, rfl, ?_⟩
      intro hnil
      rw [hnil] at hlen
      simp at hlen
    case h_2 => simp at h
  case isFalse hc =>
    split at h
    case h_1 => simp at h
    case h_2 x xs =>
      split at h
      case h_1 pr e' c' hf =>
        simp only [Prod.mk.injEq, Option.some.injEq] at h
        obtain ⟨⟨he, hc'⟩, hrem, hj⟩ := h
        rw [← he, ← hc', ← hrem, ← hj]
        have hmem := List.mem_of_find?_eq_some hf
        have hpred := List.find?_some hf
        simp only [decide_eq_true_eq] at hpred
        exact ⟨hmem, by rw [hpred]; rfl, rfl, by rw [hpred]; simp⟩
      case h_2 => simp at h

theorem matchEdge_none_spec {s : List Char} {cur : Node V} {rem : List Char} {j : Nat}
    (h : matchEdge s cur = (none, rem, j)) :
    (∃ e c, cur.is_compressed = true ∧ cur.children = [(e, c)] ∧ 1 < e.length ∧
      j < e.length ∧ j ≤ s.length ∧ e.take j = s.take j ∧ rem = s.drop j ∧
      (s.length = j ∨ (j < s.length ∧ e.getD j 'A' ≠ s.getD j 'A'))) ∨
    (cur.is_compressed = false ∧ rem = s ∧ j = 0 ∧
      (s = [] ∨ ∃ x xs, s = x :: xs ∧ ∀ pr ∈ cur.children, pr.1 ≠ [x])) := by
  unfold matchEdge at h
  split at h
  case isTrue hc =>
    obtain ⟨e0, c0, hch, hlen⟩ := is_compressed_iff.mp hc
    rw [hch] at h
    simp only at h
    split at h
    case h_1 => simp at h
    case h_2 rem' j' hscan =>
      simp only [Prod.mk.injEq] at h
      obtain ⟨_, hrem, hj⟩ := h
      subst hrem; subst hj
      obtain ⟨jd, hj', hlt, hle, htake, hrem, hlast⟩ := comprScan_false_spec e0 s 0 hscan
      simp only [Nat.zero_add] at hj'
      subst hj'
      exact Or.inl ⟨e0, c0, hc, hch, hlen, hlt, hle, htake, hrem, hlast⟩
  case isFalse hc =>
    rw [Bool.not_eq_true] at hc
    split at h
    case h_1 =>
      simp only [Prod.mk.injEq] at h
      exact Or.inr ⟨hc, h.2.1.symm, h.2.2.symm, Or.inl rfl⟩
    case h_2 x xs =>
      split at h
      case h_1 => simp at h
      case h_2 hf =>
        simp only [Prod.mk.injEq] at h
        refine Or.inr ⟨hc, h.2.1.symm, h.2.2.symm, Or.inr ⟨x, xs, rfl, ?_⟩⟩
        intro pr hpr
        have := List.find?_eq_none.mp hf pr hpr
        simpa using this

theorem Node.eta (n : Node V) : Node.mk n.is_key n.get_data n.children = n := by
  cases n; rfl

theorem lowWalkN_stop {n : Node V} {s : List Char}
    (h : n.has_no_child = true ∨ s = []) : lowWalkN n s = ([], n, s, 0) := by
  rw [lowWalkN]
  have hg : (n.has_no_child || s.length == 0) = true := by
    rcases h with h | h
    · rw [h]; rfl
    · rw [h]; simp
  simp only [hg, if_true]

theorem lowWalkN_fail {n : Node V} {s rem : List Char} {j : Nat}
    (h1 : n.has_no_child = false) (h2 : s ≠ [])
    (hm : matchEdge s n = (none, rem, j)) : lowWalkN n s = ([], n, rem, j) := by
  rw [lowWalkN]
  have hg : (n.has_no_child || s.length == 0) = false := by
    rw [h1]
    simpa using h2
  simp only [hg, Bool.false_eq_true, if_false]
  split
  case h_1 rem' j' heq =>
    rw [hm] at heq
    simp only [Prod.mk.injEq] at heq
    rw [heq.2.1, heq.2.2]
  case h_2 e c rem' j' heq =>
    rw [hm] at heq
    simp at heq

theorem lowWalkN_step {n : Node V} {s rem : List Char} {e : List Char} {c : Node V} {j0 : Nat}
    (h1 : n.has_no_child = false) (h2 : s ≠ [])
    (hm : matchEdge s n = (some (e, c), rem, j0)) :
    lowWalkN n s = ((⟨n.is_key, n.get_data, n.children, e⟩ : Ctx V) :: (lowWalkN c rem).1,
      (lowWalkN c rem).2.1, (lowWalkN c rem).2.2.1, (lowWalkN c rem).2.2.2) := by
  rw [lowWalkN]
  have hg : (n.has_no_child || s.length == 0) = false := by
    rw [h1]
    simpa using h2
  simp only [hg, Bool.false_eq_true, if_false]
  split
  case h_1 rem' j' heq =>
    rw [hm] at heq
    simp at heq
  case h_2 e' c' rem' j' heq =>
    rw [hm] at heq
    simp only [Prod.mk.injEq, Option.some.injEq] at heq
    obtain ⟨⟨he, hc⟩, hrem, _⟩ := heq
    rw [← he, ← hc, ← hrem]

theorem plugAll_eq_plugAllR : ∀ (ctxs : List (Ctx V)) (X : Node V),
    plugAll ctxs X = plugAllR ctxs.reverse X
  | [], X => rfl
  | ctx :: cs, X => by
    rw [List.reverse_cons]
    show ctx.plug (plugAll cs X) = plugAllR (cs.reverse ++ [ctx]) X
    rw [plugAll_eq_plugAllR cs X]
    unfold plugAllR
    rw [List.foldl_append]
    rfl

/-- The original node sitting at the outer end of an (innermost-first) context
list. -/
def topNode : List (Ctx V) → Node V → Node V
  | [], cur => cur
  | ctx :: rest, _ => topNode rest (Node.mk ctx.is_key ctx.data ctx.children)

theorem topNode_append_one : ∀ (A : List (Ctx V)) (ctx : Ctx V) (cur : Node V),
    topNode (A ++ [ctx]) cur = Node.mk ctx.is_key ctx.data ctx.children
  | [], ctx, cur => rfl
  | a :: A, ctx, cur => topNode_append_one A ctx _

theorem RGood_append_one : ∀ (A : List (Ctx V)) (cur : Node V) (ctx : Ctx V),
    RGood A cur →
    (ctx.hole, topNode A cur) ∈ ctx.children →
    Valid (Node.mk ctx.is_key ctx.data ctx.children) →
    RGood (A ++ [ctx]) cur
  | [], cur, ctx, _, hm, hv => ⟨hm, hv, trivial⟩
  | a :: A, cur, ctx, hg, hm, hv => by
    obtain ⟨hm0, hv0, hrest⟩ := hg
    exact ⟨hm0, hv0, RGood_append_one A _ ctx hrest hm hv⟩

theorem map_prepend_nil (M : List (List Char × Option V)) :
    M.map (fun p => (([] : List Char) ++ p.1, p.2)) = M := by
  rw [List.map_congr_left (g := id), List.map_id]
  intro p _
  simp

/-- Master characterization of `_low_walk` on a valid tree: the walk factors
the key as the concatenation of fully-consumed edge labels (`path`) and the
suffix at the stop node; the tree's model and node count decompose around the
walk position; every key outside the walk position compares strictly against
`path ++ t` for every `t`; and the stop happened either at a boundary (no
children or key exhausted, `j = 0`) or on a failed edge match. -/
theorem walk_spec : ∀ (N : Nat) (s : List Char) (n : Node V), s.length ≤ N → Valid n →
    ∀ ctxs cur rem j, lowWalkN n s = (ctxs, cur, rem, j) →
    ∃ (Pm Sm : List (List Char × Option V)) (path sAt : List Char) (cE : Nat),
      s = path ++ sAt ∧
      Valid cur ∧
      RGood ctxs.reverse cur ∧
      topNode ctxs.reverse cur = n ∧
      (∀ X : Node V, model (plugAll ctxs X) =
        Pm ++ (model X).map (fun p => (path ++ p.1, p.2)) ++ Sm) ∧
      (∀ X : Node V, countBelow (plugAll ctxs X) = cE + ctxs.length + countBelow X) ∧
      (∀ pr ∈ Pm, ∀ t, lexLt pr.1 (path ++ t) = true) ∧
      (∀ pr ∈ Sm, ∀ t, lexLt (path ++ t) pr.1 = true) ∧
      (((cur.has_no_child = true ∨ sAt = []) ∧ rem = sAt ∧ j = 0) ∨
       (cur.has_no_child = false ∧ sAt ≠ [] ∧ matchEdge sAt cur = (none, rem, j))) := by
  intro N
  induction N with
  | zero =>
    intro s n hle hv ctxs cur rem j hw
    have hs : s = [] := List.length_eq_zero.mp (Nat.le_zero.mp hle)
    subst hs
    rw [lowWalkN_stop (Or.inr rfl)] at hw
    simp only [Prod.mk.injEq] at hw
    obtain ⟨hctxs, hcur, hrem, hj⟩ := hw
    subst hctxs; subst hcur; subst hrem; subst hj
    refine ⟨[], [], [], [], 0, rfl, hv, trivial, rfl, fun X => ?_, fun X => by simp [plugAll],
      by simp, by simp, Or.inl ⟨Or.inr rfl, rfl, rfl⟩⟩
    rw [map_prepend_nil]
    simp [plugAll]
  | succ N ih =>
    intro s n hle hv ctxs cur rem j hw
    by_cases hstop : n.has_no_child = true ∨ s = []
    · rw [lowWalkN_stop hstop] at hw
      simp only [Prod.mk.injEq] at hw
      obtain ⟨hctxs, hcur, hrem, hj⟩ := hw
      subst hctxs; subst hcur; subst hrem; subst hj
      refine ⟨[], [], [], s, 0, rfl, hv, trivial, rfl, fun X => ?_, fun X => by simp [plugAll],
        by simp, by simp, Or.inl ⟨hstop, rfl, rfl⟩⟩
      rw [map_prepend_nil]
      simp [plugAll]
    · push_neg at hstop
      obtain ⟨h1', h2⟩ := hstop
      have h1 : n.has_no_child = false := by
        cases hh : n.has_no_child
        · rfl
        · exact absurd hh h1'
      match hm : matchEdge s n with
      | (none, rem0, j0) =>
        rw [lowWalkN_fail h1 h2 hm] at hw
        simp only [Prod.mk.injEq] at hw
        obtain ⟨hctxs, hcur, hrem, hj⟩ := hw
        subst hctxs; subst hcur; subst hrem; subst hj
        refine ⟨[], [], [], s, 0, rfl, hv, trivial, rfl, fun X => ?_, fun X => by simp [plugAll],
          by simp, by simp, Or.inr ⟨h1, h2, hm⟩⟩
        rw [map_prepend_nil]
        simp [plugAll]
      | (some (e, c), rem0, j0) =>
        obtain ⟨hmem, hseq, hj0, hene⟩ := matchEdge_some_spec hm
        have hlt : rem0.length < s.length := matchEdge_some_len s n e c rem0 j0 hm
        have hvc : Valid c := hv.childValid (e, c) hmem
        rw [lowWalkN_step h1 h2 hm] at hw
        match hrec : lowWalkN c rem0 with
        | (cs', cur', rem', j') =>
          rw [hrec] at hw
          simp only [Prod.mk.injEq] at hw
          obtain ⟨hctxs, hcur, hrem, hj⟩ := hw
          subst hcur; subst hrem; subst hj
          obtain ⟨Pm', Sm', path', sAt, cE', hsplit, hvcur, hrg, htop, hmodel', hcount',
            hPb', hSb', hstopf⟩ := ih rem0 c (by omega) hvc cs' cur' rem' j' hrec
          -- decompose the parent around the matched edge
          have hplugd := @plug_decomp V ⟨n.is_key, n.get_data, n.children, e⟩ c hmem hv.sortedCh
          obtain ⟨P, S, hch, hP, hS, hplug⟩ := hplugd
          have hch' : n.children = P ++ (e, c) :: S := hch
          -- single-character labels when siblings exist
          have hmulti : P ≠ [] ∨ S ≠ [] → ∀ pr ∈ n.children, pr.1.length = 1 := by
            intro hne
            apply hv.multiLen1
            rw [hch']
            rcases hne with hne | hne
            · have : 0 < P.length := List.length_pos.mpr hne
              simp only [List.length_append, List.length_cons]
              omega
            · have : 0 < S.length := List.length_pos.mpr hne
              simp only [List.length_append, List.length_cons]
              omega
          subst hctxs
          refine ⟨(if n.is_key then [(([] : List Char), n.get_data)] else []) ++ modelL P ++
              Pm'.map (fun p => (e ++ p.1, p.2)),
            Sm'.map (fun p => (e ++ p.1, p.2)) ++ modelL S,
            e ++ path', sAt, countL P + countL S + cE', ?_, hvcur, ?_, ?_,
            fun X => ?_, fun X => ?_, ?_, ?_, hstopf⟩
          · rw [hseq, hsplit, List.append_assoc]
          · rw [List.reverse_cons]
            exact RGood_append_one _ _ _ hrg (by rw [htop]; exact hmem) (by rw [Node.eta]; exact hv)
          · rw [List.reverse_cons, topNode_append_one, Node.eta]
          · show model ((Ctx.plug _ (plugAll cs' X))) = _
            rw [hplug (plugAll cs' X), model_mk, modelL_append, modelL_cons,
              hmodel' X]
            simp only [List.map_append, map_prepend_prepend]
            simp [List.append_assoc]
          · show countBelow ((Ctx.plug _ (plugAll cs' X))) = _
            rw [hplug (plugAll cs' X), countBelow_mk, countL_append, countL_cons, hcount' X]
            simp only [List.length_cons]
            omega
          · intro pr hpr t
            simp only [List.mem_append] at hpr
            rcases hpr with (hpr | hpr) | hpr
            · -- the parent's own entry: key []
              have : pr.1 = [] := by
                split at hpr
                · rcases List.mem_singleton.mp hpr with h
                  rw [h]
                · cases hpr
              rw [this]
              match e, hene with
              | e0 :: es, _ => exact lexLt_nil_cons e0 _
            · -- keys under earlier siblings
              obtain ⟨e1, c1, hm1, q, _, hpr1⟩ := mem_modelL.mp hpr
              have hPne : P ≠ [] := by
                intro hPnil
                rw [hPnil] at hm1
                cases hm1
              have hlab := hmulti (Or.inl hPne)
              have he1len : e1.length = 1 := by
                apply hlab (e1, c1)
                rw [hch']
                exact List.mem_append_left _ hm1
              have helen : e.length = 1 := by
                apply hlab (e, c)
                rw [hch']
                exact List.mem_append_right _ (List.mem_cons_self _ _)
              have hlt1 : lexLt e1 e = true := hP (e1, c1) hm1
              match e1, he1len, e, helen with
              | [a], _, [b], _ =>
                have hab : a < b := lexLt_singleton_iff.mp hlt1
                rw [hpr1]
                simp only [List.cons_append, List.singleton_append]
                exact lexLt_cons_of_lt hab _ _
            · -- keys strictly inside the walk position, below the matched edge
              obtain ⟨p', hp', hpr1⟩ := List.mem_map.mp hpr
              rw [← hpr1]
              simp only [List.append_assoc, lexLt_append_same]
              exact hPb' p' hp' t
          · intro pr hpr t
            simp only [List.mem_append] at hpr
            rcases hpr with hpr | hpr
            · obtain ⟨p', hp', hpr1⟩ := List.mem_map.mp hpr
              rw [← hpr1]
              simp only [List.append_assoc, lexLt_append_same]
              exact hSb' p' hp' t
            · obtain ⟨e1, c1, hm1, q, _, hpr1⟩ := mem_modelL.mp hpr
              have hSne : S ≠ [] := by
                intro hSnil
                rw [hSnil] at hm1
                cases hm1
              have hlab := hmulti (Or.inr hSne)
              have he1len : e1.length = 1 := by
                apply hlab (e1, c1)
                rw [hch']
                exact List.mem_append_right _ (List.mem_cons_of_mem _ hm1)
              have helen : e.length = 1 := by
                apply hlab (e, c)
                rw [hch']
                exact List.mem_append_right _ (List.mem_cons_self _ _)
              have hlt1 : lexLt e e1 = true := hS (e1, c1) hm1
              match e1, he1len, e, helen with
              | [a], _, [b], _ =>
                have hab : b < a := lexLt_singleton_iff.mp hlt1
                rw [hpr1]
                simp only [List.cons_append, List.singleton_append]
                exact lexLt_cons_of_lt hab _ _

/-! ### Lookup through the walk decomposition -/

theorem plugAllR_RGood_orig : ∀ (rctxs : List (Ctx V)) (cur : Node V), RGood rctxs cur →
    plugAllR rctxs cur = topNode rctxs cur
  | [], cur, _ => rfl
  | ctx :: rest, cur, hg => by
    obtain ⟨hmem, hpar, hrest⟩ := hg
    rw [plugAllR_cons]
    have hsort : KSorted ctx.children := hpar.sortedCh
    have hplug : ctx.plug cur = Node.mk ctx.is_key ctx.data ctx.children := by
      rw [Ctx.plug, dictReplace_self hsort hmem]
    rw [hplug]
    exact plugAllR_RGood_orig rest _ hrest

theorem lookupM_append_left_none {k : List Char} {B : List (List Char × Option V)}
    (hB : lookupM k B = none) (A : List (List Char × Option V)) :
    lookupM k (A ++ B) = lookupM k A := by
  induction A with
  | nil => rw [List.nil_append, hB]; rfl
  | cons q rest ih =>
    match q with
    | (k', d') =>
      by_cases hk : k = k'
      · simp [lookupM, hk]
      · simp only [List.cons_append, lookupM, if_neg hk]
        exact ih

theorem model_childless (k : Bool) (d : Option V) :
    model (Node.mk k d ([] : List (List Char × Node V))) =
      (if k then [([], d)] else []) := by
  rw [model_mk, modelL_nil, List.append_nil]

theorem lookupM_model_nil {n : Node V} (hv : Valid n) :
    lookupM [] (model n) = (if n.is_key = true then some n.get_data else none) := by
  cases n with
  | mk k d ch =>
    rw [model_mk]
    have hch : ∀ pr ∈ modelL ch, pr.1 ≠ ([] : List Char) := by
      intro pr hpr
      obtain ⟨e, c, hm, q, _, hpr1⟩ := mem_modelL.mp hpr
      rw [hpr1]
      have := hv.labelsNe (e, c) hm
      simp only
      intro hcon
      rw [List.append_eq_nil] at hcon
      exact this hcon.1
    cases k
    · simp only [if_false, List.nil_append, Bool.false_eq_true]
      rw [lookupM_none_of_all_ne hch]
      rfl
    · simp only [if_true, List.cons_append, List.nil_append, lookupM]
      rfl

theorem lookupM_model_cons (n : Node V) {s : List Char} (hs : s ≠ []) :
    lookupM s (model n) = lookupM s (modelL n.children) := by
  cases n with
  | mk k d ch =>
    rw [model_mk]
    show lookupM s _ = lookupM s (modelL ch)
    cases k
    · rw [if_neg (by simp), List.nil_append]
    · rw [if_pos rfl, List.singleton_append, lookupM, if_neg hs]

theorem labels_len1_of_not_compressed {cur : Node V} (hv : Valid cur)
    (hnc : cur.is_compressed = false) (hne : cur.children ≠ []) :
    ∀ pr ∈ cur.children, pr.1.length = 1 := by
  match hch : cur.children with
  | [] => exact absurd hch hne
  | [(e1, c1)] =>
    intro pr hpr
    rcases List.mem_singleton.mp hpr with h
    rw [h]
    have hlab : e1 ≠ [] := hv.labelsNe (e1, c1) (by rw [hch]; exact List.mem_singleton.mpr rfl)
    have : ¬ 1 < e1.length := by
      intro hlt
      have : cur.is_compressed = true := is_compressed_iff.mpr ⟨e1, c1, hch, hlt⟩
      rw [hnc] at this
      exact Bool.noConfusion this
    have hpos : 0 < e1.length := List.length_pos.mpr hlab
    simp only
    omega
  | q1 :: q2 :: rest =>
    intro pr hpr
    apply hv.multiLen1
    · rw [hch]; simp only [List.length_cons]; omega
    · rw [hch]; exact hpr

/-- A key strictly longer than the walk-consumed part cannot be stored in a
subtree whose entries all extend a too-long edge, and similar mismatch facts:
entry keys under an edge all start with that edge. -/
theorem lookupM_modelL_none_long {ch : List (List Char × Node V)} {e : List Char}
    {c : Node V} (hch : ch = [(e, c)]) {s : List Char} (hslen : s.length < e.length) :
    lookupM s (modelL ch) = none := by
  apply lookupM_none_of_all_ne
  intro pr hpr
  obtain ⟨e1, c1, hm, q, _, hpr1⟩ := mem_modelL.mp hpr
  rw [hch] at hm
  rcases List.mem_singleton.mp hm with h
  have he1 : e1 = e := by
    have := congrArg Prod.fst h
    simpa using this
  rw [hpr1]
  show e1 ++ q.1 ≠ s
  rw [he1]
  intro hcon
  have : (e ++ q.1).length = s.length := by rw [hcon]
  simp only [List.length_append] at this
  omega

theorem lookupM_modelL_none_mismatch {ch : List (List Char × Node V)} {e : List Char}
    {c : Node V} (hch : ch = [(e, c)]) {s : List Char} {j : Nat}
    (htake : e.take j = s.take j) (hj : j < e.length) (hjs : j < s.length)
    (hne : e.getD j 'A' ≠ s.getD j 'A') :
    lookupM s (modelL ch) = none := by
  apply lookupM_none_of_all_ne
  intro pr hpr
  obtain ⟨e1, c1, hm, q, _, hpr1⟩ := mem_modelL.mp hpr
  rw [hch] at hm
  rcases List.mem_singleton.mp hm with h
  have he1 : e1 = e := by
    have := congrArg Prod.fst h
    simpa using this
  rw [hpr1]
  show e1 ++ q.1 ≠ s
  rw [he1]
  intro hcon
  apply hne
  calc e.getD j 'A' = (e ++ q.1).getD j 'A' := by
        rw [List.getD_eq_getElem?_getD, List.getD_eq_getElem?_getD,
          List.getElem?_append_left hj]
  _ = s.getD j 'A' := by rw [hcon]

theorem lookupM_modelL_none_nochild {ch : List (List Char × Node V)}
    (hlen1 : ∀ pr ∈ ch, pr.1.length = 1) {x : Char} {xs : List Char}
    (hno : ∀ pr ∈ ch, pr.1 ≠ [x]) :
    lookupM (x :: xs) (modelL ch) = none := by
  apply lookupM_none_of_all_ne
  intro pr hpr
  obtain ⟨e1, c1, hm, q, _, hpr1⟩ := mem_modelL.mp hpr
  rw [hpr1]
  have hl1 : e1.length = 1 := hlen1 (e1, c1) hm
  have hne1 : e1 ≠ [x] := hno (e1, c1) hm
  match e1, hl1, hne1 with
  | [a], _, hne1 =>
    have hax : a ≠ x := fun hax => hne1 (by rw [hax])
    simp only [List.singleton_append]
    intro hcon
    simp only [List.cons.injEq] at hcon
    exact hax hcon.1

theorem has_no_child_iff {n : Node V} : n.has_no_child = true ↔ n.children = [] := by
  unfold Node.has_no_child Node.children_num
  simp [List.length_eq_zero]

/-- `_find_key_node` against the reference associative array: the walk plus the
three failure conditions compute exactly the sorted-map lookup. -/
theorem rax_find_model {t : RadixTree V} (hv : Valid t.head) (key : List Char) :
    (rax_find t key).map Node.get_data = lookupM key (model t.head) := by
  unfold rax_find
  split
  rename_i ctxs cur rem j hW
  obtain ⟨Pm, Sm, path, sAt, cE, hsk, hvcur, hrg, htop, hmodel, hcount, hPb, hSb, hstopf⟩ :=
    walk_spec key.length key t.head le_rfl hv ctxs cur rem j hW
  have hplugorig : plugAll ctxs cur = t.head := by
    rw [plugAll_eq_plugAllR, plugAllR_RGood_orig _ _ hrg, htop]
  have horig : model t.head = Pm ++ (model cur).map (fun p => (path ++ p.1, p.2)) ++ Sm := by
    rw [← hplugorig]
    exact hmodel cur
  have hSnone : lookupM key Sm = none := by
    apply lookupM_none_of_all_ne
    intro pr hpr
    have := hSb pr hpr sAt
    rw [← hsk] at this
    exact ((lexLt_ne this).symm)
  have hPne : ∀ pr ∈ Pm, pr.1 ≠ key := by
    intro pr hpr
    have := hPb pr hpr sAt
    rw [← hsk] at this
    exact lexLt_ne this
  have hkeylookup : lookupM key (model t.head) = lookupM sAt (model cur) := by
    rw [horig, List.append_assoc, lookupM_append_right hPne,
      lookupM_append_left_none hSnone, hsk, lookupM_map_same]
  rw [hkeylookup]
  rcases hstopf with ⟨hb, hrem, hj⟩ | ⟨hnochild, hsne, hmatch⟩
  · subst hj
    rw [hrem]
    by_cases hse : sAt = []
    · subst hse
      rw [lookupM_model_nil hvcur]
      simp only [ne_eq, not_true_eq_false, false_or, and_false]
      cases hk : cur.is_key
      · rw [if_pos (by simp), if_neg (by simp)]
        rfl
      · rw [if_neg (by simp [hk]), if_pos rfl]
        rfl
    · have hchl : cur.children = [] := by
        rcases hb with hb | hb
        · exact has_no_child_iff.mp hb
        · exact absurd hb hse
      rw [if_pos (Or.inl hse), lookupM_model_cons cur hse, hchl, modelL_nil]
      rfl
  · rcases matchEdge_none_spec hmatch with
      ⟨e, c, hcompr, hch, helen, hjlt, hjle, htake, hrem, hlast⟩ |
      ⟨hncompr, hrem, hj0, hor⟩
    · by_cases hre : rem = []
      · subst hre
        have hslen : sAt.length = j := by
          have : sAt.drop j = [] := hrem.symm
          have hl := List.drop_eq_nil_iff_le.mp this
          omega
        have hjne : j ≠ 0 := by
          intro hj0
          rw [hj0] at hslen
          exact hsne (List.length_eq_zero.mp hslen)
        rw [if_pos (Or.inr (Or.inl ⟨hcompr, hjne⟩))]
        rw [lookupM_model_cons cur hsne]
        rw [lookupM_modelL_none_long hch (by omega)]
        rfl
      · rw [if_pos (Or.inl hre)]
        rcases hlast with hl | ⟨hjslt, hchne⟩
        · exfalso
          apply hre
          rw [hrem]
          rw [List.drop_eq_nil_iff_le]
          omega
        · rw [lookupM_model_cons cur hsne]
          rw [lookupM_modelL_none_mismatch hch htake hjlt hjslt hchne]
          rfl
    · have hrs : rem = sAt := hrem
      rcases hor with hor | ⟨x, xs, hsx, hno⟩
      · exact absurd hor hsne
      · rw [if_pos (Or.inl (by rw [hrs]; exact hsne))]
        have hchne2 : cur.children ≠ [] := by
          intro hcon
          rw [← has_no_child_iff] at hcon
          rw [hnochild] at hcon
          exact Bool.noConfusion hcon
        have hlen1 := labels_len1_of_not_compressed hvcur hncompr hchne2
        rw [lookupM_model_cons cur hsne, hsx,
          lookupM_modelL_none_nochild hlen1 hno]
        rfl

/-! ### Sortedness of the model -/

theorem KSorted_map_prepend {e : List Char} {M : List (List Char × Option V)}
    (h : KSorted M) : KSorted (M.map (fun p => (e ++ p.1, p.2))) := by
  rw [KSorted, List.pairwise_map]
  apply h.imp
  intro p q hpq
  simpa only [lexLt_append_same] using hpq

theorem modelL_sorted_core : ∀ (ch : List (List Char × Node V)),
    KSorted ch → (∀ pr ∈ ch, pr.1 ≠ []) →
    ((∀ pr ∈ ch, pr.1.length = 1) ∨ ch.length ≤ 1) →
    (∀ pr ∈ ch, KSorted (model pr.2)) → KSorted (modelL ch)
  | [], _, _, _, _ => by rw [modelL_nil]; exact List.Pairwise.nil
  | (e, c) :: rest, hs, hne, hlen, hsub => by
    rw [modelL_cons, KSorted, List.pairwise_append]
    rw [KSorted, List.pairwise_cons] at hs
    refine ⟨KSorted_map_prepend (hsub (e, c) (List.mem_cons_self _ _)), ?_, ?_⟩
    · apply modelL_sorted_core rest hs.2
        (fun pr hpr => hne pr (List.mem_cons_of_mem _ hpr))
        ?_ (fun pr hpr => hsub pr (List.mem_cons_of_mem _ hpr))
      rcases hlen with hlen | hlen
      · exact Or.inl (fun pr hpr => hlen pr (List.mem_cons_of_mem _ hpr))
      · right
        simp only [List.length_cons] at hlen
        omega
    · intro q1 hq1 q2 hq2
      obtain ⟨p1, _, hq1'⟩ := List.mem_map.mp hq1
      obtain ⟨e2, c2, hm2, p2, _, hq2'⟩ := mem_modelL.mp hq2
      have hrne : rest ≠ [] := by
        intro hcon
        rw [hcon] at hm2
        cases hm2
      have hlen1 : ∀ pr ∈ (e, c) :: rest, pr.1.length = 1 := by
        rcases hlen with hlen | hlen
        · exact hlen
        · exfalso
          have : 0 < rest.length := List.length_pos.mpr hrne
          simp only [List.length_cons] at hlen
          omega
      have helen : e.length = 1 := hlen1 (e, c) (List.mem_cons_self _ _)
      have he2len : e2.length = 1 := hlen1 (e2, c2) (List.mem_cons_of_mem _ hm2)
      have hlt : lexLt e e2 = true := hs.1 (e2, c2) hm2
      rw [← hq1', hq2']
      match e, helen, e2, he2len with
      | [a], _, [b], _ =>
        have hab : a < b := lexLt_singleton_iff.mp hlt
        simp only [List.singleton_append]
        exact lexLt_cons_of_lt hab _ _

theorem model_sorted (n : Node V) : Valid n → KSorted (model n) := by
  induction n using Node.strongInd with
  | _ k d ch ih =>
    intro hv
    rw [model_mk, KSorted, List.pairwise_append]
    have hml : KSorted (modelL ch) := by
      apply modelL_sorted_core ch hv.sortedCh hv.labelsNe
      · by_cases hlen : 2 ≤ ch.length
        · exact Or.inl (hv.multiLen1 hlen)
        · right; omega
      · intro pr hpr
        exact ih pr.1 pr.2 (by cases pr; exact hpr) (hv.childValid pr hpr)
    refine ⟨?_, hml, ?_⟩
    · cases k <;> simp [List.Pairwise]
    · intro q1 hq1 q2 hq2
      have hq1' : q1.1 = [] := by
        cases hk : k
        · rw [hk] at hq1; cases hq1
        · rw [hk] at hq1
          rcases List.mem_singleton.mp hq1 with h
          rw [h]
      obtain ⟨e2, c2, hm2, p2, _, hq2'⟩ := mem_modelL.mp hq2
      have hne2 : e2 ≠ [] := hv.labelsNe (e2, c2) hm2
      rw [hq1', hq2']
      match e2, hne2 with
      | x :: xs, _ => exact lexLt_nil_cons x _

/-! ### `add_child` computations and `dictInsert` lemmas -/

theorem is_compressed_childless (k : Bool) (d : Option V) :
    (Node.mk k d ([] : List (List Char × Node V))).is_compressed = false := rfl

theorem add_child_childless (k : Bool) (d : Option V) {e : List Char} (he : e ≠ [])
    (c : Node V) :
    (Node.mk k d ([] : List (List Char × Node V))).add_child e c = Node.mk k d [(e, c)] := by
  unfold Node.add_child
  have h1 : ((Node.mk k d ([] : List (List Char × Node V))).is_compressed ||
      e.length == 0) = false := by
    rw [is_compressed_childless]
    simpa using he
  rw [h1]
  have h2 : (decide (e.length > 1) &&
      !(Node.mk k d ([] : List (List Char × Node V))).has_no_child) = false := by
    have : (Node.mk k d ([] : List (List Char × Node V))).has_no_child = true := rfl
    rw [this]
    simp
  simp only [Bool.false_eq_true, if_false, h2]
  rfl

theorem add_child_single_char {n : Node V} (hnc : n.is_compressed = false)
    (x : Char) (c : Node V) :
    n.add_child [x] c = Node.mk n.is_key n.get_data (dictInsert [x] c n.children) := by
  unfold Node.add_child
  rw [hnc]
  simp

theorem mem_dictInsert {pr : List Char × Node V} {e : List Char} {c : Node V} :
    ∀ {ch : List (List Char × Node V)}, pr ∈ dictInsert e c ch → pr = (e, c) ∨ pr ∈ ch := by
  intro ch h
  induction ch with
  | nil =>
    simp only [dictInsert] at h
    exact Or.inl (List.mem_singleton.mp h)
  | cons q rest ih =>
    match q with
    | (e', c') =>
      simp only [dictInsert] at h
      split at h
      · rcases List.mem_cons.mp h with h | h
        · exact Or.inl h
        · exact Or.inr (List.mem_cons_of_mem _ h)
      · split at h
        · rcases List.mem_cons.mp h with h | h
          · exact Or.inl h
          · exact Or.inr h
        · rcases List.mem_cons.mp h with h | h
          · exact Or.inr (by rw [h]; exact List.mem_cons_self _ _)
          · rcases ih h with h | h
            · exact Or.inl h
            · exact Or.inr (List.mem_cons_of_mem _ h)

theorem KSorted_dictInsert {e : List Char} {c : Node V} :
    ∀ {ch : List (List Char × Node V)}, KSorted ch → KSorted (dictInsert e c ch) := by
  intro ch hs
  induction ch with
  | nil =>
    simp only [dictInsert]
    exact List.pairwise_singleton _ _
  | cons q rest ih =>
    match q with
    | (e', c') =>
      rw [KSorted, List.pairwise_cons] at hs
      simp only [dictInsert]
      split
      case isTrue he =>
        rw [KSorted, List.pairwise_cons]
        refine ⟨?_, hs.2⟩
        intro pr hpr
        have := hs.1 pr hpr
        simp only at this ⊢
        rw [he]
        exact this
      case isFalse he =>
        split
        case isTrue hlt =>
          rw [KSorted, List.pairwise_cons]
          refine ⟨?_, List.Pairwise.cons hs.1 hs.2⟩
          intro pr hpr
          rcases List.mem_cons.mp hpr with h | h
          · rw [h]
            exact hlt
          · exact lexLt_trans _ _ _ hlt (hs.1 pr h)
        case isFalse hlt =>
          rw [KSorted, List.pairwise_cons]
          refine ⟨?_, ih hs.2⟩
          intro pr hpr
          rcases mem_dictInsert hpr with h | h
          · rw [h]
            simp only
            have h1 : lexLt e e' = false := by
              cases hc : lexLt e e'
              · rfl
              · exact absurd hc hlt
            cases hc : lexLt e' e
            · exact absurd (lexLt_eq_of_not _ _ h1 hc) he
            · rfl
          · exact hs.1 pr h

/-- Inserting a fresh child whose label is a single character not among the
(single-character) labels of a sorted children list: the flattened model gains
exactly the new chain's single entry at its sorted position. -/
theorem modelL_dictInsert_fresh {x : Char} {tx : List Char} {X : Node V} {dv : Option V}
    (hX : model X = [(tx, dv)]) :
    ∀ {ch : List (List Char × Node V)}, KSorted ch → (∀ pr ∈ ch, pr.1.length = 1) →
    (∀ pr ∈ ch, pr.1 ≠ [x]) →
    modelL (dictInsert [x] X ch) = insertM (x :: tx) dv (modelL ch) := by
  intro ch hs hlen hno
  induction ch with
  | nil =>
    simp only [dictInsert, modelL_cons, modelL_nil, List.append_nil, hX, insertM]
    rfl
  | cons q rest ih =>
    match q with
    | (e', c') =>
      have he'len : e'.length = 1 := hlen (e', c') (List.mem_cons_self _ _)
      have he'ne : e' ≠ [x] := hno (e', c') (List.mem_cons_self _ _)
      rw [KSorted, List.pairwise_cons] at hs
      match e', he'len, he'ne with
      | [a], _, he'ne =>
        have hax : a ≠ x := fun h => he'ne (by rw [h])
        simp only [dictInsert, List.cons.injEq]
        rw [if_neg (by simp [Ne.symm hax])]
        by_cases hlt : lexLt [x] [a] = true
        · rw [if_pos hlt]
          have hxa : x < a := lexLt_singleton_iff.mp hlt
          have hfront : ∀ pr ∈ modelL (([a], c') :: rest), lexLt (x :: tx) pr.1 = true := by
            intro pr hpr
            rw [modelL_cons] at hpr
            rcases List.mem_append.mp hpr with hpr | hpr
            · obtain ⟨p1, _, hq1'⟩ := List.mem_map.mp hpr
              rw [← hq1']
              simp only [List.singleton_append]
              exact lexLt_cons_of_lt hxa _ _
            · obtain ⟨e2, c2, hm2, p2, _, hq2'⟩ := mem_modelL.mp hpr
              have he2len : e2.length = 1 := hlen (e2, c2) (List.mem_cons_of_mem _ hm2)
              have hlt2 : lexLt [a] e2 = true := hs.1 (e2, c2) hm2
              rw [hq2']
              match e2, he2len with
              | [b], _ =>
                have hab : a < b := lexLt_singleton_iff.mp hlt2
                simp only [List.singleton_append]
                exact lexLt_cons_of_lt (lt_trans hxa hab) _ _
          rw [modelL_cons, hX, insertM_front hfront]
          simp [List.singleton_append]
        · rw [if_neg hlt]
          have hax2 : a < x := by
            rcases lt_trichotomy a x with h | h | h
            · exact h
            · exact absurd h hax
            · exact absurd (lexLt_cons_of_lt h [] []) (by simpa using hlt)
          rw [modelL_cons, modelL_cons,
            ih hs.2 (fun pr hpr => hlen pr (List.mem_cons_of_mem _ hpr))
              (fun pr hpr => hno pr (List.mem_cons_of_mem _ hpr)),
            insertM_append_right]
          intro pr hpr
          obtain ⟨p1, _, hq1'⟩ := List.mem_map.mp hpr
          rw [← hq1']
          simp only [List.singleton_append]
          exact lexLt_cons_of_lt hax2 _ _

theorem length_dictInsert_fresh {e : List Char} {c : Node V} :
    ∀ {ch : List (List Char × Node V)}, (∀ pr ∈ ch, pr.1 ≠ e) →
      (dictInsert e c ch).length = ch.length + 1 := by
  intro ch h
  induction ch with
  | nil => rfl
  | cons q rest ih =>
    match q with
    | (e', c') =>
      have hne : e ≠ e' := fun hc => (h (e', c') (List.mem_cons_self _ _)) (hc ▸ rfl)
      simp only [dictInsert, if_neg hne]
      split
      · simp
      · simp only [List.length_cons, ih (fun pr hpr => h pr (List.mem_cons_of_mem _ hpr))]

theorem countL_dictInsert_fresh {e : List Char} {c : Node V} :
    ∀ {ch : List (List Char × Node V)}, (∀ pr ∈ ch, pr.1 ≠ e) →
      countL (dictInsert e c ch) = 1 + countBelow c + countL ch := by
  intro ch h
  induction ch with
  | nil => rw [dictInsert, countL_cons, countL_nil]
  | cons q rest ih =>
    match q with
    | (e', c') =>
      have hne : e ≠ e' := fun hc => (h (e', c') (List.mem_cons_self _ _)) (hc ▸ rfl)
      simp only [dictInsert, if_neg hne]
      split
      · rw [countL_cons, countL_cons]
      · rw [countL_cons, countL_cons, ih (fun pr hpr => h pr (List.mem_cons_of_mem _ hpr))]
        omega

/-! ### The suffix-extension loop, computed -/

theorem ValidL_nil : ValidL ([] : List (List Char × Node V)) := by
  rw [ValidL]
  trivial

theorem extendChain_nil (n : Node V) (v : V) :
    extendChain n [] v = (Node.mk true (some v) n.children, 0) := by rw [extendChain]

theorem has_no_child_false_iff {n : Node V} : n.has_no_child = false ↔ n.children ≠ [] := by
  constructor
  · intro h hcon
    rw [← has_no_child_iff] at hcon
    rw [h] at hcon
    exact Bool.noConfusion hcon
  · intro h
    cases hh : n.has_no_child
    · rfl
    · exact absurd (has_no_child_iff.mp hh) h

theorem extendChain_childless_long (k : Bool) (d : Option V)
    (x : Char) {xs : List Char} (hxs : xs ≠ []) (v : V) :
    extendChain (Node.mk k d []) (x :: xs) v =
      (Node.mk k d [(x :: xs, Node.mk true (some v) [])], 1) := by
  rw [extendChain]
  have hg : ((Node.mk k d ([] : List (List Char × Node V))).has_no_child &&
      decide (xs.length + 1 > 1)) = true := by
    have h1 : (Node.mk k d ([] : List (List Char × Node V))).has_no_child = true := rfl
    rw [h1, Bool.true_and, decide_eq_true_eq]
    have : xs.length ≠ 0 := fun hc => hxs (List.length_eq_zero.mp hc)
    omega
  rw [if_pos hg, add_child_childless k d (by simp) _]

theorem extendChain_childless_one (k : Bool) (d : Option V) (x : Char) (v : V) :
    extendChain (Node.mk k d []) [x] v =
      (Node.mk k d [([x], Node.mk true (some v) [])], 1) := by
  have h0 : extendChain (Node.mk k d ([] : List (List Char × Node V))) [x] v =
      ((Node.mk k d []).add_child [x] (Node.mk true (some v) []), 0 + 1) := rfl
  rw [h0, add_child_childless k d (by simp) _]
  rfl

theorem extendChain_into {n : Node V} (hch : n.children ≠ []) (hnc : n.is_compressed = false)
    (x : Char) (xs : List Char) (v : V) :
    extendChain n (x :: xs) v =
      (Node.mk n.is_key n.get_data
        (dictInsert [x] (extendChain (Node.mk false none []) xs v).1 n.children),
       (extendChain (Node.mk false none []) xs v).2 + 1) := by
  rw [extendChain]
  have hno : n.has_no_child = false := has_no_child_false_iff.mpr hch
  rw [if_neg (by rw [hno, Bool.false_and]; exact Bool.false_ne_true)]
  match hE : extendChain (Node.mk false none ([] : List (List Char × Node V))) xs v with
  | (child, dd) =>
    simp only
    rw [add_child_single_char hnc]

/-- The chain built for a fresh suffix: its model is the single new entry. -/
theorem extendChain_fresh (xs : List Char) (v : V) :
    model (extendChain (Node.mk false none ([] : List (List Char × Node V))) xs v).1 =
      [(xs, some v)] ∧
    Valid (extendChain (Node.mk false none ([] : List (List Char × Node V))) xs v).1 ∧
    ((extendChain (Node.mk false none ([] : List (List Char × Node V))) xs v).1.children = [] →
      (extendChain (Node.mk false none ([] : List (List Char × Node V))) xs v).1.is_key = true) ∧
    countBelow (extendChain (Node.mk false none ([] : List (List Char × Node V))) xs v).1 =
      (if xs = [] then 0 else 1) ∧
    (extendChain (Node.mk false none ([] : List (List Char × Node V))) xs v).2 =
      ((if xs = [] then 0 else 1 : Nat) : Int) := by
  have hleafv : Valid (Node.mk true (some v) ([] : List (List Char × Node V))) := by
    rw [Valid_mk, ValidL]
    refine ⟨by simp, List.Pairwise.nil, by simp, by simp, by simp, by simp, trivial⟩
  have hchaingen : ∀ (lab : List Char), lab ≠ [] →
      model (Node.mk false none [(lab, Node.mk true (some v)
        ([] : List (List Char × Node V)))]) = [(lab, some v)] ∧
      Valid (Node.mk false none [(lab, Node.mk true (some v)
        ([] : List (List Char × Node V)))]) ∧
      countBelow (Node.mk false none [(lab, Node.mk true (some v)
        ([] : List (List Char × Node V)))]) = 1 := by
    intro lab hlab
    refine ⟨?_, ?_, ?_⟩
    · rw [model_mk, modelL_cons, modelL_nil, model_childless]
      simp
    · rw [Valid_mk]
      refine ⟨by simp, List.pairwise_singleton _ _, by simpa using hlab, ?_, ?_, ?_, ?_⟩
      · intro hlen
        simp at hlen
      · intro pr hpr
        rcases List.mem_singleton.mp hpr with h
        rw [h]
        intro
        rfl
      · intro e' c' heq _
        simp only [List.cons.injEq, Prod.mk.injEq] at heq
        rw [← heq.1.2]
        intro hcon
        rw [nksc] at hcon
        simp [Node.is_key] at hcon
      · rw [ValidL]
        exact ⟨hleafv, ValidL_nil⟩
    · rw [countBelow_mk, countL_cons, countL_nil, countBelow_mk, countL_nil]
  match xs with
  | [] =>
    have h0 : extendChain (Node.mk false none ([] : List (List Char × Node V))) [] v =
        (Node.mk true (some v) [], 0) := rfl
    rw [h0]
    exact ⟨by rw [model_childless]; rfl, hleafv, fun _ => rfl,
      by rw [countBelow_mk, countL_nil]; rfl, rfl⟩
  | [x] =>
    rw [extendChain_childless_one false none x v]
    obtain ⟨hm, hv, hc⟩ := hchaingen [x] (by simp)
    exact ⟨hm, hv, by simp [Node.children], by rw [hc]; simp, by simp⟩
  | x :: y :: ys =>
    rw [extendChain_childless_long false none x (by simp) v]
    obtain ⟨hm, hv, hc⟩ := hchaingen (x :: y :: ys) (by simp)
    exact ⟨hm, hv, by simp [Node.children], by rw [hc]; simp, by simp⟩

/-! ### The compressed-edge splits, computed -/

theorem splitEnd_eq (k : Bool) (d : Option V) {e : List Char} (c : Node V)
    {j : Nat} (hj0 : 0 < j) (hjlt : j < e.length) (v : V) :
    splitEnd (Node.mk k d [(e, c)]) j v =
      Node.mk k d [(e.take j, Node.mk true (some v) [(e.drop j, c)])] := by
  have hdne : e.drop j ≠ [] := by
    intro hcon
    have := congrArg List.length hcon
    simp only [List.length_drop, List.length_nil] at this
    omega
  have htne : e.take j ≠ [] := by
    intro hcon
    have := congrArg List.length hcon
    simp only [List.length_take, List.length_nil] at this
    omega
  have h0 : splitEnd (Node.mk k d [(e, c)]) j v =
      Node.add_child (Node.mk k d []) (e.take j)
        (Node.add_child (Node.mk true (some v) []) (e.drop j) c) := rfl
  rw [h0, add_child_childless true (some v) hdne c, add_child_childless k d htne _]

theorem is_compressed_single_char (k : Bool) (d : Option V) (x : Char) (c : Node V) :
    (Node.mk k d [([x], c)]).is_compressed = false := rfl

theorem splitMidExtend_eq_cons (k : Bool) (d : Option V) (eP : List Char) (hP : eP ≠ [])
    (em : Char) (eS : List Char) (c : Node V) (r : Char) (rs : List Char) (v : V) :
    splitMidExtend (Node.mk k d [(eP ++ em :: eS, c)]) eP.length (r :: rs) v =
      (Node.mk k d [(eP, Node.mk false none
         (dictInsert [r] (extendChain (Node.mk false none []) rs v).1
           [([em], if eS = [] then c else Node.mk false none [(eS, c)])]))],
       ((1 : Int) + (if eS = [] then 0 else 1)) +
         ((extendChain (Node.mk false none []) rs v).2 + 1)) := by
  have hj : ¬ (eP.length = 0) := fun h => hP (List.length_eq_zero.mp h)
  match hE : extendChain (Node.mk false none ([] : List (List Char × Node V))) rs v with
  | (CH, dCH) =>
    match eS with
    | [] =>
      have h0 : splitMidExtend (Node.mk k d [(eP ++ [em], c)]) eP.length (r :: rs) v =
          (match extendChain ((if eP.length = 0 then Node.mk k d ([] : List (List Char × Node V))
                else Node.mk false none ([] : List (List Char × Node V))).add_child
              (((eP ++ [em]).drop eP.length).take 1)
              (if (eP ++ [em]).length - eP.length - 1 = 0 then c
               else (Node.mk false none ([] : List (List Char × Node V))).add_child
                 ((eP ++ [em]).drop (eP.length + 1)) c)) (r :: rs) v with
           | (s2, dN) =>
             (if eP.length = 0 then s2
              else (Node.mk k d ([] : List (List Char × Node V))).add_child
                ((eP ++ [em]).take eP.length) s2,
              ((if eP.length = 0 then 0 else 1) +
               (if (eP ++ [em]).length - eP.length - 1 = 0 then 0 else 1) : Int) + dN)) := rfl
      have hcond : (eP ++ [em]).length - eP.length - 1 = 0 := by
        simp only [List.length_append, List.length_cons, List.length_nil]
        omega
      have hdrop1 : (eP ++ [em]).drop eP.length = [em] := List.drop_left eP [em]
      have htake1 : (([em] : List Char)).take 1 = [em] := rfl
      have htakeP : (eP ++ [em]).take eP.length = eP := List.take_left eP [em]
      rw [h0, if_neg hj, if_pos hcond, hdrop1, htake1,
        add_child_childless false none (by simp) c,
        extendChain_into (by simp [Node.children]) (is_compressed_single_char false none em c)
          r rs v, hE]
      show ((if eP.length = 0 then Node.mk false none (dictInsert [r] CH [([em], c)])
            else (Node.mk k d ([] : List (List Char × Node V))).add_child
              ((eP ++ [em]).take eP.length)
              (Node.mk false none (dictInsert [r] CH [([em], c)]))),
          ((if eP.length = 0 then 0 else 1) +
           (if (eP ++ [em]).length - eP.length - 1 = 0 then 0 else 1) : Int) + (dCH + 1)) =
        (Node.mk k d [(eP, Node.mk false none (dictInsert [r] CH [([em], c)]))],
          ((1 : Int) + 0) + (dCH + 1))
      rw [if_neg hj, if_neg hj, if_pos hcond, htakeP, add_child_childless k d hP]
    | y :: ys =>
      have h0 : splitMidExtend (Node.mk k d [(eP ++ em :: y :: ys, c)]) eP.length (r :: rs) v =
          (match extendChain ((if eP.length = 0 then Node.mk k d ([] : List (List Char × Node V))
                else Node.mk false none ([] : List (List Char × Node V))).add_child
              (((eP ++ em :: y :: ys).drop eP.length).take 1)
              (if (eP ++ em :: y :: ys).length - eP.length - 1 = 0 then c
               else (Node.mk false none ([] : List (List Char × Node V))).add_child
                 ((eP ++ em :: y :: ys).drop (eP.length + 1)) c)) (r :: rs) v with
           | (s2, dN) =>
             (if eP.length = 0 then s2
              else (Node.mk k d ([] : List (List Char × Node V))).add_child
                ((eP ++ em :: y :: ys).take eP.length) s2,
              ((if eP.length = 0 then 0 else 1) +
               (if (eP ++ em :: y :: ys).length - eP.length - 1 = 0 then 0 else 1) : Int) +
                dN)) := rfl
      have hcond : ¬ ((eP ++ em :: y :: ys).length - eP.length - 1 = 0) := by
        simp only [List.length_append, List.length_cons]
        omega
      have hdrop1 : (eP ++ em :: y :: ys).drop eP.length = em :: y :: ys :=
        List.drop_left eP (em :: y :: ys)
      have hdrop2 : (eP ++ em :: y :: ys).drop (eP.length + 1) = y :: ys := by
        rw [← List.drop_drop, List.drop_left]
        rfl
      have htake1 : ((em :: y :: ys : List Char)).take 1 = [em] := rfl
      have htakeP : (eP ++ em :: y :: ys).take eP.length = eP := List.take_left eP (em :: y :: ys)
      rw [h0, if_neg hj, if_neg hcond, hdrop1, htake1,
        hdrop2, add_child_childless false none (by simp) c,
        add_child_childless false none (by simp) (Node.mk false none [(y :: ys, c)]),
        extendChain_into (by simp [Node.children])
          (is_compressed_single_char false none em (Node.mk false none [(y :: ys, c)])) r rs v,
        hE]
      show ((if eP.length = 0 then
              Node.mk false none (dictInsert [r] CH [([em], Node.mk false none [(y :: ys, c)])])
            else (Node.mk k d ([] : List (List Char × Node V))).add_child
              ((eP ++ em :: y :: ys).take eP.length)
              (Node.mk false none
                (dictInsert [r] CH [([em], Node.mk false none [(y :: ys, c)])]))),
          ((if eP.length = 0 then 0 else 1) +
           (if (eP ++ em :: y :: ys).length - eP.length - 1 = 0 then 0 else 1) : Int) +
            (dCH + 1)) =
        (Node.mk k d [(eP, Node.mk false none
            (dictInsert [r] CH [([em], Node.mk false none [(y :: ys, c)])]))],
          ((1 : Int) + 1) + (dCH + 1))
      rw [if_neg hj, if_neg hj, if_neg hcond, htakeP, add_child_childless k d hP]

theorem splitMidExtend_eq_nil (k : Bool) (d : Option V) (em : Char) (eS : List Char)
    (c : Node V) (r : Char) (rs : List Char) (v : V) :
    splitMidExtend (Node.mk k d [(em :: eS, c)]) 0 (r :: rs) v =
      (Node.mk k d (dictInsert [r] (extendChain (Node.mk false none []) rs v).1
         [([em], if eS = [] then c else Node.mk false none [(eS, c)])]),
       ((if eS = [] then 0 else 1) : Int) +
         ((extendChain (Node.mk false none []) rs v).2 + 1)) := by
  match hE : extendChain (Node.mk false none ([] : List (List Char × Node V))) rs v with
  | (CH, dCH) =>
    match eS with
    | [] =>
      have h0 : splitMidExtend (Node.mk k d [([em], c)]) 0 (r :: rs) v =
          (match extendChain (Node.mk k d [([em], c)]) (r :: rs) v with
           | (s2, dN) => (s2, ((0 : Int) + 0) + dN)) := rfl
      rw [h0, extendChain_into (by simp [Node.children]) (is_compressed_single_char k d em c)
        r rs v, hE]
      show (Node.mk k d (dictInsert [r] CH [([em], c)]), ((0 : Int) + 0) + (dCH + 1)) =
        (Node.mk k d (dictInsert [r] CH [([em], c)]), (0 : Int) + (dCH + 1))
      rw [Prod.mk.injEq]
      exact ⟨rfl, by omega⟩
    | y :: ys =>
      have h0 : splitMidExtend (Node.mk k d [(em :: y :: ys, c)]) 0 (r :: rs) v =
          (match extendChain ((Node.mk k d ([] : List (List Char × Node V))).add_child
              [em] (if (em :: y :: ys).length - 0 - 1 = 0 then c
                    else (Node.mk false none ([] : List (List Char × Node V))).add_child
                      ((em :: y :: ys).drop (0 + 1)) c)) (r :: rs) v with
           | (s2, dN) => (s2, ((0 : Int) +
              (if (em :: y :: ys).length - 0 - 1 = 0 then 0 else 1)) + dN)) := rfl
      have hcond : ¬ ((em :: y :: ys).length - 0 - 1 = 0) := by simp
      have hdrop : (em :: y :: ys).drop (0 + 1) = y :: ys := rfl
      rw [h0, if_neg hcond, if_neg hcond, hdrop,
        add_child_childless false none (by simp) c,
        add_child_childless k d (by simp) (Node.mk false none [(y :: ys, c)]),
        extendChain_into (by simp [Node.children])
          (is_compressed_single_char k d em (Node.mk false none [(y :: ys, c)])) r rs v, hE]
      show (Node.mk k d (dictInsert [r] CH [([em], Node.mk false none [(y :: ys, c)])]),
          ((0 : Int) + 1) + (dCH + 1)) =
        (Node.mk k d (dictInsert [r] CH [([em], Node.mk false none [(y :: ys, c)])]),
          (1 : Int) + (dCH + 1))
      rw [Prod.mk.injEq]
      exact ⟨rfl, by omega⟩

/-! ### The four local mutation shapes of insert -/

theorem insertM_append_left {k : List Char} {d : Option V} :
    ∀ (A : List (List Char × Option V)) {B : List (List Char × Option V)},
    (∀ pr ∈ B, lexLt k pr.1 = true) → insertM k d (A ++ B) = insertM k d A ++ B
  | [], B, hB => by rw [List.nil_append, insertM_front hB]; rfl
  | (k', d') :: rest, B, hB => by
    simp only [List.cons_append, insertM]
    by_cases h1 : k = k'
    · rw [if_pos h1, if_pos h1]; rfl
    · rw [if_neg h1, if_neg h1]
      by_cases h2 : lexLt k k' = true
      · rw [if_pos h2, if_pos h2]; rfl
      · rw [if_neg h2, if_neg h2]
        show (k', d') :: insertM k d (rest ++ B) = (k', d') :: insertM k d rest ++ B
        rw [insertM_append_left rest hB]
        rfl

theorem modelL_lexLt_nil {ch : List (List Char × Node V)} (hne : ∀ pr ∈ ch, pr.1 ≠ []) :
    ∀ pr ∈ modelL ch, lexLt [] pr.1 = true := by
  intro pr hpr
  obtain ⟨e, c, hm, q, _, hpr1⟩ := mem_modelL.mp hpr
  rw [hpr1]
  cases e with
  | nil => exact absurd rfl (hne ([], c) hm)
  | cons x xs =>
    rw [List.cons_append]
    exact lexLt_nil_cons x (xs ++ q.1)

/-- A non-empty key passes over the root-key entry of a model. -/
theorem insertM_kpart (k : Bool) (d0 : Option V) {key : List Char} (hk : key ≠ [])
    (sv : Option V) (rest : List (List Char × Option V)) :
    insertM key sv ((if k then [(([] : List Char), d0)] else []) ++ rest) =
      (if k then [(([] : List Char), d0)] else []) ++ insertM key sv rest := by
  apply insertM_append_right
  intro pr hpr
  cases k with
  | false => cases hpr
  | true =>
    rcases List.mem_singleton.mp hpr with h
    rw [h]
    match key with
    | [] => exact absurd rfl hk
    | x :: xs => exact lexLt_nil_cons x xs

theorem getD_drop : ∀ (l : List Char) (j : Nat), l.getD j 'A' = (l.drop j).getD 0 'A'
  | _, 0 => rfl
  | [], _ + 1 => rfl
  | _ :: l, j + 1 => getD_drop l j

theorem set_mark_model {cur : Node V} (hv : Valid cur) (v : V) :
    model (Node.mk true (some v) cur.children) = insertM [] (some v) (model cur) := by
  cases cur with
  | mk k d ch =>
    show model (Node.mk true (some v) ch) = insertM [] (some v) (model (Node.mk k d ch))
    rw [model_mk, model_mk]
    cases k with
    | false =>
      simp only [Bool.false_eq_true, if_false, List.nil_append, if_true]
      have hne : ∀ pr ∈ ch, pr.1 ≠ ([] : List Char) := hv.labelsNe
      rw [insertM_front (modelL_lexLt_nil hne)]
      rfl
    | true =>
      simp only [if_true]
      show (([] : List Char), some v) :: modelL ch =
        insertM [] (some v) ((([] : List Char), d) :: modelL ch)
      rw [insertM, if_pos rfl]

theorem set_mark_valid {cur : Node V} (hv : Valid cur) (v : V) :
    Valid (Node.mk true (some v) cur.children) := by
  cases cur with
  | mk k d ch =>
    have h := (Valid_mk k d ch).mp hv
    rw [Valid_mk]
    refine ⟨fun _ => rfl, h.2.1, h.2.2.1, h.2.2.2.1, h.2.2.2.2.1, ?_, h.2.2.2.2.2.2⟩
    intro e c hch hcond
    apply h.2.2.2.2.2.1 e c hch
    rcases hcond with hcond | hcond
    · exact absurd hcond (by simp)
    · exact Or.inr hcond


/-- `_split_compressed_node` with the key ending inside the edge: model, validity
and absence of the key, bundled. -/
theorem set_splitEnd {k : Bool} {d : Option V} {e : List Char} {c : Node V}
    (hv : Valid (Node.mk k d [(e, c)])) {j : Nat} (hj0 : 0 < j) (hjlt : j < e.length) (v : V) :
    model (splitEnd (Node.mk k d [(e, c)]) j v) =
      insertM (e.take j) (some v) (model (Node.mk k d [(e, c)])) ∧
    Valid (splitEnd (Node.mk k d [(e, c)]) j v) ∧
    lookupM (e.take j) (model (Node.mk k d [(e, c)])) = none ∧
    splitEnd (Node.mk k d [(e, c)]) j v =
      Node.mk k d [(e.take j, Node.mk true (some v) [(e.drop j, c)])] := by
  have heq := splitEnd_eq k d c hj0 hjlt v
  have htne : e.take j ≠ [] := by
    intro hcon
    have := congrArg List.length hcon
    simp only [List.length_take, List.length_nil] at this
    omega
  have hdne : e.drop j ≠ [] := by
    intro hcon
    have := congrArg List.length hcon
    simp only [List.length_drop, List.length_nil] at this
    omega
  have helen : 1 < e.length := by omega
  have hmemec : (e, c) ∈ (Node.mk k d [(e, c)]).children := List.mem_singleton.mpr rfl
  obtain ⟨em, es, hde⟩ : ∃ em es, e.drop j = em :: es := by
    match hd : e.drop j with
    | [] => exact absurd hd hdne
    | em :: es => exact ⟨em, es, rfl⟩
  have hYvalid : Valid (Node.mk true (some v) [(e.drop j, c)]) := by
    rw [Valid_mk]
    refine ⟨fun _ => rfl, List.pairwise_singleton _ _, ?_, ?_, ?_, ?_, ?_⟩
    · intro pr hpr
      rcases List.mem_singleton.mp hpr with h
      rw [h]
      exact hdne
    · intro hlen
      simp at hlen
    · intro pr hpr
      rcases List.mem_singleton.mp hpr with h
      rw [h]
      exact hv.leafKeys (e, c) hmemec
    · intro e' c' hch' _
      simp only [List.cons.injEq, Prod.mk.injEq, and_true] at hch'
      rw [← hch'.2]
      exact hv.noChain e c rfl (Or.inr helen)
    · rw [ValidL_iff]
      intro pr hpr
      rcases List.mem_singleton.mp hpr with h
      rw [h]
      exact hv.childValid (e, c) hmemec
  have hbound : ∀ pr ∈ (model c).map (fun p => (e ++ p.1, p.2)),
      lexLt (e.take j) pr.1 = true := by
    intro pr hpr
    obtain ⟨q, _, hq⟩ := List.mem_map.mp hpr
    rw [← hq]
    show lexLt (e.take j) (e ++ q.1) = true
    have he2 : e ++ q.1 = e.take j ++ (em :: (es ++ q.1)) := by
      conv_lhs => rw [← List.take_append_drop j e]
      rw [hde, List.append_assoc, List.cons_append]
    rw [he2]
    exact lexLt_self_append (e.take j) em (es ++ q.1)
  refine ⟨?_, ?_, ?_, heq⟩
  · rw [heq]
    simp only [model_mk, modelL_cons, modelL_nil, List.append_nil, if_true, List.map_cons,
      List.map_append, List.map_nil, map_prepend_prepend, List.take_append_drop]
    rw [insertM_kpart k d htne, insertM_front hbound]
    rfl
  · rw [heq, Valid_mk]
    refine ⟨((Valid_mk k d [(e, c)]).mp hv).1, List.pairwise_singleton _ _, ?_, ?_, ?_, ?_, ?_⟩
    · intro pr hpr
      rcases List.mem_singleton.mp hpr with h
      rw [h]
      exact htne
    · intro hlen
      simp at hlen
    · intro pr hpr
      rcases List.mem_singleton.mp hpr with h
      rw [h]
      intro _
      rfl
    · intro e' c' hch' _
      simp only [List.cons.injEq, Prod.mk.injEq, and_true] at hch'
      rw [← hch'.2]
      intro hcon
      exact Bool.noConfusion hcon.1
    · rw [ValidL_iff]
      intro pr hpr
      rcases List.mem_singleton.mp hpr with h
      rw [h]
      exact hYvalid
  · rw [lookupM_model_cons _ htne]
    exact lookupM_modelL_none_long rfl (by rw [List.length_take]; omega)

theorem modelL_sfx (em : Char) (eS : List Char) (c : Node V) :
    modelL [(([em] : List Char), (if eS = [] then c else Node.mk false none [(eS, c)]))] =
      (model c).map (fun p => ((em :: eS) ++ p.1, p.2)) := by
  cases eS with
  | nil =>
    rw [if_pos rfl, modelL_cons, modelL_nil, List.append_nil]
  | cons y ys =>
    rw [if_neg (List.cons_ne_nil y ys), modelL_cons, modelL_nil, List.append_nil, model_mk,
      modelL_cons, modelL_nil, List.append_nil]
    simp only [Bool.false_eq_true, if_false, List.nil_append, map_prepend_prepend]
    rfl

/-- The split point node built by `_split_compressed_node` on a mid-edge
mismatch: two children (the old edge suffix and the fresh chain), its model is
the sorted insertion of the new key suffix. -/
theorem set_splitMid_core {kY : Bool} {dY : Option V} (hdata : kY = true → dY.isSome = true)
    {em : Char} {eS : List Char} {c : Node V}
    (hcv : Valid c) (hcleaf : c.children = [] → c.is_key = true) (hcnk : ¬ nksc c)
    {r : Char} (hne : r ≠ em) (rs : List Char) (v : V) :
    model (Node.mk kY dY (dictInsert [r] (extendChain (Node.mk false none []) rs v).1
        [(([em] : List Char), if eS = [] then c else Node.mk false none [(eS, c)])])) =
      (if kY = true then [(([] : List Char), dY)] else []) ++
        insertM (r :: rs) (some v)
          ((model c).map (fun p => ((em :: eS) ++ p.1, p.2))) ∧
    Valid (Node.mk kY dY (dictInsert [r] (extendChain (Node.mk false none []) rs v).1
        [(([em] : List Char), if eS = [] then c else Node.mk false none [(eS, c)])])) ∧
    (dictInsert [r] (extendChain (Node.mk false none []) rs v).1
        [(([em] : List Char), if eS = [] then c else Node.mk false none [(eS, c)])]).length
      = 2 := by
  obtain ⟨hCHm, hCHv, hCHleaf, _, _⟩ := extendChain_fresh rs v
  have hemr : (([em] : List Char)) ≠ [r] := by
    intro hcon
    simp only [List.cons.injEq, and_true] at hcon
    exact hne hcon.symm
  have hno : ∀ pr ∈ [(([em] : List Char),
      if eS = [] then c else Node.mk false none [(eS, c)])], pr.1 ≠ [r] := by
    intro pr hpr
    rcases List.mem_singleton.mp hpr with h
    rw [h]
    exact hemr
  have hSFXv : Valid (if eS = [] then c else Node.mk false none [(eS, c)]) := by
    cases eS with
    | nil => rw [if_pos rfl]; exact hcv
    | cons y ys =>
      rw [if_neg (List.cons_ne_nil y ys), Valid_mk]
      refine ⟨by simp, List.pairwise_singleton _ _, ?_, ?_, ?_, ?_, ?_⟩
      · intro pr hpr
        rcases List.mem_singleton.mp hpr with h
        rw [h]
        exact List.cons_ne_nil y ys
      · intro hlen
        simp at hlen
      · intro pr hpr
        rcases List.mem_singleton.mp hpr with h
        rw [h]
        exact hcleaf
      · intro e' c' hch' _
        simp only [List.cons.injEq, Prod.mk.injEq, and_true] at hch'
        rw [← hch'.2]
        exact hcnk
      · rw [ValidL_iff]
        intro pr hpr
        rcases List.mem_singleton.mp hpr with h
        rw [h]
        exact hcv
  have hlen2 : (dictInsert [r] (extendChain (Node.mk false none []) rs v).1
      [(([em] : List Char), if eS = [] then c else Node.mk false none [(eS, c)])]).length
      = 2 := by
    rw [length_dictInsert_fresh hno]
    rfl
  refine ⟨?_, ?_, hlen2⟩
  · rw [model_mk, modelL_dictInsert_fresh hCHm (List.pairwise_singleton _ _) ?hl1 hno,
      modelL_sfx]
    case hl1 =>
      intro pr hpr
      rcases List.mem_singleton.mp hpr with h
      rw [h]
      rfl
  · rw [Valid_mk]
    refine ⟨hdata, KSorted_dictInsert (List.pairwise_singleton _ _), ?_, ?_, ?_, ?_, ?_⟩
    · intro pr hpr
      rcases mem_dictInsert hpr with h | h
      · rw [h]; exact List.cons_ne_nil r []
      · rcases List.mem_singleton.mp h with h'
        rw [h']; exact List.cons_ne_nil em []
    · intro _ pr hpr
      rcases mem_dictInsert hpr with h | h
      · rw [h]; rfl
      · rcases List.mem_singleton.mp h with h'
        rw [h']; rfl
    · intro pr hpr
      rcases mem_dictInsert hpr with h | h
      · rw [h]; exact hCHleaf
      · rcases List.mem_singleton.mp h with h'
        rw [h']
        cases eS with
        | nil =>
          intro hc
          exact hcleaf (by simpa using hc)
        | cons y ys =>
          intro hc
          rw [if_neg (List.cons_ne_nil y ys)] at hc
          exact absurd hc (by simp [Node.children])
    · intro e' c' hch' _
      have := congrArg List.length hch'
      rw [hlen2] at this
      simp at this
    · rw [ValidL_iff]
      intro pr hpr
      rcases mem_dictInsert hpr with h | h
      · rw [h]; exact hCHv
      · rcases List.mem_singleton.mp h with h'
        rw [h']; exact hSFXv


theorem set_splitMid0 {k : Bool} {d : Option V} {em : Char} {eS : List Char} {c : Node V}
    (hv : Valid (Node.mk k d [(em :: eS, c)])) (helen : 1 < (em :: eS).length)
    {r : Char} (hne : r ≠ em) (rs : List Char) (v : V) :
    model (Node.mk k d (dictInsert [r] (extendChain (Node.mk false none []) rs v).1
        [(([em] : List Char), if eS = [] then c else Node.mk false none [(eS, c)])])) =
      insertM (r :: rs) (some v) (model (Node.mk k d [(em :: eS, c)])) ∧
    Valid (Node.mk k d (dictInsert [r] (extendChain (Node.mk false none []) rs v).1
        [(([em] : List Char), if eS = [] then c else Node.mk false none [(eS, c)])])) ∧
    (dictInsert [r] (extendChain (Node.mk false none []) rs v).1
        [(([em] : List Char), if eS = [] then c else Node.mk false none [(eS, c)])]).length
      = 2 := by
  have hmemec : (em :: eS, c) ∈ (Node.mk k d [(em :: eS, c)]).children :=
    List.mem_singleton.mpr rfl
  have hcv : Valid c := hv.childValid _ hmemec
  have hcleaf : c.children = [] → c.is_key = true := hv.leafKeys _ hmemec
  have hcnk : ¬ nksc c := hv.noChain (em :: eS) c rfl (Or.inr helen)
  have hdata : k = true → d.isSome = true := ((Valid_mk k d [(em :: eS, c)]).mp hv).1
  obtain ⟨hm, hvX, hlen⟩ := set_splitMid_core hdata hcv hcleaf hcnk hne rs v
  refine ⟨?_, hvX, hlen⟩
  rw [hm, model_mk, modelL_cons, modelL_nil, List.append_nil,
    insertM_kpart k d (List.cons_ne_nil r rs)]

theorem set_splitMidP {k : Bool} {d : Option V} {eP : List Char} (hP : eP ≠ [])
    {em : Char} {eS : List Char} {c : Node V}
    (hv : Valid (Node.mk k d [(eP ++ em :: eS, c)])) (helen : 1 < (eP ++ em :: eS).length)
    {r : Char} (hne : r ≠ em) (rs : List Char) (v : V) :
    model (Node.mk k d [(eP, Node.mk false none
        (dictInsert [r] (extendChain (Node.mk false none []) rs v).1
          [(([em] : List Char), if eS = [] then c else Node.mk false none [(eS, c)])]))]) =
      insertM (eP ++ r :: rs) (some v) (model (Node.mk k d [(eP ++ em :: eS, c)])) ∧
    Valid (Node.mk k d [(eP, Node.mk false none
        (dictInsert [r] (extendChain (Node.mk false none []) rs v).1
          [(([em] : List Char), if eS = [] then c else Node.mk false none [(eS, c)])]))]) := by
  have hmemec : (eP ++ em :: eS, c) ∈ (Node.mk k d [(eP ++ em :: eS, c)]).children :=
    List.mem_singleton.mpr rfl
  have hcv : Valid c := hv.childValid _ hmemec
  have hcleaf : c.children = [] → c.is_key = true := hv.leafKeys _ hmemec
  have hcnk : ¬ nksc c := hv.noChain (eP ++ em :: eS) c rfl (Or.inr helen)
  have hkey_ne : eP ++ r :: rs ≠ [] := by
    intro hcon
    rcases List.append_eq_nil.mp hcon with ⟨_, h2⟩
    exact List.noConfusion h2
  obtain ⟨hm, hYv, hlen2⟩ :=
    @set_splitMid_core V false none (fun h => Bool.noConfusion h) em eS c hcv hcleaf hcnk
      r hne rs v
  simp only [Bool.false_eq_true, if_false, List.nil_append] at hm
  have hR : model (Node.mk k d [(eP ++ em :: eS, c)]) =
      (if k = true then [(([] : List Char), d)] else []) ++
        (model c).map (fun p => ((eP ++ em :: eS) ++ p.1, p.2)) := by
    rw [model_mk, modelL_cons, modelL_nil, List.append_nil]
  constructor
  · rw [model_mk, modelL_cons, modelL_nil, List.append_nil, hm, hR,
      insertM_kpart k d hkey_ne, ← map_prepend_prepend,
      insertM_map_same eP (r :: rs) (some v)]
  · rw [Valid_mk]
    refine ⟨((Valid_mk k d [(eP ++ em :: eS, c)]).mp hv).1, List.pairwise_singleton _ _,
      ?_, ?_, ?_, ?_, ?_⟩
    · intro pr hpr
      rcases List.mem_singleton.mp hpr with h
      rw [h]
      exact hP
    · intro hlen
      simp at hlen
    · intro pr hpr
      rcases List.mem_singleton.mp hpr with h
      rw [h]
      intro hc
      exfalso
      have hlc : (2 : Nat) = 0 := by
        rw [← hlen2]
        exact congrArg List.length hc
      omega
    · intro e' c' hch' _
      simp only [List.cons.injEq, Prod.mk.injEq, and_true] at hch'
      rw [← hch'.2]
      intro hcon
      have hlc : (2 : Nat) = 1 := by
        rw [← hlen2]
        exact hcon.2
      omega
    · rw [ValidL_iff]
      intro pr hpr
      rcases List.mem_singleton.mp hpr with h
      rw [h]
      exact hYv

theorem set_extend_childless {k : Bool} {d : Option V}
    (hv : Valid (Node.mk k d ([] : List (List Char × Node V)))) (r : Char) (rs : List Char)
    (v : V) :
    extendChain (Node.mk k d []) (r :: rs) v =
      (Node.mk k d [(r :: rs, Node.mk true (some v) [])], 1) ∧
    model (Node.mk k d [(r :: rs, Node.mk true (some v) [])]) =
      insertM (r :: rs) (some v) (model (Node.mk k d ([] : List (List Char × Node V)))) ∧
    Valid (Node.mk k d [(r :: rs, Node.mk true (some v) [])]) ∧
    lookupM (r :: rs) (model (Node.mk k d ([] : List (List Char × Node V)))) = none := by
  have hleafv : Valid (Node.mk true (some v) ([] : List (List Char × Node V))) := by
    rw [Valid_mk]
    exact ⟨fun _ => rfl, List.Pairwise.nil, by simp, by simp, by simp, by simp, ValidL_nil⟩
  refine ⟨?_, ?_, ?_, ?_⟩
  · cases rs with
    | nil => exact extendChain_childless_one k d r v
    | cons y ys => exact extendChain_childless_long k d r (List.cons_ne_nil y ys) v
  · rw [model_mk, model_mk, modelL_nil, List.append_nil, modelL_cons, modelL_nil,
      List.append_nil, model_childless]
    cases k with
    | false =>
      simp only [Bool.false_eq_true, if_false, List.nil_append, if_true, List.map_cons,
        List.map_nil, List.append_nil, insertM]
    | true =>
      simp only [if_true, List.map_cons, List.map_nil, List.append_nil]
      show [(([] : List Char), d), (r :: rs, some v)] =
        insertM (r :: rs) (some v) [(([] : List Char), d)]
      rw [insertM, if_neg (List.cons_ne_nil r rs), if_neg (by simp [lexLt])]
      rfl
  · rw [Valid_mk]
    refine ⟨((Valid_mk k d []).mp hv).1, List.pairwise_singleton _ _, ?_, ?_, ?_, ?_, ?_⟩
    · intro pr hpr
      rcases List.mem_singleton.mp hpr with h
      rw [h]
      exact List.cons_ne_nil r rs
    · intro hlen
      simp at hlen
    · intro pr hpr
      rcases List.mem_singleton.mp hpr with h
      rw [h]
      intro _
      rfl
    · intro e' c' hch' _
      simp only [List.cons.injEq, Prod.mk.injEq, and_true] at hch'
      rw [← hch'.2]
      intro hcon
      exact Bool.noConfusion hcon.1
    · rw [ValidL_iff]
      intro pr hpr
      rcases List.mem_singleton.mp hpr with h
      rw [h]
      exact hleafv
  · rw [model_mk, modelL_nil, List.append_nil]
    cases k with
    | false => rfl
    | true =>
      simp only [if_true]
      show (if r :: rs = [] then some d else lookupM (r :: rs) []) = none
      rw [if_neg (List.cons_ne_nil r rs)]
      rfl

theorem set_extend_into {k : Bool} {d : Option V} {ch : List (List Char × Node V)}
    (hv : Valid (Node.mk k d ch)) (hch : ch ≠ [])
    (hnc : (Node.mk k d ch).is_compressed = false) {r : Char}
    (hfresh : ∀ pr ∈ ch, pr.1 ≠ [r]) (rs : List Char) (v : V) :
    (extendChain (Node.mk k d ch) (r :: rs) v).1 =
      Node.mk k d (dictInsert [r] (extendChain (Node.mk false none []) rs v).1 ch) ∧
    model (Node.mk k d (dictInsert [r] (extendChain (Node.mk false none []) rs v).1 ch)) =
      insertM (r :: rs) (some v) (model (Node.mk k d ch)) ∧
    Valid (Node.mk k d (dictInsert [r] (extendChain (Node.mk false none []) rs v).1 ch)) ∧
    (dictInsert [r] (extendChain (Node.mk false none []) rs v).1 ch).length =
      ch.length + 1 ∧
    lookupM (r :: rs) (model (Node.mk k d ch)) = none := by
  obtain ⟨hCHm, hCHv, hCHleaf, _, _⟩ := extendChain_fresh rs v
  have hlen1 : ∀ pr ∈ ch, pr.1.length = 1 :=
    labels_len1_of_not_compressed hv hnc hch
  refine ⟨?_, ?_, ?_, length_dictInsert_fresh hfresh, ?_⟩
  · rw [extendChain_into (n := Node.mk k d ch) hch hnc r rs v]
    rfl
  · rw [model_mk, model_mk,
      modelL_dictInsert_fresh hCHm ((Valid_mk k d ch).mp hv).2.1 hlen1 hfresh,
      insertM_kpart k d (List.cons_ne_nil r rs)]
  · rw [Valid_mk]
    refine ⟨((Valid_mk k d ch).mp hv).1, KSorted_dictInsert hv.sortedCh, ?_, ?_, ?_, ?_, ?_⟩
    · intro pr hpr
      rcases mem_dictInsert hpr with h | h
      · rw [h]; exact List.cons_ne_nil r []
      · exact hv.labelsNe pr h
    · intro _ pr hpr
      rcases mem_dictInsert hpr with h | h
      · rw [h]; rfl
      · exact hlen1 pr h
    · intro pr hpr
      rcases mem_dictInsert hpr with h | h
      · rw [h]; exact hCHleaf
      · exact hv.leafKeys pr h
    · intro e' c' hch' _
      exfalso
      have hlc := congrArg List.length hch'
      rw [length_dictInsert_fresh hfresh] at hlc
      simp only [List.length_cons, List.length_nil] at hlc
      have : 0 < ch.length := List.length_pos.mpr hch
      omega
    · rw [ValidL_iff]
      intro pr hpr
      rcases mem_dictInsert hpr with h | h
      · rw [h]; exact hCHv
      · exact hv.childValid pr h
  · rw [lookupM_model_cons _ (List.cons_ne_nil r rs)]
    exact lookupM_modelL_none_nochild hlen1 hfresh


/-- Packaging of `walk_spec` for the mutating operations: the whole-tree model
rewrite, lookup transport, validity transport, and the stop conditions, all in
terms of the unconsumed suffix `sAt`. -/
theorem set_transport {t : RadixTree V} (hv : Valid t.head) (key : List Char)
    {ctxs : List (Ctx V)} {cur : Node V} {rem : List Char} {j : Nat}
    (hw : lowWalkN t.head key = (ctxs, cur, rem, j)) (v : V) :
    ∃ sAt : List Char,
      Valid cur ∧
      RGood ctxs.reverse cur ∧
      (∀ X : Node V, model X = insertM sAt (some v) (model cur) →
        model (plugAll ctxs X) = insertM key (some v) (model t.head)) ∧
      (∀ X : Node V, (lookupM sAt (model cur)).isSome = true →
        model X = eraseM sAt (model cur) →
        model (plugAll ctxs X) = eraseM key (model t.head)) ∧
      lookupM key (model t.head) = lookupM sAt (model cur) ∧
      (∀ X : Node V, Valid X → (X.children = [] → X.is_key = true) →
        ((¬ nksc cur ∧ (cur.children = [] → cur.is_key = true)) → ¬ nksc X) →
        Valid (plugAll ctxs X)) ∧
      (ctxs = [] → cur = t.head ∧ key = sAt) ∧
      (ctxs ≠ [] → ∀ X : Node V, (plugAll ctxs X).is_key = t.head.is_key) ∧
      (((cur.has_no_child = true ∨ sAt = []) ∧ rem = sAt ∧ j = 0) ∨
       (cur.has_no_child = false ∧ sAt ≠ [] ∧ matchEdge sAt cur = (none, rem, j))) := by
  obtain ⟨Pm, Sm, path, sAt, cE, hkey, hvc, hg, htop, hmodel, hcount, hPm, hSm, hstop⟩ :=
    walk_spec key.length key t.head le_rfl hv ctxs cur rem j hw
  have horig : plugAll ctxs cur = t.head := by
    rw [plugAll_eq_plugAllR, plugAllR_RGood_orig ctxs.reverse cur hg, htop]
  have htm : model t.head = Pm ++ (model cur).map (fun p => (path ++ p.1, p.2)) ++ Sm := by
    rw [← horig]
    exact hmodel cur
  refine ⟨sAt, hvc, hg, ?_, ?_, ?_, ?_, ?_, ?_, hstop⟩
  · intro X hX
    rw [htm, hkey, hmodel X, hX, List.append_assoc, List.append_assoc,
      insertM_append_right (fun pr hpr => hPm pr hpr sAt),
      insertM_append_left _ (fun pr hpr => hSm pr hpr sAt),
      insertM_map_same]
  · intro X hsome hX
    rw [htm, hkey, hmodel X, hX, List.append_assoc, List.append_assoc,
      eraseM_append_right (fun pr hpr => lexLt_ne (hPm pr hpr sAt)),
      eraseM_append_left _ (by rw [lookupM_map_same]; exact hsome),
      eraseM_map_same]
  · rw [htm, hkey, List.append_assoc,
      lookupM_append_right (fun pr hpr => lexLt_ne (hPm pr hpr sAt)),
      lookupM_append_left_none
        (lookupM_none_of_all_ne (fun pr hpr => (lexLt_ne (hSm pr hpr sAt)).symm)),
      lookupM_map_same]
  · intro X hX bc1 hbc
    rw [plugAll_eq_plugAllR]
    refine plugAllR_valid ctxs.reverse cur X hg hX bc1 ?_
    intro ctx rest hrev hlen hcond
    rw [hrev] at hg
    obtain ⟨hmem, hpar, _⟩ := hg
    have hch1 : ctx.children = [(ctx.hole, cur)] := length_one_mem_eq hlen hmem
    exact hbc ⟨hpar.noChain ctx.hole cur hch1 hcond,
      fun hcc => hpar.leafKeys (ctx.hole, cur) hmem hcc⟩
  · intro h0
    have hcur : cur = t.head := by
      rw [h0] at htop
      exact htop
    refine ⟨hcur, ?_⟩
    have h1 := hmodel (Node.mk true (some v) [])
    rw [h0] at h1
    rw [show plugAll ([] : List (Ctx V))
        (Node.mk true (some v) ([] : List (List Char × Node V))) =
        Node.mk true (some v) [] from rfl] at h1
    rw [model_childless] at h1
    simp only [if_true, List.map_cons, List.map_nil] at h1
    have hl := congrArg List.length h1
    simp only [List.length_append, List.length_cons, List.length_nil] at hl
    have hPm0 : Pm = [] := List.length_eq_zero.mp (by omega)
    have hSm0 : Sm = [] := List.length_eq_zero.mp (by omega)
    rw [hPm0, hSm0, List.nil_append, List.append_nil, List.append_nil] at h1
    simp only [List.cons.injEq, Prod.mk.injEq, and_true] at h1
    rw [hkey, ← h1]
    rfl
  · intro hne X
    match hc : ctxs with
    | [] => exact absurd rfl hne
    | c0 :: cs =>
      rw [List.reverse_cons, topNode_append_one] at htop
      show (c0.plug (plugAll cs X)).is_key = t.head.is_key
      rw [plug_is_key, ← htop]
      rfl


/-- `_insert_key_node`: on a valid tree it implements sorted-map insertion,
keeps the tree valid, adjusts `elem_cnt` by presence, and (for a non-empty key)
does not change the root key flag. -/
theorem rax_set_spec {t : RadixTree V} (hv : Valid t.head) (key : List Char) (v : V) :
    Valid (rax_set t key v).head ∧
    model (rax_set t key v).head = insertM key (some v) (model t.head) ∧
    (rax_set t key v).elem_cnt = t.elem_cnt +
      (if (lookupM key (model t.head)).isSome = true then 0 else 1) ∧
    (key ≠ [] → (rax_set t key v).head.is_key = t.head.is_key) := by
  match hw : lowWalkN t.head key with
  | (ctxs, cur, rem, j) =>
    obtain ⟨sAt, hvc, _, hins, _, hlook, hvalid, hzero, hnzkey, hstop⟩ :=
      set_transport hv key hw v
    have hset : rax_set t key v =
        (if rem = [] ∧ (cur.is_compressed = false ∨ j = 0) then
          ⟨plugAll ctxs (Node.mk true (some v) cur.children),
            t.elem_cnt + (if cur.is_key then 0 else 1), t.node_cnt⟩
        else if cur.is_compressed then
          if rem = [] then
            ⟨plugAll ctxs (splitEnd cur j v), t.elem_cnt + 1, t.node_cnt + 1⟩
          else
            match splitMidExtend cur j rem v with
            | (sub, dN) => ⟨plugAll ctxs sub, t.elem_cnt + 1, t.node_cnt + dN⟩
        else
          match extendChain cur rem v with
          | (sub, dN) => ⟨plugAll ctxs sub, t.elem_cnt + 1, t.node_cnt + dN⟩ :
          RadixTree V) := by
      unfold rax_set
      rw [hw]
    by_cases hb1 : rem = [] ∧ (cur.is_compressed = false ∨ j = 0)
    · -- full match at a node boundary: mark the stop node as a key
      have hset1 : rax_set t key v = ⟨plugAll ctxs (Node.mk true (some v) cur.children),
          t.elem_cnt + (if cur.is_key then 0 else 1), t.node_cnt⟩ := by
        rw [hset, if_pos hb1]
      have hsAt : sAt = [] := by
        rcases hstop with ⟨hA, hrem, hj⟩ | ⟨hnc0, hsne, hme⟩
        · rw [← hrem]
          exact hb1.1
        · exfalso
          rcases matchEdge_none_spec hme with
            ⟨e, c, hcomprT, hch, helen, hjlt, hjle, htk, hrd, hlast⟩ |
            ⟨hncomp, hremS, hj0, _⟩
          · rcases hb1.2 with hF | hj0
            · rw [hcomprT] at hF
              exact Bool.noConfusion hF
            · apply hsne
              rw [hj0, List.drop_zero] at hrd
              rw [← hrd]
              exact hb1.1
          · apply hsne
            rw [← hremS]
            exact hb1.1
      refine ⟨?_, ?_, ?_, ?_⟩
      · rw [hset1]
        show Valid (plugAll ctxs (Node.mk true (some v) cur.children))
        refine hvalid _ (set_mark_valid hvc v) (fun _ => rfl) ?_
        rintro _ ⟨hfalse, _⟩
        exact Bool.noConfusion hfalse
      · rw [hset1]
        show model (plugAll ctxs (Node.mk true (some v) cur.children)) = _
        apply hins
        rw [hsAt]
        exact set_mark_model hvc v
      · rw [hset1]
        show t.elem_cnt + (if cur.is_key then 0 else 1) = _
        rw [hlook, hsAt, lookupM_model_nil hvc]
        cases hk : cur.is_key with
        | false => rfl
        | true => rfl
      · intro hkne
        have hctxne : ctxs ≠ [] := by
          intro h0
          obtain ⟨_, hks⟩ := hzero h0
          exact hkne (by rw [hks, hsAt])
        rw [hset1]
        show (plugAll ctxs (Node.mk true (some v) cur.children)).is_key = t.head.is_key
        exact hnzkey hctxne _
    · by_cases hcompr : cur.is_compressed = true
      · -- stop on a compressed edge
        have hBf : cur.has_no_child = false ∧ sAt ≠ [] ∧
            matchEdge sAt cur = (none, rem, j) := by
          rcases hstop with ⟨hA, hrem, hj⟩ | hB
          · exfalso
            rcases hA with hA | hA
            · obtain ⟨e, c, hch, _⟩ := is_compressed_iff.mp hcompr
              rw [has_no_child_iff, hch] at hA
              exact List.noConfusion hA
            · exact hb1 ⟨by rw [hrem, hA], Or.inr hj⟩
          · exact hB
        obtain ⟨hnc0, hsne, hme⟩ := hBf
        rcases matchEdge_none_spec hme with
          ⟨e, c, _, hch, helen, hjlt, hjle, htk, hrd, hlast⟩ | ⟨hF, _, _, _⟩
        · have hcureq : cur = Node.mk cur.is_key cur.get_data [(e, c)] := by
            rw [← hch, Node.eta]
          have hlknone : rem ≠ [] → lookupM sAt (model cur) = none := by
            intro hrne
            have hlast2 : j < sAt.length ∧ e.getD j 'A' ≠ sAt.getD j 'A' := by
              rcases hlast with hl | hl
              · exfalso
                apply hrne
                rw [hrd]
                exact List.drop_eq_nil_of_le (by omega)
              · exact hl
            rw [lookupM_model_cons _ hsne]
            exact lookupM_modelL_none_mismatch hch htk hjlt hlast2.1 hlast2.2
          by_cases hrem0 : rem = []
          · -- key exhausted inside the edge: splitEnd
            have hj0 : j ≠ 0 := fun h0 => hb1 ⟨hrem0, Or.inr h0⟩
            have hslen : sAt.length = j := by
              have h1 : sAt.drop j = [] := by
                rw [← hrd]
                exact hrem0
              have h2 := congrArg List.length h1
              simp only [List.length_drop, List.length_nil] at h2
              omega
            have hsAt_eq : sAt = e.take j := by
              rw [htk]
              exact (List.take_of_length_le (by omega)).symm
            have hset2 : rax_set t key v = ⟨plugAll ctxs (splitEnd cur j v),
                t.elem_cnt + 1, t.node_cnt + 1⟩ := by
              rw [hset, if_neg hb1, if_pos hcompr, if_pos hrem0]
            obtain ⟨hm2, hv2, hlk2, heq2⟩ :=
              set_splitEnd (hcureq ▸ hvc) (Nat.pos_of_ne_zero hj0) hjlt v
            rw [← hcureq] at hm2 hv2 hlk2 heq2
            refine ⟨?_, ?_, ?_, ?_⟩
            · rw [hset2]
              show Valid (plugAll ctxs (splitEnd cur j v))
              refine hvalid _ hv2 ?_ ?_
              · intro hcc
                rw [heq2] at hcc
                exact absurd hcc (by simp [Node.children])
              · rintro ⟨hnkc, _⟩ hcon
                rw [heq2] at hcon
                refine hnkc ⟨hcon.1, ?_⟩
                rw [hch]
                rfl
            · rw [hset2]
              show model (plugAll ctxs (splitEnd cur j v)) = _
              apply hins
              rw [hsAt_eq]
              exact hm2
            · rw [hset2]
              show t.elem_cnt + 1 = _
              rw [hlook, hsAt_eq, hlk2]
              rfl
            · intro _
              rw [hset2]
              show (plugAll ctxs (splitEnd cur j v)).is_key = t.head.is_key
              by_cases hctx0 : ctxs = []
              · obtain ⟨hcur, _⟩ := hzero hctx0
                rw [hctx0]
                show (splitEnd cur j v).is_key = t.head.is_key
                rw [heq2, ← hcur]
                rfl
              · exact hnzkey hctx0 _
          · -- mismatch inside the edge: split and extend
            have hset3 : rax_set t key v =
                (match splitMidExtend cur j rem v with
                | (sub, dN) => ⟨plugAll ctxs sub, t.elem_cnt + 1, t.node_cnt + dN⟩ :
                RadixTree V) := by
              rw [hset, if_neg hb1, if_pos hcompr, if_neg hrem0]
            have hlast2 : j < sAt.length ∧ e.getD j 'A' ≠ sAt.getD j 'A' := by
              rcases hlast with hl | hl
              · exfalso
                apply hrem0
                rw [hrd]
                exact List.drop_eq_nil_of_le (by omega)
              · exact hl
            obtain ⟨hjs, hcne⟩ := hlast2
            obtain ⟨r, rs, hremrr⟩ : ∃ r rs, rem = r :: rs := by
              match hr : rem with
              | [] => exact absurd rfl hrem0
              | r :: rs => exact ⟨r, rs, rfl⟩
            by_cases hj0 : j = 0
            · -- mismatch on the first character of the edge
              subst hj0
              obtain ⟨em, eS, heme⟩ : ∃ em eS, e = em :: eS := by
                match he : e with
                | [] => simp at helen
                | em :: eS => exact ⟨em, eS, rfl⟩
              have hsAt_rr : sAt = r :: rs := by
                rw [← List.drop_zero sAt, ← hrd, hremrr]
              have hrne : r ≠ em := by
                intro hcon
                apply hcne
                rw [heme, hsAt_rr, hcon]
                rfl
              have hcureq0 : cur = Node.mk cur.is_key cur.get_data [(em :: eS, c)] := by
                rw [← heme, ← hch, Node.eta]
              obtain ⟨hm3, hv3, hlen3⟩ :=
                set_splitMid0 (hcureq0 ▸ hvc) (by rw [← heme]; exact helen) hrne rs v
              rw [← hcureq0] at hm3
              have hsm := splitMidExtend_eq_nil cur.is_key cur.get_data em eS c r rs v
              rw [← hcureq0] at hsm
              refine ⟨?_, ?_, ?_, ?_⟩
              · rw [hset3, hremrr, hsm]
                show Valid (plugAll ctxs (Node.mk cur.is_key cur.get_data
                  (dictInsert [r] (extendChain (Node.mk false none []) rs v).1
                    [(([em] : List Char), if eS = [] then c
                      else Node.mk false none [(eS, c)])])))
                refine hvalid _ hv3 ?_ ?_
                · intro hcc
                  have h20 : (2 : Nat) = 0 := by
                    rw [← hlen3]
                    exact congrArg List.length hcc
                  omega
                · rintro _ hcon
                  have h21 : (2 : Nat) = 1 := by
                    rw [← hlen3]
                    exact hcon.2
                  omega
              · rw [hset3, hremrr, hsm]
                show model (plugAll ctxs (Node.mk cur.is_key cur.get_data
                  (dictInsert [r] (extendChain (Node.mk false none []) rs v).1
                    [(([em] : List Char), if eS = [] then c
                      else Node.mk false none [(eS, c)])]))) = _
                apply hins
                rw [hsAt_rr]
                exact hm3
              · rw [hset3, hremrr, hsm]
                show t.elem_cnt + 1 = _
                rw [hlook, hlknone hrem0]
                rfl
              · intro _
                rw [hset3, hremrr, hsm]
                show (plugAll ctxs (Node.mk cur.is_key cur.get_data
                  (dictInsert [r] (extendChain (Node.mk false none []) rs v).1
                    [(([em] : List Char), if eS = [] then c
                      else Node.mk false none [(eS, c)])]))).is_key = t.head.is_key
                by_cases hctx0 : ctxs = []
                · obtain ⟨hcur, _⟩ := hzero hctx0
                  rw [hctx0, ← hcur]
                  rfl
                · exact hnzkey hctx0 _
            · -- mismatch strictly inside the edge
              have hjpos : 0 < j := Nat.pos_of_ne_zero hj0
              obtain ⟨em, eS, hdj⟩ : ∃ em eS, e.drop j = em :: eS := by
                match hd : e.drop j with
                | [] =>
                  exfalso
                  have h2 := congrArg List.length hd
                  simp only [List.length_drop, List.length_nil] at h2
                  omega
                | em :: eS => exact ⟨em, eS, rfl⟩
              have heSplit : e = e.take j ++ em :: eS := by
                rw [← hdj]
                exact (List.take_append_drop j e).symm
              have hPlen : (e.take j).length = j := by
                rw [List.length_take]
                omega
              have hPne : e.take j ≠ [] := by
                intro hcon
                have := congrArg List.length hcon
                rw [hPlen] at this
                simp only [List.length_nil] at this
                omega
              have hem_getD : e.getD j 'A' = em := by
                rw [getD_drop, hdj]
                rfl
              have hrne : r ≠ em := by
                intro hcon
                apply hcne
                rw [hem_getD, getD_drop sAt j, ← hrd, hremrr, hcon]
                rfl
              have hsAt_eq : sAt = e.take j ++ r :: rs := by
                conv_lhs => rw [← List.take_append_drop j sAt]
                rw [← htk, ← hrd, hremrr]
              have hcureqP : cur = Node.mk cur.is_key cur.get_data
                  [(e.take j ++ em :: eS, c)] := by
                rw [← heSplit, ← hch, Node.eta]
              obtain ⟨hmP, hvP⟩ :=
                set_splitMidP hPne (hcureqP ▸ hvc) (by rw [← heSplit]; exact helen)
                  hrne rs v
              rw [← hcureqP] at hmP
              have hsm := splitMidExtend_eq_cons cur.is_key cur.get_data (e.take j) hPne
                em eS c r rs v
              rw [hPlen, ← hcureqP] at hsm
              refine ⟨?_, ?_, ?_, ?_⟩
              · rw [hset3, hremrr, hsm]
                show Valid (plugAll ctxs (Node.mk cur.is_key cur.get_data
                  [(e.take j, Node.mk false none
                    (dictInsert [r] (extendChain (Node.mk false none []) rs v).1
                      [(([em] : List Char), if eS = [] then c
                        else Node.mk false none [(eS, c)])]))]))
                refine hvalid _ hvP ?_ ?_
                · intro hcc
                  exact absurd hcc (by simp [Node.children])
                · rintro ⟨hnkc, _⟩ hcon
                  refine hnkc ⟨hcon.1, ?_⟩
                  rw [hch]
                  rfl
              · rw [hset3, hremrr, hsm]
                show model (plugAll ctxs (Node.mk cur.is_key cur.get_data
                  [(e.take j, Node.mk false none
                    (dictInsert [r] (extendChain (Node.mk false none []) rs v).1
                      [(([em] : List Char), if eS = [] then c
                        else Node.mk false none [(eS, c)])]))])) = _
                apply hins
                rw [hsAt_eq]
                exact hmP
              · rw [hset3, hremrr, hsm]
                show t.elem_cnt + 1 = _
                rw [hlook, hlknone hrem0]
                rfl
              · intro _
                rw [hset3, hremrr, hsm]
                show (plugAll ctxs (Node.mk cur.is_key cur.get_data
                  [(e.take j, Node.mk false none
                    (dictInsert [r] (extendChain (Node.mk false none []) rs v).1
                      [(([em] : List Char), if eS = [] then c
                        else Node.mk false none [(eS, c)])]))])).is_key = t.head.is_key
                by_cases hctx0 : ctxs = []
                · obtain ⟨hcur, _⟩ := hzero hctx0
                  rw [hctx0, ← hcur]
                  rfl
                · exact hnzkey hctx0 _
        · exact absurd hF (by rw [hcompr]; simp)
      · -- not compressed: extend with a fresh chain
        have hcomprF : cur.is_compressed = false := by
          cases hcc : cur.is_compressed
          · rfl
          · exact absurd hcc hcompr
        have hremne : rem ≠ [] := fun h0 => hb1 ⟨h0, Or.inl hcomprF⟩
        have hset4 : rax_set t key v =
            (match extendChain cur rem v with
            | (sub, dN) => ⟨plugAll ctxs sub, t.elem_cnt + 1, t.node_cnt + dN⟩ :
            RadixTree V) := by
          rw [hset, if_neg hb1, if_neg hcompr]
        obtain ⟨r, rs, hremrr⟩ : ∃ r rs, rem = r :: rs := by
          match hr : rem with
          | [] => exact absurd rfl hremne
          | r :: rs => exact ⟨r, rs, rfl⟩
        have hrs : rem = sAt := by
          rcases hstop with ⟨_, hrem, _⟩ | ⟨_, _, hme⟩
          · exact hrem
          · rcases matchEdge_none_spec hme with ⟨e, c, hcT, _⟩ | ⟨_, hrem, _, _⟩
            · exact absurd hcT hcompr
            · exact hrem
        have hsAt_rr : sAt = r :: rs := by
          rw [← hrs]
          exact hremrr
        by_cases hch0 : cur.children = []
        · -- leaf: append the whole remaining key as one chain edge
          have hcureq4 : cur = Node.mk cur.is_key cur.get_data [] := by
            rw [← hch0, Node.eta]
          obtain ⟨hext, hm4, hv4, hlk4⟩ := set_extend_childless (hcureq4 ▸ hvc) r rs v
          rw [← hcureq4] at hext hm4 hlk4
          refine ⟨?_, ?_, ?_, ?_⟩
          · rw [hset4, hremrr, hext]
            show Valid (plugAll ctxs (Node.mk cur.is_key cur.get_data
              [(r :: rs, Node.mk true (some v) [])]))
            refine hvalid _ hv4 ?_ ?_
            · intro hcc
              exact absurd hcc (by simp [Node.children])
            · rintro ⟨_, hleafk⟩ hcon
              have hk := hleafk hch0
              rw [hk] at hcon
              exact Bool.noConfusion hcon.1
          · rw [hset4, hremrr, hext]
            show model (plugAll ctxs (Node.mk cur.is_key cur.get_data
              [(r :: rs, Node.mk true (some v) [])])) = _
            apply hins
            rw [hsAt_rr]
            exact hm4
          · rw [hset4, hremrr, hext]
            show t.elem_cnt + 1 = _
            rw [hlook, hsAt_rr, hlk4]
            rfl
          · intro _
            rw [hset4, hremrr, hext]
            show (plugAll ctxs (Node.mk cur.is_key cur.get_data
              [(r :: rs, Node.mk true (some v) [])])).is_key = t.head.is_key
            by_cases hctx0 : ctxs = []
            · obtain ⟨hcur, _⟩ := hzero hctx0
              rw [hctx0, ← hcur]
              rfl
            · exact hnzkey hctx0 _
        · -- inner node: insert a fresh single-character child
          have hBfr : ∀ pr ∈ cur.children, pr.1 ≠ [r] := by
            rcases hstop with ⟨hA, hrem, _⟩ | ⟨_, hsne, hme⟩
            · exfalso
              rcases hA with hA | hA
              · exact hch0 (has_no_child_iff.mp hA)
              · apply hremne
                rw [hrem, hA]
            · rcases matchEdge_none_spec hme with ⟨_, _, hcT, _⟩ | ⟨_, _, _, hcase⟩
              · exact absurd hcT hcompr
              · rcases hcase with hc | ⟨x, xs, hsx, hfr⟩
                · exact absurd hc hsne
                · have hxr : x = r := by
                    have h1 : x :: xs = r :: rs := by
                      rw [← hsx]
                      exact hsAt_rr
                    injection h1 with hh _
                  intro pr hpr
                  rw [← hxr]
                  exact hfr pr hpr
          have hcureq5 : cur = Node.mk cur.is_key cur.get_data cur.children :=
            (Node.eta cur).symm
          obtain ⟨hext5, hm5, hv5, hlen5, hlk5⟩ :=
            set_extend_into (hcureq5 ▸ hvc) hch0
              (show (Node.mk cur.is_key cur.get_data cur.children).is_compressed = false by
                rw [← hcureq5]; exact hcomprF) hBfr rs v
          rw [← hcureq5] at hm5 hlk5
          have hpair := extendChain_into (n := cur) hch0 hcomprF r rs v
          refine ⟨?_, ?_, ?_, ?_⟩
          · rw [hset4, hremrr, hpair]
            show Valid (plugAll ctxs (Node.mk cur.is_key cur.get_data
              (dictInsert [r] (extendChain (Node.mk false none []) rs v).1 cur.children)))
            refine hvalid _ hv5 ?_ ?_
            · intro hcc
              have h0 : cur.children.length + 1 = 0 := by
                rw [← hlen5]
                exact congrArg List.length hcc
              omega
            · rintro _ hcon
              have h1 : cur.children.length + 1 = 1 := by
                rw [← hlen5]
                exact hcon.2
              have h2 : 0 < cur.children.length := List.length_pos.mpr hch0
              omega
          · rw [hset4, hremrr, hpair]
            show model (plugAll ctxs (Node.mk cur.is_key cur.get_data
              (dictInsert [r] (extendChain (Node.mk false none []) rs v).1
                cur.children))) = _
            apply hins
            rw [hsAt_rr]
            exact hm5
          · rw [hset4, hremrr, hpair]
            show t.elem_cnt + 1 = _
            rw [hlook, hsAt_rr, hlk5]
            rfl
          · intro _
            rw [hset4, hremrr, hpair]
            show (plugAll ctxs (Node.mk cur.is_key cur.get_data
              (dictInsert [r] (extendChain (Node.mk false none []) rs v).1
                cur.children))).is_key = t.head.is_key
            by_cases hctx0 : ctxs = []
            · obtain ⟨hcur, _⟩ := hzero hctx0
              rw [hctx0, ← hcur]
              rfl
            · exact hnzkey hctx0 _


/-! ### Delete: pruning, climbing and recompression -/

theorem dictRemove_decomp {e : List Char} {c : Node V} :
    ∀ {P : List (List Char × Node V)} (S : List (List Char × Node V)),
    (∀ pr ∈ P, pr.1 ≠ e) → dictRemove e (P ++ (e, c) :: S) = P ++ S := by
  intro P S hP
  induction P with
  | nil =>
    show dictRemove e ((e, c) :: S) = S
    rw [dictRemove, if_pos rfl]
  | cons q rest ih =>
    match q with
    | (e', c') =>
      have hne : ¬ (e = e') :=
        fun hc => (hP (e', c') (List.mem_cons_self _ _)) (hc ▸ rfl)
      show dictRemove e ((e', c') :: (rest ++ (e, c) :: S)) = (e', c') :: (rest ++ S)
      rw [dictRemove, if_neg hne, ih (fun pr hpr => hP pr (List.mem_cons_of_mem _ hpr))]

theorem dictRemove_labels_subset {e : List Char} :
    ∀ {ch : List (List Char × Node V)} {pr}, pr ∈ dictRemove e ch → pr ∈ ch := by
  intro ch pr h
  induction ch with
  | nil => exact h
  | cons q rest ih =>
    match q with
    | (e', c') =>
      rw [dictRemove] at h
      split at h
      · exact List.mem_cons_of_mem _ h
      · rcases List.mem_cons.mp h with h | h
        · rw [h]; exact List.mem_cons_self _ _
        · exact List.mem_cons_of_mem _ (ih h)

theorem KSorted_dictRemove {e : List Char} :
    ∀ {ch : List (List Char × Node V)}, KSorted ch → KSorted (dictRemove e ch) := by
  intro ch hs
  induction ch with
  | nil => exact hs
  | cons q rest ih =>
    match q with
    | (e', c') =>
      rw [KSorted, List.pairwise_cons] at hs
      rw [dictRemove]
      split
      · exact hs.2
      · rw [KSorted, List.pairwise_cons]
        exact ⟨fun pr hpr => hs.1 pr (dictRemove_labels_subset hpr), ih hs.2⟩

/-- The shape of a rebuilt spine during recompression: either an intact valid
node that is not a lone non-key link, or a non-key node with a single non-empty
edge whose child is again such a spine. -/
def ChainOK : Node V → Prop
  | .mk k d ch =>
    (Valid (.mk k d ch) ∧ (ch = [] → k = true) ∧ ¬ nksc (.mk k d ch)) ∨
    (k = false ∧
      match ch with
      | [(e, c)] => e ≠ [] ∧ ChainOK c
      | _ => False)

theorem ChainOK_mk (k : Bool) (d : Option V) (ch : List (List Char × Node V)) :
    ChainOK (.mk k d ch) ↔
    ((Valid (.mk k d ch) ∧ (ch = [] → k = true) ∧ ¬ nksc (.mk k d ch)) ∨
     (k = false ∧
       match ch with
       | [(e, c)] => e ≠ [] ∧ ChainOK c
       | _ => False)) := by
  match ch with
  | [(e, c)] => rw [ChainOK]
  | [] =>
    rw [ChainOK]
    intro e snd h
    exact List.noConfusion h
  | (e1, c1) :: (e2, c2) :: rest =>
    rw [ChainOK]
    intro e snd h
    simp at h

theorem ChainOK_of_valid : ∀ {n : Node V}, Valid n → (n.children = [] → n.is_key = true) →
    ChainOK n := by
  intro n
  induction n using Node.strongInd with
  | _ k d ch ih =>
    intro hv hleaf
    rw [ChainOK_mk]
    by_cases hn : nksc (Node.mk k d ch)
    · right
      obtain ⟨hk, hlen⟩ := hn
      refine ⟨hk, ?_⟩
      match ch with
      | [(e, c)] =>
        refine ⟨hv.labelsNe (e, c) (List.mem_singleton.mpr rfl), ?_⟩
        exact ih e c (List.mem_singleton.mpr rfl)
          (hv.childValid (e, c) (List.mem_singleton.mpr rfl))
          (hv.leafKeys (e, c) (List.mem_singleton.mpr rfl))
      | [] => exact absurd hlen (by simp [Node.children])
      | _ :: _ :: _ => exact absurd hlen (by simp [Node.children])
    · exact Or.inl ⟨hv, hleaf, hn⟩

theorem flatten_ne_nil {es : List (List Char)} (hne : es ≠ [])
    (hl : ∀ l ∈ es, l ≠ []) : es.flatten ≠ [] := by
  match es with
  | [] => exact absurd rfl hne
  | l :: rest =>
    rw [List.flatten_cons]
    intro hcon
    rcases List.append_eq_nil.mp hcon with ⟨h1, _⟩
    exact hl l (List.mem_cons_self _ _) h1

theorem RGood_suffix {ctx : Ctx V} {rest : List (Ctx V)} {cur : Node V}
    (h : RGood (ctx :: rest) cur) :
    RGood rest (Node.mk ctx.is_key ctx.data ctx.children) := h.2.2


theorem chainDescend_stop {cur : Node V} (h : cur.not_key_with_single_child = false) :
    chainDescend cur = ([], 0, cur) := by
  rw [chainDescend, if_neg (by rw [h]; exact Bool.false_ne_true)]

theorem chainDescend_step (d : Option V) (e : List Char) (c : Node V) :
    chainDescend (Node.mk false d [(e, c)]) =
      (e :: (chainDescend c).1, (chainDescend c).2.1 + 1, (chainDescend c).2.2) := by
  have hb : (Node.mk false d [(e, c)]).not_key_with_single_child = true := rfl
  rw [chainDescend, if_pos hb]
  show (match chainDescend c with | (es, k, t) => (e :: es, k + 1, t)) =
    (e :: (chainDescend c).1, (chainDescend c).2.1 + 1, (chainDescend c).2.2)
  match hE : chainDescend c with
  | (es', k', t') => rfl

theorem chainDescend_spec : ∀ {cur : Node V}, ChainOK cur →
    ∀ es k term, chainDescend cur = (es, k, term) →
    model cur = (model term).map (fun p => (es.flatten ++ p.1, p.2)) ∧
    Valid term ∧ ¬ nksc term ∧ (term.children = [] → term.is_key = true) ∧
    (∀ l ∈ es, l ≠ []) ∧ es.length = k ∧
    (k = 0 → term = cur ∧ es = []) ∧
    (k ≤ 1 → Valid cur) ∧
    (nksc cur → 1 ≤ k) := by
  intro cur
  induction cur using Node.strongInd with
  | _ k0 d0 ch ih =>
    intro hok es k term hcd
    by_cases hn : nksc (Node.mk k0 d0 ch)
    · -- a chain node: descend into the single child
      have hlen1 : ((Node.mk k0 d0 ch).children).length = 1 := hn.2
      obtain ⟨pr0, hpr0⟩ : ∃ pr0, ch = [pr0] := by
        match ch with
        | [x] => exact ⟨x, rfl⟩
        | [] => simp [Node.children] at hlen1
        | _ :: _ :: _ => simp [Node.children] at hlen1
      rcases pr0 with ⟨e, c⟩
      subst hpr0
      rcases (ChainOK_mk k0 d0 [(e, c)]).mp hok with ⟨_, _, hnn⟩ | ⟨hkey, h2⟩
      · exact absurd hn hnn
      · obtain ⟨hene, hokc⟩ := h2
        subst hkey
        rw [chainDescend_step] at hcd
        match hE : chainDescend c with
        | (es', k', t') =>
          rw [hE] at hcd
          simp only [Prod.mk.injEq] at hcd
          obtain ⟨hes, hk, hterm⟩ := hcd
          obtain ⟨hmod', hvterm, hnnterm, hleafterm, hlabels', hlen', hzero', hvle', _⟩ :=
            ih e c (List.mem_singleton.mpr rfl) hokc es' k' t' hE
          subst hes
          subst hterm
          refine ⟨?_, hvterm, hnnterm, hleafterm, ?_, ?_, ?_, ?_, ?_⟩
          · rw [model_mk]
            simp only [Bool.false_eq_true, if_false, List.nil_append, modelL_cons,
              modelL_nil, List.append_nil, hmod', map_prepend_prepend, List.flatten_cons]
          · intro l hl
            rcases List.mem_cons.mp hl with h | h
            · rw [h]; exact hene
            · exact hlabels' l h
          · simp only [List.length_cons, hlen', hk]
          · intro h0
            omega
          · intro hk1
            have hk'0 : k' = 0 := by omega
            obtain ⟨ht', hes'⟩ := hzero' hk'0
            rw [Valid_mk]
            refine ⟨by simp, List.pairwise_singleton _ _, ?_, ?_, ?_, ?_, ?_⟩
            · intro pr hpr
              rcases List.mem_singleton.mp hpr with h
              rw [h]
              exact hene
            · intro hlen2
              simp at hlen2
            · intro pr hpr
              rcases List.mem_singleton.mp hpr with h
              rw [h]
              rw [← ht']
              exact hleafterm
            · intro e2 c2 hch2 _
              simp only [List.cons.injEq, Prod.mk.injEq, and_true] at hch2
              rw [← hch2.2, ← ht']
              exact hnnterm
            · rw [ValidL_iff]
              intro pr hpr
              rcases List.mem_singleton.mp hpr with h
              rw [h, ← ht']
              exact hvterm
          · intro _
            omega
    · -- not a chain node: the walk stops here
      have hb : (Node.mk k0 d0 ch).not_key_with_single_child = false := by
        cases hbb : (Node.mk k0 d0 ch).not_key_with_single_child
        · rfl
        · exact absurd ((nksc_iff_bool _).mpr hbb) hn
      rw [chainDescend_stop hb] at hcd
      simp only [Prod.mk.injEq] at hcd
      obtain ⟨hes, hk, hterm⟩ := hcd
      subst hes
      subst hk
      subst hterm
      obtain ⟨hv, hleaf, hnn⟩ : Valid (Node.mk k0 d0 ch) ∧ (ch = [] → k0 = true) ∧
          ¬ nksc (Node.mk k0 d0 ch) := by
        rcases (ChainOK_mk k0 d0 ch).mp hok with h | ⟨h1, h2⟩
        · exact h
        · exfalso
          match ch, h2 with
          | [(e, c)], _ => exact hn ⟨h1, rfl⟩
          | [], hF => exact hF
          | _ :: _ :: _, hF => exact hF
      refine ⟨(map_prepend_nil _).symm, hv, hn, hleaf, by simp, rfl,
        fun _ => ⟨rfl, rfl⟩, fun _ => hv, fun h => absurd h hn⟩

theorem compressClimb_spec : ∀ (rctxs : List (Ctx V)) (cur orig : Node V),
    RGood rctxs orig → ChainOK cur → nksc cur →
    ∀ rctxs' top, compressClimb rctxs cur = (rctxs', top) →
    ∃ orig' : Node V, RGood rctxs' orig' ∧
      plugAllR rctxs' top = plugAllR rctxs cur ∧
      ChainOK top ∧ nksc top ∧
      (∀ ctx rest, rctxs' = ctx :: rest →
        ¬ (ctx.is_key = false ∧ ctx.children.length = 1))
  | [], cur, orig, hg, hok, hn, rctxs', top, hcc => by
    rw [compressClimb] at hcc
    simp only [Prod.mk.injEq] at hcc
    obtain ⟨h1, h2⟩ := hcc
    subst h1
    subst h2
    exact ⟨orig, trivial, rfl, hok, hn,
      fun ctx rest heq => absurd heq (by simp)⟩
  | ctx :: rest, cur, orig, hg, hok, hn, rctxs', top, hcc => by
    obtain ⟨hmem, hpar, hrest⟩ := hg
    rw [compressClimb] at hcc
    split at hcc
    case isTrue hcond =>
      obtain ⟨hk, hl1⟩ := hcond
      have hch1 : ctx.children = [(ctx.hole, orig)] := length_one_mem_eq hl1 hmem
      have hplug : ctx.plug cur = Node.mk ctx.is_key ctx.data [(ctx.hole, cur)] := by
        rw [Ctx.plug, hch1, dictReplace]
        simp
      have hokp : ChainOK (ctx.plug cur) := by
        rw [hplug, ChainOK_mk]
        right
        rw [hk]
        refine ⟨rfl, ?_⟩
        exact ⟨hpar.labelsNe (ctx.hole, orig) (by rw [hch1]; exact List.mem_singleton.mpr rfl),
          hok⟩
      have hnp : nksc (ctx.plug cur) := by
        rw [hplug]
        exact ⟨hk, rfl⟩
      obtain ⟨orig', hg', heqp, hokt, hnt, hstop'⟩ :=
        compressClimb_spec rest (ctx.plug cur) (Node.mk ctx.is_key ctx.data ctx.children)
          hrest hokp hnp rctxs' top hcc
      refine ⟨orig', hg', ?_, hokt, hnt, hstop'⟩
      rw [heqp, plugAllR_cons]
    case isFalse hcond =>
      simp only [Prod.mk.injEq] at hcc
      obtain ⟨h1, h2⟩ := hcc
      subst h1
      subst h2
      refine ⟨orig, ⟨hmem, hpar, hrest⟩, rfl, hok, hn, ?_⟩
      intro ctx0 rest0 heq
      have h3 : ctx0 = ctx := by
        have := heq.symm
        simp only [List.cons.injEq] at this
        exact this.1
      rw [h3]
      exact hcond


theorem merged_valid {kM : Bool} {dM : Option V} {F : List Char} {term : Node V}
    (hdata : kM = true → dM.isSome = true) (hF : F ≠ [])
    (hvterm : Valid term) (hnnterm : ¬ nksc term)
    (hleafterm : term.children = [] → term.is_key = true) :
    Valid (Node.mk kM dM [(F, term)]) := by
  rw [Valid_mk]
  refine ⟨hdata, List.pairwise_singleton _ _, ?_, ?_, ?_, ?_, ?_⟩
  · intro pr hpr
    rcases List.mem_singleton.mp hpr with h
    rw [h]
    exact hF
  · intro hlen
    simp at hlen
  · intro pr hpr
    rcases List.mem_singleton.mp hpr with h
    rw [h]
    exact hleafterm
  · intro e' c' hch' _
    simp only [List.cons.injEq, Prod.mk.injEq, and_true] at hch'
    rw [← hch'.2]
    exact hnnterm
  · rw [ValidL_iff]
    intro pr hpr
    rcases List.mem_singleton.mp hpr with h
    rw [h]
    exact hvterm

/-- `_try_compress` on a fresh non-key single-child node: the rebuilt tree has
the same model, and is valid. -/
theorem tryCompress_spec {rctxs : List (Ctx V)} {cur orig : Node V}
    (hg : RGood rctxs orig) (hok : ChainOK cur) (hn : nksc cur) :
    ∀ R dd, tryCompress rctxs cur = (R, dd) →
    model R = model (plugAllR rctxs cur) ∧ Valid R := by
  intro R dd htc
  rw [tryCompress] at htc
  match hcc : compressClimb rctxs cur with
  | (rctxs', top) =>
    rw [hcc] at htc
    obtain ⟨orig', hg', heqp, hokt, hnt, hstop'⟩ :=
      compressClimb_spec rctxs cur orig hg hok hn rctxs' top hcc
    match hcd : chainDescend top with
    | (es, kk, term) =>
      obtain ⟨hmodT, hvterm, hnnterm, hleafterm, hlabels, hlenk, hzero, hvle, hksc1⟩ :=
        chainDescend_spec hokt es kk term hcd
      have hk1 : 1 ≤ kk := hksc1 hnt
      have hesne : es ≠ [] := by
        intro hcon
        rw [hcon] at hlenk
        simp at hlenk
        omega
      have hFne : es.flatten ≠ [] := flatten_ne_nil hesne hlabels
      have htopk : top.is_key = false := hnt.1
      have htopch : top.children ≠ [] := by
        intro hcon
        have := hnt.2
        rw [hcon] at this
        simp at this
      have hbc1top : top.children = [] → top.is_key = true := fun h => absurd h htopch
      have hmodM : model (Node.mk top.is_key top.get_data [(es.flatten, term)]) =
          model top := by
        rw [model_mk, modelL_cons, modelL_nil, List.append_nil, htopk, hmodT]
        simp
      have hvM : Valid (Node.mk top.is_key top.get_data [(es.flatten, term)]) := by
        refine merged_valid ?_ hFne hvterm hnnterm hleafterm
        intro hcon
        rw [htopk] at hcon
        exact Bool.noConfusion hcon
      cases rctxs' with
      | nil =>
        have htc2 : compressAt ([] : List (Ctx V)) top = (R, dd) := htc
        rw [compressAt, hcd] at htc2
        have htc3 : (if kk ≤ 1 then (plugAllR ([] : List (Ctx V)) top, (0 : Int))
            else (plugAllR ([] : List (Ctx V))
              ((Node.mk top.is_key top.get_data []).add_child es.flatten term),
              1 - (kk : Int))) = (R, dd) := htc2
        by_cases hkk : kk ≤ 1
        · rw [if_pos hkk] at htc3
          simp only [Prod.mk.injEq] at htc3
          obtain ⟨h1, _⟩ := htc3
          rw [← h1]
          exact ⟨by rw [heqp], by rw [plugAllR_nil]; exact hvle hkk⟩
        · rw [if_neg hkk, add_child_childless top.is_key top.get_data hFne term] at htc3
          simp only [Prod.mk.injEq] at htc3
          obtain ⟨h1, _⟩ := htc3
          rw [← h1, plugAllR_nil]
          refine ⟨?_, hvM⟩
          rw [hmodM, ← heqp, plugAllR_nil]
      | cons ctx rest =>
        obtain ⟨hmem', hpar', hrest'⟩ := hg'
        have htc2 : (if ctx.children.length = 1 then
            (match chainDescend top with
             | (es, k, term) =>
               if 1 + k ≤ 1 then (plugAllR (ctx :: rest) top, (0 : Int))
               else (plugAllR rest ((Node.mk ctx.is_key ctx.data []).add_child
                 ((ctx.hole :: es).flatten) term), 0 - (k : Int)))
            else compressAt (ctx :: rest) top) = (R, dd) := htc
        by_cases hcl1 : ctx.children.length = 1
        · -- the parent joins the merge
          rw [if_pos hcl1, hcd] at htc2
          have hkey : ctx.is_key = true := by
            cases h : ctx.is_key
            · exact absurd ⟨h, hcl1⟩ (hstop' ctx rest rfl)
            · rfl
          have hch1 : ctx.children = [(ctx.hole, orig')] := length_one_mem_eq hcl1 hmem'
          have hhole : ctx.hole ≠ [] :=
            hpar'.labelsNe (ctx.hole, orig') (by rw [hch1]; exact List.mem_singleton.mpr rfl)
          have hFne2 : (ctx.hole :: es).flatten ≠ [] := by
            rw [List.flatten_cons]
            intro hcon
            rcases List.append_eq_nil.mp hcon with ⟨h1, _⟩
            exact hhole h1
          have htc3 : (if 1 + kk ≤ 1 then (plugAllR (ctx :: rest) top, (0 : Int))
              else (plugAllR rest ((Node.mk ctx.is_key ctx.data []).add_child
                ((ctx.hole :: es).flatten) term), 0 - (kk : Int))) = (R, dd) := htc2
          rw [if_neg (by omega), add_child_childless ctx.is_key ctx.data hFne2 term] at htc3
          simp only [Prod.mk.injEq] at htc3
          obtain ⟨h1, _⟩ := htc3
          rw [← h1]
          have hplug : ctx.plug top = Node.mk ctx.is_key ctx.data [(ctx.hole, top)] := by
            rw [Ctx.plug, hch1, dictReplace]
            simp
          have hmodM' : model (Node.mk ctx.is_key ctx.data
              [((ctx.hole :: es).flatten, term)]) = model (ctx.plug top) := by
            rw [hplug, model_mk, model_mk, modelL_cons, modelL_nil, List.append_nil,
              modelL_cons, modelL_nil, List.append_nil, hmodT, map_prepend_prepend,
              List.flatten_cons]
          obtain ⟨Pm, Sm, path, cE, _, hmodel, _⟩ := plugAllR_decomp rest
            (Node.mk ctx.is_key ctx.data ctx.children) hrest'
          constructor
          · rw [hmodel, hmodM', ← hmodel, ← plugAllR_cons, heqp]
          · refine plugAllR_valid rest (Node.mk ctx.is_key ctx.data ctx.children) _ hrest'
              ?_ ?_ ?_
            · refine merged_valid ?_ hFne2 hvterm hnnterm hleafterm
              exact fun _ => hpar'.dataOk hkey
            · intro hcc2
              exact absurd hcc2 (by simp [Node.children])
            · intro ctx2 rest2 _ _ _
              intro hcon
              have h2 := hcon.1
              rw [show (Node.mk ctx.is_key ctx.data
                  [((ctx.hole :: es).flatten, term)]).is_key = ctx.is_key from rfl,
                hkey] at h2
              exact Bool.noConfusion h2
        · -- the parent keeps other children: merge strictly below it
          rw [if_neg hcl1] at htc2
          rw [compressAt, hcd] at htc2
          have htc3 : (if kk ≤ 1 then (plugAllR (ctx :: rest) top, (0 : Int))
              else (plugAllR (ctx :: rest)
                ((Node.mk top.is_key top.get_data []).add_child es.flatten term),
                1 - (kk : Int))) = (R, dd) := htc2
          by_cases hkk : kk ≤ 1
          · rw [if_pos hkk] at htc3
            simp only [Prod.mk.injEq] at htc3
            obtain ⟨h1, _⟩ := htc3
            rw [← h1]
            refine ⟨by rw [heqp], ?_⟩
            refine plugAllR_valid (ctx :: rest) orig' top ⟨hmem', hpar', hrest'⟩
              (hvle hkk) hbc1top ?_
            intro ctx2 rest2 heq hl1 _
            have h3 : ctx2 = ctx := by
              have := heq.symm
              simp only [List.cons.injEq] at this
              exact this.1
            rw [h3] at hl1
            exact absurd hl1 hcl1
          · rw [if_neg hkk, add_child_childless top.is_key top.get_data hFne term] at htc3
            simp only [Prod.mk.injEq] at htc3
            obtain ⟨h1, _⟩ := htc3
            rw [← h1]
            obtain ⟨Pm, Sm, path, cE, _, hmodel, _⟩ := plugAllR_decomp (ctx :: rest)
              orig' ⟨hmem', hpar', hrest'⟩
            constructor
            · rw [hmodel, hmodM, ← hmodel, heqp]
            · refine plugAllR_valid (ctx :: rest) orig' _ ⟨hmem', hpar', hrest'⟩ hvM
                ?_ ?_
              · intro hcc2
                exact absurd hcc2 (by simp [Node.children])
              · intro ctx2 rest2 heq hl1 _
                have h3 : ctx2 = ctx := by
                  have := heq.symm
                  simp only [List.cons.injEq] at this
                  exact this.1
                rw [h3] at hl1
                exact absurd hl1 hcl1


/-- The upward pruning loop: it only discards empty non-key nodes, so the
rebuilt tree keeps its model; the stop node satisfies every validity condition
that does not mention its own single-child shape. -/
theorem pruneUp_spec : ∀ (rctxs : List (Ctx V)) (orig : Node V), RGood rctxs orig →
    ∀ (cur1 : Node V), cur1.is_key = false → cur1.children = [] →
    ∀ rctxs2 cur2 dd, pruneUp rctxs cur1 = (rctxs2, cur2, dd) →
    ∃ orig2 : Node V, RGood rctxs2 orig2 ∧
      model (plugAllR rctxs2 cur2) = model (plugAllR rctxs cur1) ∧
      KSorted cur2.children ∧
      (∀ pr ∈ cur2.children, pr.1 ≠ []) ∧
      (2 ≤ cur2.children.length → ∀ pr ∈ cur2.children, pr.1.length = 1) ∧
      (∀ pr ∈ cur2.children, pr.2.children = [] → pr.2.is_key = true) ∧
      ValidL cur2.children ∧
      (cur2.is_key = true → cur2.get_data.isSome = true) ∧
      (cur2.children.length = 1 →
        cur2.is_key = false ∨ ∀ pr ∈ cur2.children, pr.1.length = 1) ∧
      (rctxs2 ≠ [] → cur2.children = [] → cur2.is_key = true)
  | [], orig, hg, cur1, hk1, hch1, rctxs2, cur2, dd, hp => by
    rw [pruneUp] at hp
    simp only [Prod.mk.injEq] at hp
    obtain ⟨h1, h2, _⟩ := hp
    subst h1
    subst h2
    refine ⟨orig, trivial, rfl, ?_, ?_, ?_, ?_, ?_, ?_, ?_, fun h => absurd rfl h⟩
    · rw [hch1]; exact List.Pairwise.nil
    · rw [hch1]; intro pr hpr; cases hpr
    · rw [hch1]; intro h; simp at h
    · rw [hch1]; intro pr hpr; cases hpr
    · rw [hch1]; exact ValidL_nil
    · intro hc; rw [hk1] at hc; exact Bool.noConfusion hc
    · rw [hch1]; intro h; simp at h
  | ctx :: rest, orig, hg, cur1, hk1, hch1, rctxs2, cur2, dd, hp => by
    obtain ⟨hmem, hpar, hrest⟩ := hg
    obtain ⟨P, S, hchd0, hP, hS⟩ := mem_decomp_sorted hpar.sortedCh hmem
    have hchd : ctx.children = P ++ (ctx.hole, orig) :: S := hchd0
    have hrem : dictRemove ctx.hole ctx.children = P ++ S := by
      rw [hchd]
      exact dictRemove_decomp S (fun pr hpr => lexLt_ne (hP pr hpr))
    have hrep : dictReplace ctx.hole cur1 ctx.children = P ++ (ctx.hole, cur1) :: S := by
      rw [hchd]
      exact dictReplace_decomp cur1 (fun pr hpr => lexLt_ne (hP pr hpr))
        (fun pr hpr => (lexLt_ne (hS pr hpr)).symm)
    have hlendrop : ctx.children.length = (P ++ S).length + 1 := by
      rw [hchd]
      simp only [List.length_append, List.length_cons]
      omega
    have hsubset : ∀ pr ∈ P ++ S, pr ∈ ctx.children := by
      intro pr hpr
      rw [← hrem] at hpr
      exact dictRemove_labels_subset hpr
    -- the detached parent has the same model as the parent with the empty
    -- child still in place
    have hmodpar : model (Node.mk ctx.is_key ctx.data (dictRemove ctx.hole ctx.children)) =
        model (ctx.plug cur1) := by
      rw [Ctx.plug, hrem, hrep, model_mk, model_mk, modelL_append, modelL_append,
        modelL_cons]
      have hm1 : model cur1 = [] := by
        cases cur1 with
        | mk kc dc chc =>
          simp only [Node.is_key] at hk1
          simp only [Node.children] at hch1
          subst hk1
          subst hch1
          rw [model_mk, modelL_nil]
          simp
      rw [hm1]
      simp
    have hmodstep : model (plugAllR rest
        (Node.mk ctx.is_key ctx.data (dictRemove ctx.hole ctx.children))) =
        model (plugAllR (ctx :: rest) cur1) := by
      obtain ⟨Pm, Sm, path, cE, _, hmodel, _⟩ := plugAllR_decomp rest
        (Node.mk ctx.is_key ctx.data ctx.children) hrest
      rw [plugAllR_cons, hmodel, hmodel, hmodpar]
    rw [pruneUp] at hp
    split at hp
    case isTrue hcond =>
      simp only [Prod.mk.injEq] at hp
      obtain ⟨h1, h2, _⟩ := hp
      subst h1
      subst h2
      refine ⟨Node.mk ctx.is_key ctx.data ctx.children, hrest, hmodstep, ?_, ?_, ?_, ?_,
        ?_, ?_, ?_, ?_⟩
      · exact KSorted_dictRemove hpar.sortedCh
      · intro pr hpr
        exact hpar.labelsNe pr (dictRemove_labels_subset hpr)
      · intro hlen pr hpr
        refine hpar.multiLen1 ?_ pr (dictRemove_labels_subset hpr)
        show 2 ≤ ctx.children.length
        rw [show (Node.mk ctx.is_key ctx.data (dictRemove ctx.hole ctx.children)).children
          = dictRemove ctx.hole ctx.children from rfl, hrem] at hlen
        omega
      · intro pr hpr
        exact hpar.leafKeys pr (dictRemove_labels_subset hpr)
      · rw [ValidL_iff]
        intro pr hpr
        exact hpar.childValid pr (dictRemove_labels_subset hpr)
      · exact hpar.dataOk
      · intro hlen
        right
        intro pr hpr
        refine hpar.multiLen1 ?_ pr (dictRemove_labels_subset hpr)
        show 2 ≤ ctx.children.length
        rw [show (Node.mk ctx.is_key ctx.data (dictRemove ctx.hole ctx.children)).children
          = dictRemove ctx.hole ctx.children from rfl, hrem] at hlen
        omega
      · intro _ hcc
        rcases hcond with hck | hnch
        · exact hck
        · exfalso
          apply hnch
          rw [has_no_child_iff]
          exact hcc
    case isFalse hcond =>
      push_neg at hcond
      obtain ⟨hck, hnch⟩ := hcond
      have hck' : ctx.is_key = false := by
        cases h : ctx.is_key
        · rfl
        · exact absurd h hck
      have hchd' : (Node.mk ctx.is_key ctx.data
          (dictRemove ctx.hole ctx.children)).children = [] := has_no_child_iff.mp hnch
      match hrec : pruneUp rest (Node.mk ctx.is_key ctx.data
          (dictRemove ctx.hole ctx.children)) with
      | (cs, n, d) =>
        rw [hrec] at hp
        simp only [Prod.mk.injEq] at hp
        obtain ⟨h1, h2, _⟩ := hp
        subst h1
        subst h2
        obtain ⟨orig2, hg2, hmod2, hrest2⟩ := pruneUp_spec rest
          (Node.mk ctx.is_key ctx.data ctx.children) hrest
          (Node.mk ctx.is_key ctx.data (dictRemove ctx.hole ctx.children))
          (by rw [show (Node.mk ctx.is_key ctx.data
            (dictRemove ctx.hole ctx.children)).is_key = ctx.is_key from rfl]; exact hck')
          hchd' cs n d hrec
        exact ⟨orig2, hg2, by rw [hmod2, hmodstep], hrest2⟩


/-- `_delete_key_node`: it fails exactly when the key is absent from the model,
and on success it implements sorted-map erasure, keeps the tree valid, and
decrements `elem_cnt`. -/
theorem rax_del_spec {t : RadixTree V} (hv : Valid t.head) (key : List Char) :
    (rax_del t key = none ↔ lookupM key (model t.head) = none) ∧
    (∀ t2, rax_del t key = some t2 →
      Valid t2.head ∧ model t2.head = eraseM key (model t.head) ∧
      t2.elem_cnt = t.elem_cnt - 1) := by
  have hfm := rax_find_model hv key
  match hw : lowWalkN t.head key with
  | (ctxs, cur, rem, j) =>
    have hfindeq : rax_find t key =
        (if rem ≠ [] ∨ (cur.is_compressed ∧ j ≠ 0) ∨ cur.is_key = false then none
         else some cur) := by
      unfold rax_find
      rw [hw]
    by_cases hcond : rem ≠ [] ∨ (cur.is_compressed ∧ j ≠ 0) ∨ cur.is_key = false
    · have hdeleq : rax_del t key = none := by
        unfold rax_del
        rw [hw]
        exact if_pos hcond
      have hlknone : lookupM key (model t.head) = none := by
        rw [← hfm, hfindeq, if_pos hcond]
        rfl
      refine ⟨⟨fun _ => hlknone, fun _ => hdeleq⟩, ?_⟩
      intro t2 h2
      rw [hdeleq] at h2
      exact Option.noConfusion h2
    · -- the key is present: the deletion succeeds
      have hcond' := hcond
      push_neg at hcond'
      obtain ⟨hrem0, hnotcj, hkne⟩ := hcond'
      have hkT : cur.is_key = true := by
        cases h : cur.is_key
        · exact absurd h hkne
        · rfl
      have hlm : lookupM key (model t.head) = some cur.get_data := by
        rw [← hfm, hfindeq, if_neg hcond]
        rfl
      have hvc0 : Valid cur := by
        obtain ⟨Pm, Sm, path, sAt0, cE, _, hvc0, _⟩ :=
          walk_spec key.length key t.head le_rfl hv ctxs cur rem j hw
        exact hvc0
      obtain ⟨v, hvv⟩ := Option.isSome_iff_exists.mp (hvc0.dataOk hkT)
      obtain ⟨sAt, hvc, hg, _, hdelM, hlook, _, _, _, hstop⟩ := set_transport hv key hw v
      have hb1 : rem = [] ∧ (cur.is_compressed = false ∨ j = 0) := by
        refine ⟨hrem0, ?_⟩
        by_cases hc : cur.is_compressed = true
        · exact Or.inr (hnotcj hc)
        · left
          cases h : cur.is_compressed
          · rfl
          · exact absurd h hc
      have hsAt : sAt = [] := by
        rcases hstop with ⟨hA, hrem, hj⟩ | ⟨hnc0, hsne, hme⟩
        · rw [← hrem]
          exact hb1.1
        · exfalso
          rcases matchEdge_none_spec hme with
            ⟨e, c, hcomprT, hch, helen, hjlt, hjle, htk, hrd, hlast⟩ |
            ⟨hncomp, hremS, hj0, _⟩
          · rcases hb1.2 with hF | hj0
            · rw [hcomprT] at hF
              exact Bool.noConfusion hF
            · apply hsne
              rw [hj0, List.drop_zero] at hrd
              rw [← hrd]
              exact hb1.1
          · apply hsne
            rw [← hremS]
            exact hb1.1
      have hdeleq2 : rax_del t key =
          (match (if (Node.mk false none cur.children).has_no_child = true
              then pruneUp ctxs.reverse (Node.mk false none cur.children)
              else (ctxs.reverse, Node.mk false none cur.children, (0 : Int))) with
           | (rctxs2, cur2, removed) =>
             if cur2.not_key_with_single_child = true then
               match tryCompress rctxs2 cur2 with
               | (h, dd) => some ⟨h, t.elem_cnt - 1, t.node_cnt - removed + dd⟩
             else some ⟨plugAllR rctxs2 cur2, t.elem_cnt - 1, t.node_cnt - removed⟩) := by
        unfold rax_del
        rw [hw]
        exact if_neg hcond
      match hup : (if (Node.mk false none cur.children).has_no_child = true
          then pruneUp ctxs.reverse (Node.mk false none cur.children)
          else (ctxs.reverse, Node.mk false none cur.children, (0 : Int))) with
      | (rctxs2, cur2, removed) =>
        rw [hup] at hdeleq2
        have hdeleq3 : rax_del t key =
            (if cur2.not_key_with_single_child = true then
              match tryCompress rctxs2 cur2 with
              | (h, dd) => some ⟨h, t.elem_cnt - 1, t.node_cnt - removed + dd⟩
            else some ⟨plugAllR rctxs2 cur2, t.elem_cnt - 1, t.node_cnt - removed⟩) :=
          hdeleq2
        obtain ⟨orig2, hg2, hmodPP, hsort2, hlab2, hml2, hleaf2, hvl2, hdata2, hB2, hE2⟩ :
            ∃ orig2 : Node V, RGood rctxs2 orig2 ∧
              model (plugAllR rctxs2 cur2) =
                model (plugAllR ctxs.reverse (Node.mk false none cur.children)) ∧
              KSorted cur2.children ∧
              (∀ pr ∈ cur2.children, pr.1 ≠ []) ∧
              (2 ≤ cur2.children.length → ∀ pr ∈ cur2.children, pr.1.length = 1) ∧
              (∀ pr ∈ cur2.children, pr.2.children = [] → pr.2.is_key = true) ∧
              ValidL cur2.children ∧
              (cur2.is_key = true → cur2.get_data.isSome = true) ∧
              (cur2.children.length = 1 →
                cur2.is_key = false ∨ ∀ pr ∈ cur2.children, pr.1.length = 1) ∧
              (rctxs2 ≠ [] → cur2.children = [] → cur2.is_key = true) := by
          by_cases hnoch : (Node.mk false none cur.children).has_no_child = true
          · rw [if_pos hnoch] at hup
            exact pruneUp_spec ctxs.reverse cur hg (Node.mk false none cur.children) rfl
              (has_no_child_iff.mp hnoch) rctxs2 cur2 removed hup
          · rw [if_neg hnoch] at hup
            simp only [Prod.mk.injEq] at hup
            obtain ⟨h1, h2, _⟩ := hup
            subst h1
            subst h2
            refine ⟨cur, hg, rfl, hvc.sortedCh, hvc.labelsNe, hvc.multiLen1, hvc.leafKeys,
              ?_, ?_, fun _ => Or.inl rfl, ?_⟩
            · rw [ValidL_iff]
              exact hvc.childValid
            · intro hc
              exact absurd hc (by simp [Node.is_key])
            · intro _ hc
              exact absurd ((has_no_child_iff (n := Node.mk false none cur.children)).mpr hc)
                hnoch
        have hmodgoal : ∀ Rh : Node V, model Rh = model (plugAllR rctxs2 cur2) →
            model Rh = eraseM key (model t.head) := by
          intro Rh hR
          rw [hR, hmodPP, ← plugAll_eq_plugAllR]
          refine hdelM (Node.mk false none cur.children) ?_ ?_
          · rw [hsAt, lookupM_model_nil hvc, hkT]
            rfl
          · rw [hsAt]
            cases cur with
            | mk k0 d0 ch0 =>
              simp only [Node.is_key] at hkT
              subst hkT
              show model (Node.mk false none ch0) = eraseM [] (model (Node.mk true d0 ch0))
              rw [model_mk, model_mk]
              simp only [Bool.false_eq_true, if_false, List.nil_append, if_true]
              show modelL ch0 = eraseM [] ((([] : List Char), d0) :: modelL ch0)
              rw [eraseM_cons_self]
        have hlmne : ¬ (lookupM key (model t.head) = none) := by
          rw [hlm]
          exact Option.noConfusion
        by_cases hnk : cur2.not_key_with_single_child = true
        · rw [if_pos hnk] at hdeleq3
          match htc : tryCompress rctxs2 cur2 with
          | (Rh, ddd) =>
            rw [htc] at hdeleq3
            have hnksc2 : nksc cur2 := (nksc_iff_bool cur2).mpr hnk
            have hok2 : ChainOK cur2 := by
              cases cur2 with
              | mk kk2 dd2 ch2 =>
                rw [ChainOK_mk]
                right
                refine ⟨hnksc2.1, ?_⟩
                have hlen2 : ch2.length = 1 := hnksc2.2
                match ch2, hlen2 with
                | [(e2, c2)], _ =>
                  refine ⟨hlab2 (e2, c2) (List.mem_singleton.mpr rfl), ?_⟩
                  exact ChainOK_of_valid
                    (ValidL_iff.mp hvl2 (e2, c2) (List.mem_singleton.mpr rfl))
                    (hleaf2 (e2, c2) (List.mem_singleton.mpr rfl))
            obtain ⟨hModR, hValR⟩ := tryCompress_spec hg2 hok2 hnksc2 Rh ddd htc
            refine ⟨⟨?_, ?_⟩, ?_⟩
            · intro h
              rw [hdeleq3] at h
              exact Option.noConfusion h
            · intro h
              exact absurd h hlmne
            · intro t2 h2
              rw [hdeleq3] at h2
              simp only [Option.some.injEq] at h2
              rw [← h2]
              exact ⟨hValR, hmodgoal Rh hModR, rfl⟩
        · rw [if_neg hnk] at hdeleq3
          have hnn2 : ¬ nksc cur2 := fun h => hnk ((nksc_iff_bool _).mp h)
          have hvc2 : Valid cur2 := by
            cases cur2 with
            | mk kk2 dd2 ch2 =>
              rw [Valid_mk]
              refine ⟨hdata2, hsort2, hlab2, hml2, hleaf2, ?_, hvl2⟩
              intro e c hch hcond2
              have hlen1 : ch2.length = 1 := by
                rw [hch]
                rfl
              rcases hB2 hlen1 with hkf | hl1
              · exact absurd ⟨hkf, hlen1⟩ hnn2
              · have he1 : e.length = 1 := by
                  refine hl1 (e, c) ?_
                  rw [show (Node.mk kk2 dd2 ch2).children = ch2 from rfl, hch]
                  exact List.mem_singleton.mpr rfl
                rcases hcond2 with hkf | hgt
                · exact absurd ⟨hkf, hlen1⟩ hnn2
                · omega
          have hValR : Valid (plugAllR rctxs2 cur2) := by
            cases rctxs2 with
            | nil =>
              rw [plugAllR_nil]
              exact hvc2
            | cons c0 cs =>
              refine plugAllR_valid (c0 :: cs) orig2 cur2 hg2 hvc2 ?_ ?_
              · exact hE2 (by simp)
              · intro ctx2 rest2 _ _ _
                exact hnn2
          refine ⟨⟨?_, ?_⟩, ?_⟩
          · intro h
            rw [hdeleq3] at h
            exact Option.noConfusion h
          · intro h
            exact absurd h hlmne
          · intro t2 h2
            rw [hdeleq3] at h2
            simp only [Option.some.injEq] at h2
            rw [← h2]
            exact ⟨hValR, hmodgoal _ rfl, rfl⟩


/-! ### Iteration: ascending and descending key traversals against the model -/

theorem ascL_nil : ascL ([] : List (List Char × Node V)) = [] := by rw [ascL]

theorem ascL_cons (e : List Char) (c : Node V) (rest : List (List Char × Node V)) :
    ascL ((e, c) :: rest) =
      (if c.is_key then [e] else []) ++ (ascFrom c).map (fun p => e ++ p) ++ ascL rest := by
  rw [ascL]

theorem ascFrom_mk (k : Bool) (d : Option V) (ch : List (List Char × Node V)) :
    ascFrom (Node.mk k d ch) = ascL (sortCh ch) := by rw [ascFrom]

theorem descL_nil : descL ([] : List (List Char × Node V)) = [] := by rw [descL]

theorem descL_cons (e : List Char) (c : Node V) (rest : List (List Char × Node V)) :
    descL ((e, c) :: rest) = (descFrom c).map (fun p => e ++ p) ++ descL rest := by
  rw [descL]

theorem descFrom_mk (k : Bool) (d : Option V) (ch : List (List Char × Node V)) :
    descFrom (Node.mk k d ch) = descL (sortChD ch) ++ (if k then [[]] else []) := by
  rw [descFrom]

theorem descL_append : ∀ A B : List (List Char × Node V),
    descL (A ++ B) = descL A ++ descL B
  | [], B => by rw [descL_nil]; rfl
  | (e, c) :: rest, B => by
    rw [List.cons_append, descL_cons, descL_cons, descL_append rest B, List.append_assoc]

theorem sortIns_front {q : List Char × Node V} :
    ∀ {l : List (List Char × Node V)}, (∀ pr ∈ l, lexLt q.1 pr.1 = true) →
    sortIns q l = q :: l := by
  intro l h
  match l with
  | [] => rfl
  | r :: rest =>
    rw [sortIns, if_pos (h r (List.mem_cons_self _ _))]

theorem sortCh_sorted : ∀ {ch : List (List Char × Node V)}, KSorted ch → sortCh ch = ch := by
  intro ch hs
  induction ch with
  | nil => rfl
  | cons q rest ih =>
    rw [KSorted, List.pairwise_cons] at hs
    show sortIns q (sortCh rest) = q :: rest
    rw [ih hs.2, sortIns_front hs.1]

theorem sortInsD_last {q : List Char × Node V} :
    ∀ {l : List (List Char × Node V)}, (∀ pr ∈ l, lexLt q.1 pr.1 = true) →
    sortInsD q l = l ++ [q] := by
  intro l h
  induction l with
  | nil => rfl
  | cons r rest ih =>
    rw [sortInsD, if_neg (by
      rw [lexLt_asymm (h r (List.mem_cons_self _ _))]
      exact Bool.false_ne_true),
      ih (fun pr hpr => h pr (List.mem_cons_of_mem _ hpr))]
    rfl

theorem sortChD_sorted : ∀ {ch : List (List Char × Node V)}, KSorted ch →
    sortChD ch = ch.reverse := by
  intro ch hs
  induction ch with
  | nil => rfl
  | cons q rest ih =>
    rw [KSorted, List.pairwise_cons] at hs
    show sortInsD q (sortChD rest) = (q :: rest).reverse
    rw [ih hs.2, List.reverse_cons, sortInsD_last]
    intro pr hpr
    exact hs.1 pr (List.mem_reverse.mp hpr)

/-- The ascending traversal prefixed by the node's own key entry. -/
def ascWith (n : Node V) : List (List Char) :=
  (if n.is_key then [([] : List Char)] else []) ++ ascFrom n

theorem map_append_key (e : List Char) (c : Node V) :
    (if c.is_key then [e] else []) ++ (ascFrom c).map (fun p => e ++ p) =
      (ascWith c).map (fun p => e ++ p) := by
  rw [ascWith, List.map_append]
  cases hk : c.is_key
  · simp
  · simp

theorem ascWith_model : ∀ {n : Node V}, Valid n → ascWith n = (model n).map Prod.fst := by
  intro n
  induction n using Node.strongInd with
  | _ k d ch ih =>
    intro hv
    rw [ascWith, ascFrom_mk, sortCh_sorted ((Valid_mk k d ch).mp hv).2.1, model_mk,
      List.map_append]
    have hkpart : ((if k then [(([] : List Char), d)] else []).map Prod.fst) =
        (if (Node.mk k d ch).is_key then [([] : List Char)] else []) := by
      cases k
      · rfl
      · rfl
    rw [hkpart]
    have hlist : ∀ l : List (List Char × Node V), (∀ pr ∈ l, pr ∈ ch) →
        ascL l = (modelL l).map Prod.fst := by
      intro l
      induction l with
      | nil => intro _; rw [ascL_nil, modelL_nil]; rfl
      | cons q rest ihl =>
        intro hsub
        match q with
        | (e, c) =>
          rw [ascL_cons, modelL_cons, List.map_append, map_append_key,
            ihl (fun pr hpr => hsub pr (List.mem_cons_of_mem _ hpr)),
            ih e c (hsub (e, c) (List.mem_cons_self _ _))
              (hv.childValid (e, c) (hsub (e, c) (List.mem_cons_self _ _)))]
          rw [List.map_map, List.map_map]
          rfl
    rw [hlist ch (fun pr hpr => hpr)]

theorem descFrom_reverse : ∀ {n : Node V}, Valid n → descFrom n = (ascWith n).reverse := by
  intro n
  induction n using Node.strongInd with
  | _ k d ch ih =>
    intro hv
    rw [descFrom_mk, sortChD_sorted ((Valid_mk k d ch).mp hv).2.1, ascWith, ascFrom_mk,
      sortCh_sorted ((Valid_mk k d ch).mp hv).2.1, List.reverse_append]
    have hkpart : ((if (Node.mk k d ch).is_key then [([] : List Char)] else []).reverse) =
        (if k then [([] : List Char)] else []) := by
      cases k
      · rfl
      · rfl
    rw [hkpart]
    have hlist : ∀ l : List (List Char × Node V), (∀ pr ∈ l, pr ∈ ch) →
        descL l.reverse = (ascL l).reverse := by
      intro l
      induction l with
      | nil =>
        intro _
        rw [List.reverse_nil, descL_nil, ascL_nil, List.reverse_nil]
      | cons q rest ihl =>
        intro hsub
        match q with
        | (e, c) =>
          rw [List.reverse_cons, descL_append, descL_cons, descL_nil, List.append_nil,
            ascL_cons, map_append_key, List.reverse_append,
            ihl (fun pr hpr => hsub pr (List.mem_cons_of_mem _ hpr)),
            ih e c (hsub (e, c) (List.mem_cons_self _ _))
              (hv.childValid (e, c) (hsub (e, c) (List.mem_cons_self _ _))),
            List.map_reverse]
    rw [hlist ch (fun pr hpr => hpr)]


/-! ### The reference map of `V` values, injected into the observation type -/

/-- A reference associative array, as observed through `model` (every stored
value is present). -/
def asModel (m : List (List Char × V)) : List (List Char × Option V) :=
  m.map (fun p => (p.1, some p.2))

theorem lookupM_asModel (k : List Char) :
    ∀ m : List (List Char × V), lookupM k (asModel m) = (mFind k m).map some
  | [] => rfl
  | (k', v') :: rest => by
    show (if k = k' then some (some v') else lookupM k (asModel rest)) = _
    rw [mFind]
    by_cases h : k = k'
    · rw [if_pos h, if_pos h]
      rfl
    · rw [if_neg h, if_neg h, lookupM_asModel k rest]

theorem insertM_asModel (k : List Char) (v : V) :
    ∀ m : List (List Char × V), insertM k (some v) (asModel m) = asModel (mSet k v m)
  | [] => rfl
  | (k', v') :: rest => by
    show (if k = k' then _ else if lexLt k k' then _ else _) = asModel (mSet k v ((k', v') :: rest))
    rw [mSet]
    by_cases h : k = k'
    · rw [if_pos h, if_pos h]
      rfl
    · rw [if_neg h, if_neg h]
      by_cases h2 : lexLt k k' = true
      · rw [if_pos h2, if_pos h2]
        rfl
      · rw [if_neg h2, if_neg h2]
        show (k', some v') :: insertM k (some v) (asModel rest) = _
        rw [insertM_asModel k v rest]
        rfl

theorem mDel_none_iff {k : List Char} :
    ∀ {m : List (List Char × V)}, mDel k m = none ↔ mFind k m = none := by
  intro m
  induction m with
  | nil => exact ⟨fun _ => rfl, fun _ => rfl⟩
  | cons q rest ih =>
    match q with
    | (k', v') =>
      rw [mDel, mFind]
      by_cases h : k = k'
      · rw [if_pos h, if_pos h]
        constructor
        · intro hc
          exact Option.noConfusion hc
        · intro hc
          exact Option.noConfusion hc
      · rw [if_neg h, if_neg h, ← ih]
        cases hd : mDel k rest
        · simp
        · simp

theorem eraseM_asModel (k : List Char) :
    ∀ m : List (List Char × V), eraseM k (asModel m) = asModel ((mDel k m).getD m)
  | [] => rfl
  | (k', v') :: rest => by
    show (if k = k' then asModel rest else (k', some v') :: eraseM k (asModel rest)) = _
    rw [mDel]
    by_cases h : k = k'
    · rw [if_pos h, if_pos h]
      rfl
    · rw [if_neg h, if_neg h, eraseM_asModel k rest]
      cases hd : mDel k rest with
      | none => rfl
      | some m' => rfl

theorem length_asModel (m : List (List Char × V)) : (asModel m).length = m.length :=
  List.length_map m _

theorem lookupM_eraseM_none {k0 k : List Char} :
    ∀ {l : List (List Char × Option V)}, lookupM k0 l = none →
    lookupM k0 (eraseM k l) = none := by
  intro l h
  induction l with
  | nil => rfl
  | cons q rest ih =>
    match q with
    | (k', d') =>
      rw [lookupM] at h
      split at h
      · exact Option.noConfusion h
      · rw [eraseM]
        split
        · exact h
        · rw [lookupM]
          split
          case isTrue hk => exact absurd hk (by assumption)
          case isFalse => exact ih h

theorem lookupM_insertM_self (k : List Char) (d : Option V) :
    ∀ l : List (List Char × Option V), lookupM k (insertM k d l) = some d
  | [] => by rw [insertM, lookupM, if_pos rfl]
  | (k', d') :: rest => by
    rw [insertM]
    by_cases h : k = k'
    · rw [if_pos h, lookupM, if_pos rfl]
    · rw [if_neg h]
      by_cases h2 : lexLt k k' = true
      · rw [if_pos h2, lookupM, if_pos rfl]
      · rw [if_neg h2, lookupM, if_neg h]
        exact lookupM_insertM_self k d rest

theorem eraseM_insertM_absent {k : List Char} {d : Option V} :
    ∀ {l : List (List Char × Option V)}, lookupM k l = none →
    eraseM k (insertM k d l) = l := by
  intro l h
  induction l with
  | nil => rw [insertM, eraseM, if_pos rfl]
  | cons q rest ih =>
    match q with
    | (k', d') =>
      rw [lookupM] at h
      split at h
      case isTrue => exact Option.noConfusion h
      case isFalse hne =>
        rw [insertM, if_neg hne]
        by_cases h2 : lexLt k k' = true
        · rw [if_pos h2, eraseM, if_pos rfl]
        · rw [if_neg h2, eraseM, if_neg hne, ih h]

theorem mem_map_fst_iff {k : List Char} :
    ∀ {l : List (List Char × Option V)},
    k ∈ l.map Prod.fst ↔ (lookupM k l).isSome = true := by
  intro l
  induction l with
  | nil => simp [lookupM]
  | cons q rest ih =>
    match q with
    | (k', d') =>
      rw [List.map_cons, List.mem_cons, lookupM]
      by_cases h : k = k'
      · rw [if_pos h]
        simp [h]
      · rw [if_neg h]
        simp only [ih]
        constructor
        · intro hc
          rcases hc with hc | hc
          · exact absurd hc h
          · exact hc
        · exact Or.inr

theorem Valid_empty : Valid ((RadixTree.empty : RadixTree V).head) := by
  show Valid (Node.mk false none ([] : List (List Char × Node V)))
  rw [Valid_mk]
  exact ⟨by simp, List.Pairwise.nil, by simp, by simp, by simp, by simp, ValidL_nil⟩

theorem head_not_key_of_lookup {n : Node V} (hv : Valid n)
    (h : lookupM [] (model n) = none) : n.is_key = false := by
  rw [lookupM_model_nil hv] at h
  cases hk : n.is_key
  · rfl
  · rw [hk] at h
    simp at h


/-- One operation, against the reference ordered map. -/
theorem applyOp_spec {t : RadixTree V} {m : List (List Char × V)}
    (hv : Valid t.head) (hm : model t.head = asModel m)
    (he : t.elem_cnt = (m.length : Int)) (op : Op V) :
    Valid (applyOp t op).head ∧
    model (applyOp t op).head = asModel (applyOpM m op) ∧
    (applyOp t op).elem_cnt = ((applyOpM m op).length : Int) := by
  cases op with
  | set k v =>
    obtain ⟨hv', hm', he', _⟩ := rax_set_spec hv k v
    refine ⟨hv', ?_, ?_⟩
    · show model (rax_set t k v).head = asModel (mSet k v m)
      rw [hm', hm, insertM_asModel]
    · show (rax_set t k v).elem_cnt = ((mSet k v m).length : Int)
      rw [he', hm, lookupM_asModel, he]
      cases hf : mFind k m with
      | none =>
        have hlen : (mSet k v m).length = m.length + 1 := by
          have h1 : (asModel (mSet k v m)).length =
              (insertM k (some v) (asModel m)).length := by
            rw [insertM_asModel]
          rw [insertM_length_absent (by rw [lookupM_asModel, hf]; rfl),
            length_asModel, length_asModel] at h1
          exact h1
        rw [hlen]
        simp only [Option.map_none', Option.isSome_none, Bool.false_eq_true, if_false]
        push_cast
        ring
      | some w =>
        have hsorted : KSorted (asModel m) := by
          rw [← hm]
          exact model_sorted t.head hv
        have hlen : (mSet k v m).length = m.length := by
          have h1 : (asModel (mSet k v m)).length =
              (insertM k (some v) (asModel m)).length := by
            rw [insertM_asModel]
          rw [insertM_length_present hsorted (by rw [lookupM_asModel, hf]; rfl),
            length_asModel, length_asModel] at h1
          exact h1
        rw [hlen]
        simp only [Option.map_some', Option.isSome_some, if_true]
        ring
  | del k =>
    obtain ⟨hiff, hsucc⟩ := rax_del_spec hv k
    cases hd : rax_del t k with
    | none =>
      have hlknone : lookupM k (model t.head) = none := hiff.mp hd
      have hfnone : mFind k m = none := by
        rw [hm, lookupM_asModel] at hlknone
        exact Option.map_eq_none'.mp hlknone
      have hdnone : mDel k m = none := mDel_none_iff.mpr hfnone
      have happ : applyOp t (Op.del k) = t := by
        show applyDel t k = t
        rw [applyDel, hd]
        rfl
      have happM : applyOpM m (Op.del k) = m := by
        show (mDel k m).getD m = m
        rw [hdnone]
        rfl
      rw [happ, happM]
      exact ⟨hv, hm, he⟩
    | some t2 =>
      obtain ⟨hv2, hm2, he2⟩ := hsucc t2 hd
      have happ : applyOp t (Op.del k) = t2 := by
        show applyDel t k = t2
        rw [applyDel, hd]
        rfl
      have hiso : (lookupM k (model t.head)).isSome = true := by
        cases hl : lookupM k (model t.head) with
        | none =>
          have := hiff.mpr hl
          rw [hd] at this
          exact Option.noConfusion this
        | some _ => rfl
      obtain ⟨m', hm'⟩ : ∃ m', mDel k m = some m' := by
        cases hdm : mDel k m with
        | none =>
          have := mDel_none_iff.mp hdm
          rw [hm, lookupM_asModel, this] at hiso
          simp at hiso
        | some m' => exact ⟨m', rfl⟩
      have happM : applyOpM m (Op.del k) = m' := by
        show (mDel k m).getD m = m'
        rw [hm']
        rfl
      rw [happ, happM]
      refine ⟨hv2, ?_, ?_⟩
      · rw [hm2, hm, eraseM_asModel, hm']
        rfl
      · rw [he2, he]
        have hL : (asModel m).length = (eraseM k (asModel m)).length + 1 := by
          refine eraseM_length_present ?_
          rw [← hm]
          exact hiso
        rw [eraseM_asModel, hm'] at hL
        have hgd : ((Option.some m').getD m) = m' := rfl
        rw [hgd, length_asModel, length_asModel] at hL
        show (m.length : Int) - 1 = (m'.length : Int)
        omega

theorem foldl_ops_spec : ∀ (ops : List (Op V)) (t : RadixTree V)
    (m : List (List Char × V)),
    Valid t.head → model t.head = asModel m → t.elem_cnt = (m.length : Int) →
    Valid (ops.foldl applyOp t).head ∧
    model (ops.foldl applyOp t).head = asModel (ops.foldl applyOpM m) ∧
    (ops.foldl applyOp t).elem_cnt = ((ops.foldl applyOpM m).length : Int)
  | [], _, _, hv, hm, he => ⟨hv, hm, he⟩
  | op :: ops, t, m, hv, hm, he => by
    obtain ⟨hv', hm', he'⟩ := applyOp_spec hv hm he op
    exact foldl_ops_spec ops (applyOp t op) (applyOpM m op) hv' hm' he'

/-- After any operation sequence from the empty tree, the tree observes the
reference ordered map built by the same operations. -/
theorem runOps_spec (ops : List (Op V)) :
    Valid (runOps ops).head ∧
    model (runOps ops).head = asModel (runOpsM ops) ∧
    (runOps ops).elem_cnt = ((runOpsM ops).length : Int) :=
  foldl_ops_spec ops RadixTree.empty [] Valid_empty
    (by
      show model (Node.mk false none ([] : List (List Char × Node V))) = asModel []
      rw [model_childless]
      rfl)
    rfl

/-- Root key flag: preserved through any operations whose inserted keys are all
non-empty. -/
theorem foldl_ops_root : ∀ (ops : List (Op V)) (t : RadixTree V),
    Valid t.head → t.head.is_key = false →
    (∀ op ∈ ops, ∀ k v, op = Op.set k v → k ≠ []) →
    (ops.foldl applyOp t).head.is_key = false
  | [], _, _, hroot, _ => hroot
  | op :: ops, t, hv, hroot, hne => by
    have hstep : Valid (applyOp t op).head ∧ (applyOp t op).head.is_key = false := by
      cases op with
      | set k v =>
        obtain ⟨hv', _, _, hkey⟩ := rax_set_spec hv k v
        refine ⟨hv', ?_⟩
        show (rax_set t k v).head.is_key = false
        rw [hkey (hne (Op.set k v) (List.mem_cons_self _ _) k v rfl)]
        exact hroot
      | del k =>
        obtain ⟨_, hsucc⟩ := rax_del_spec hv k
        cases hd : rax_del t k with
        | none =>
          have happ : applyOp t (Op.del k) = t := by
            show applyDel t k = t
            rw [applyDel, hd]
            rfl
          rw [happ]
          exact ⟨hv, hroot⟩
        | some t2 =>
          obtain ⟨hv2, hm2, _⟩ := hsucc t2 hd
          have happ : applyOp t (Op.del k) = t2 := by
            show applyDel t k = t2
            rw [applyDel, hd]
            rfl
          rw [happ]
          refine ⟨hv2, ?_⟩
          refine head_not_key_of_lookup hv2 ?_
          rw [hm2]
          refine lookupM_eraseM_none ?_
          rw [lookupM_model_nil hv, hroot]
          rfl
    exact foldl_ops_root ops (applyOp t op) hstep.1 hstep.2
      (fun op2 hop2 => hne op2 (List.mem_cons_of_mem _ hop2))


/-! ### The structural invariants as written in the specification, and the
"no adjacent lone links" check -/

mutual
/-- Specification invariants I1-I3, transcribed from the specification text
(NOT from the source): every node has 0 children, or exactly one child via an
edge of length at least 1, or at least two children via length-1 edges with
pairwise distinct first characters (I1); a longer-than-1 edge only out of a
single-child node (I2); and no two adjacent nodes both non-key with exactly
one child (I3). -/
def specStructB : Node V → Bool
  | .mk k d ch =>
    (ch.length == 0 ||
      (ch.length == 1 && ch.all (fun pr => 1 ≤ pr.1.length)) ||
      ((2 ≤ ch.length) && ch.all (fun pr => pr.1.length == 1) &&
        decide ((ch.map (fun pr => pr.1.getD 0 'A')).Nodup))) &&
    ch.all (fun pr => pr.1.length ≤ 1 || ch.length == 1) &&
    ch.all (fun pr =>
      !((Node.mk k d ch).not_key_with_single_child && pr.2.not_key_with_single_child)) &&
    specStructL ch
  termination_by n => sizeOf n
  decreasing_by simp only [Node.mk.sizeOf_spec]; omega

def specStructL : List (List Char × Node V) → Bool
  | [] => true
  | (_, c) :: rest => specStructB c && specStructL rest
  termination_by l => sizeOf l
  decreasing_by
  · simp only [Prod.mk.sizeOf_spec, List.cons.sizeOf_spec]; omega
  · simp only [Prod.mk.sizeOf_spec, List.cons.sizeOf_spec]; omega
end

mutual
/-- The number of key nodes in a subtree (what `elem_cnt` counts, spec I4). -/
def keyCount : Node V → Nat
  | .mk k _ ch => (if k then 1 else 0) + keyCountL ch
  termination_by n => sizeOf n
  decreasing_by simp only [Node.mk.sizeOf_spec]; omega

def keyCountL : List (List Char × Node V) → Nat
  | [] => 0
  | (_, c) :: rest => keyCount c + keyCountL rest
  termination_by l => sizeOf l
  decreasing_by
  · simp only [Prod.mk.sizeOf_spec, List.cons.sizeOf_spec]; omega
  · simp only [Prod.mk.sizeOf_spec, List.cons.sizeOf_spec]; omega
end

/-- The specification's structural invariants I1-I4 for a whole tree,
transcribed from the specification text. -/
def SpecStructuralInv (t : RadixTree V) : Prop :=
  specStructB t.head = true ∧
  t.elem_cnt = (keyCount t.head : Int) ∧
  t.node_cnt = (countBelow t.head : Int)

mutual
/-- Whether some parent/child pair in the subtree consists of two nodes that
are both non-key with exactly one child. -/
def hasAdjNksc : Node V → Bool
  | .mk k d ch =>
    ch.any (fun pr =>
      ((Node.mk k d ch).not_key_with_single_child && pr.2.not_key_with_single_child)) ||
    hasAdjNkscL ch
  termination_by n => sizeOf n
  decreasing_by simp only [Node.mk.sizeOf_spec]; omega

def hasAdjNkscL : List (List Char × Node V) → Bool
  | [] => false
  | (_, c) :: rest => hasAdjNksc c || hasAdjNkscL rest
  termination_by l => sizeOf l
  decreasing_by
  · simp only [Prod.mk.sizeOf_spec, List.cons.sizeOf_spec]; omega
  · simp only [Prod.mk.sizeOf_spec, List.cons.sizeOf_spec]; omega
end

theorem hasAdjNksc_mk (k : Bool) (d : Option V) (ch : List (List Char × Node V)) :
    hasAdjNksc (.mk k d ch) =
      (ch.any (fun pr =>
        ((Node.mk k d ch).not_key_with_single_child && pr.2.not_key_with_single_child)) ||
       hasAdjNkscL ch) := by
  rw [hasAdjNksc]

theorem hasAdjNkscL_false {ch : List (List Char × Node V)}
    (h : ∀ pr ∈ ch, hasAdjNksc pr.2 = false) : hasAdjNkscL ch = false := by
  induction ch with
  | nil => rw [hasAdjNkscL]
  | cons q rest ih =>
    match q with
    | (e, c) =>
      rw [hasAdjNkscL, h (e, c) (List.mem_cons_self _ _),
        ih (fun pr hpr => h pr (List.mem_cons_of_mem _ hpr))]
      rfl

/-- The code's invariant forbids adjacent lone non-key links anywhere. -/
theorem hasAdjNksc_false_of_valid : ∀ {n : Node V}, Valid n → hasAdjNksc n = false := by
  intro n
  induction n using Node.strongInd with
  | _ k d ch ih =>
    intro hv
    rw [hasAdjNksc_mk]
    have h1 : ch.any (fun pr =>
        ((Node.mk k d ch).not_key_with_single_child &&
          pr.2.not_key_with_single_child)) = false := by
      rw [List.any_eq_false]
      intro pr hpr
      cases hp : (Node.mk k d ch).not_key_with_single_child
      · rw [Bool.false_and]
        simp
      · have hn : nksc (Node.mk k d ch) := (nksc_iff_bool _).mpr hp
        have hch1 : ch = [pr] := length_one_mem_eq hn.2 hpr
        match pr with
        | (e, c) =>
          have hnn : ¬ nksc c := hv.noChain e c hch1 (Or.inl hn.1)
          rw [Bool.true_and]
          simp only [Bool.not_eq_true]
          cases hc : c.not_key_with_single_child
          · rfl
          · exact absurd ((nksc_iff_bool _).mpr hc) hnn
    rw [h1]
    have h2 : hasAdjNkscL ch = false :=
      hasAdjNkscL_false (fun pr hpr => ih pr.1 pr.2 hpr (hv.childValid pr hpr))
    rw [h2]
    rfl


/-! ### Fuel-indexed evaluators: structurally recursive versions of the
well-founded definitions, for computing on concrete trees -/

/-- `lowWalkN` with explicit fuel (structural recursion on the fuel). -/
def lowWalkF : Nat → Node V → List Char → List (Ctx V) × Node V × List Char × Nat
  | 0, n, s => ([], n, s, 0)
  | fuel + 1, n, s =>
    if n.has_no_child || s.length == 0 then ([], n, s, 0)
    else
      match matchEdge s n with
      | (none, rem, j) => ([], n, rem, j)
      | (some (e, c), rem, _) =>
        match lowWalkF fuel c rem with
        | (cs, cur, r, j) => (⟨n.is_key, n.get_data, n.children, e⟩ :: cs, cur, r, j)

theorem lowWalkF_eq : ∀ (fuel : Nat) (n : Node V) (s : List Char), s.length ≤ fuel →
    lowWalkF fuel n s = lowWalkN n s
  | 0, n, s, h => by
    have hs : s = [] := List.length_eq_zero.mp (Nat.le_zero.mp h)
    subst hs
    rw [lowWalkN_stop (Or.inr rfl)]
    rfl
  | fuel + 1, n, s, h => by
    rw [lowWalkF]
    by_cases hg : (n.has_no_child || s.length == 0) = true
    · rw [if_pos hg]
      have hd : n.has_no_child = true ∨ s = [] := by
        rcases Bool.or_eq_true_iff.mp hg with h1 | h1
        · exact Or.inl h1
        · exact Or.inr (List.length_eq_zero.mp (by simpa using h1))
      rw [lowWalkN_stop hd]
    · rw [if_neg hg]
      have h1 : n.has_no_child = false := by
        cases hk : n.has_no_child
        · rfl
        · exact absurd (by rw [hk]; rfl) hg
      have h2 : s ≠ [] := by
        intro hs
        subst hs
        exact hg (by simp)
      match hm : matchEdge s n with
      | (none, rem, j) => rw [lowWalkN_fail h1 h2 hm]
      | (some (e, c), rem, j0) =>
        have hlt : rem.length < s.length := matchEdge_some_len s n e c rem j0 hm
        show (match lowWalkF fuel c rem with
          | (cs, cur, r, j) =>
            ((⟨n.is_key, n.get_data, n.children, e⟩ : Ctx V) :: cs, cur, r, j)) = lowWalkN n s
        rw [lowWalkF_eq fuel c rem (by omega), lowWalkN_step h1 h2 hm]


/-- `chainDescend` with explicit fuel; the Bool reports whether the fuel
sufficed. -/
def chainDescendF : Nat → Node V → Bool × List (List Char) × Nat × Node V
  | 0, cur => (!cur.not_key_with_single_child, [], 0, cur)
  | fuel + 1, cur =>
    if cur.not_key_with_single_child then
      match cur.children with
      | (e, c) :: _ =>
        match chainDescendF fuel c with
        | (ok, es, k, t) => (ok, e :: es, k + 1, t)
      | [] => (true, [], 0, cur)
    else (true, [], 0, cur)

theorem chainDescendF_sound : ∀ (fuel : Nat) (cur : Node V),
    (chainDescendF fuel cur).1 = true →
    chainDescend cur = (chainDescendF fuel cur).2
  | 0, cur, h => by
    have hb : cur.not_key_with_single_child = false := by
      have h2 : (!cur.not_key_with_single_child) = true := h
      simpa using h2
    rw [chainDescend_stop hb, chainDescendF, hb]
  | fuel + 1, cur, h => by
    cases hb : cur.not_key_with_single_child
    · rw [chainDescend_stop hb, chainDescendF, if_neg (by rw [hb]; exact Bool.false_ne_true)]
    · have hn : nksc cur := (nksc_iff_bool cur).mpr hb
      cases cur with
      | mk k d ch =>
        have hk0 : k = false := hn.1
        subst hk0
        obtain ⟨pr, hch⟩ := List.length_eq_one.mp (show ch.length = 1 from hn.2)
        obtain ⟨e, c⟩ := pr
        subst hch
        rcases hE : chainDescendF fuel c with ⟨ok, es, k2, t2⟩
        have hok : ok = true := by
          rw [chainDescendF, if_pos hb] at h
          simp only [Node.children, hE] at h
          exact h
        have hrec := chainDescendF_sound fuel c (by rw [hE, hok])
        rw [hE] at hrec
        rw [chainDescend_step, hrec, chainDescendF, if_pos hb]
        simp only [Node.children, hE]

/-- `rax_set` with the walk evaluated through the fueled walker. -/
def rax_setF (t : RadixTree V) (key : List Char) (v : V) : RadixTree V :=
  match lowWalkF key.length t.head key with
  | (ctxs, cur, rem, j) =>
    let is_compr := cur.is_compressed
    if rem = [] ∧ (is_compr = false ∨ j = 0) then
      ⟨plugAll ctxs (.mk true (some v) cur.children),
       t.elem_cnt + (if cur.is_key then 0 else 1), t.node_cnt⟩
    else if is_compr then
      if rem = [] then
        ⟨plugAll ctxs (splitEnd cur j v), t.elem_cnt + 1, t.node_cnt + 1⟩
      else
        match splitMidExtend cur j rem v with
        | (sub, dN) => ⟨plugAll ctxs sub, t.elem_cnt + 1, t.node_cnt + dN⟩
    else
      match extendChain cur rem v with
      | (sub, dN) => ⟨plugAll ctxs sub, t.elem_cnt + 1, t.node_cnt + dN⟩

theorem rax_setF_eq (t : RadixTree V) (key : List Char) (v : V) :
    rax_setF t key v = rax_set t key v := by
  rw [rax_setF, rax_set, lowWalkF_eq key.length t.head key le_rfl]

def compressAtF (fuel : Nat) (rctxs : List (Ctx V)) (top : Node V) : Bool × Node V × Int :=
  match chainDescendF fuel top with
  | (ok, es, k, term) =>
    if k ≤ 1 then (ok, plugAllR rctxs top, 0)
    else (ok, plugAllR rctxs ((Node.mk top.is_key top.get_data []).add_child es.flatten term),
          1 - (k : Int))

theorem compressAtF_sound (fuel : Nat) (rctxs : List (Ctx V)) (top : Node V)
    (h : (compressAtF fuel rctxs top).1 = true) :
    compressAt rctxs top = (compressAtF fuel rctxs top).2 := by
  rcases hE : chainDescendF fuel top with ⟨ok, es, k, term⟩
  have hok : ok = true := by
    rw [compressAtF] at h
    simp only [hE] at h
    by_cases hk : k ≤ 1
    · simpa [hk] using h
    · simpa [hk] using h
  have hcd := chainDescendF_sound fuel top (by rw [hE, hok])
  rw [hE] at hcd
  rw [compressAt, compressAtF, hcd]
  simp only [hE]
  by_cases hk : k ≤ 1
  · simp [hk]
  · simp [hk]

def tryCompressF (fuel : Nat) (rctxs : List (Ctx V)) (cur : Node V) : Bool × Node V × Int :=
  match compressClimb rctxs cur with
  | (ctx :: rest, top) =>
    if ctx.children.length = 1 then
      match chainDescendF fuel top with
      | (ok, es, k, term) =>
        if 1 + k ≤ 1 then (ok, plugAllR (ctx :: rest) top, 0)
        else (ok, plugAllR rest
                ((Node.mk ctx.is_key ctx.data []).add_child ((ctx.hole :: es).flatten) term),
              0 - (k : Int))
    else compressAtF fuel (ctx :: rest) top
  | ([], top) => compressAtF fuel [] top

theorem tryCompressF_sound (fuel : Nat) (rctxs : List (Ctx V)) (cur : Node V)
    (h : (tryCompressF fuel rctxs cur).1 = true) :
    tryCompress rctxs cur = (tryCompressF fuel rctxs cur).2 := by
  rcases hC : compressClimb rctxs cur with ⟨cs, top⟩
  cases cs with
  | nil =>
    have h2 : (compressAtF fuel [] top).1 = true := by
      rw [tryCompressF] at h
      simp only [hC] at h
      exact h
    rw [tryCompress, tryCompressF]
    simp only [hC]
    exact compressAtF_sound fuel [] top h2
  | cons ctx rest =>
    by_cases hl : ctx.children.length = 1
    · rcases hE : chainDescendF fuel top with ⟨ok, es, k, term⟩
      have hok : ok = true := by
        rw [tryCompressF] at h
        simp only [hC, hE] at h
        by_cases hk : 1 + k ≤ 1
        · simpa [hl, hk] using h
        · simpa [hl, hk] using h
      have hcd := chainDescendF_sound fuel top (by rw [hE, hok])
      rw [hE] at hcd
      rw [tryCompress, tryCompressF]
      simp only [hC, hE, hcd]
      by_cases hk : 1 + k ≤ 1
      · simp [hl, hk]
      · simp [hl, hk]
    · have h2 : (compressAtF fuel (ctx :: rest) top).1 = true := by
        rw [tryCompressF] at h
        simp only [hC] at h
        simpa [hl] using h
      rw [tryCompress, tryCompressF]
      simp only [hC]
      simp only [if_neg hl]
      exact compressAtF_sound fuel (ctx :: rest) top h2

/-- `rax_del` evaluated with fuel; the Bool reports whether the fuel sufficed. -/
def rax_delF (fuel : Nat) (t : RadixTree V) (key : List Char) :
    Bool × Option (RadixTree V) :=
  match lowWalkF key.length t.head key with
  | (ctxs, cur, rem, j) =>
    if rem ≠ [] ∨ (cur.is_compressed ∧ j ≠ 0) ∨ cur.is_key = false then (true, none)
    else
      let cur1 : Node V := .mk false none cur.children
      let rctxs := ctxs.reverse
      match (if cur1.has_no_child then pruneUp rctxs cur1 else (rctxs, cur1, 0)) with
      | (rctxs2, cur2, removed) =>
        if cur2.not_key_with_single_child then
          match tryCompressF fuel rctxs2 cur2 with
          | (ok, h, d) => (ok, some ⟨h, t.elem_cnt - 1, t.node_cnt - removed + d⟩)
        else (true, some ⟨plugAllR rctxs2 cur2, t.elem_cnt - 1, t.node_cnt - removed⟩)

theorem rax_delF_sound (fuel : Nat) (t : RadixTree V) (key : List Char)
    (h : (rax_delF fuel t key).1 = true) :
    rax_del t key = (rax_delF fuel t key).2 := by
  rcases hW : lowWalkF key.length t.head key with ⟨ctxs, cur, rem, j⟩
  have hW2 : lowWalkN t.head key = (ctxs, cur, rem, j) := by
    rw [← lowWalkF_eq key.length t.head key le_rfl, hW]
  rw [rax_delF] at h
  simp only [hW] at h
  rw [rax_del, rax_delF]
  simp only [hW, hW2]
  by_cases hc : rem ≠ [] ∨ (cur.is_compressed ∧ j ≠ 0) ∨ cur.is_key = false
  · simp [hc]
  · simp only [if_neg hc] at h ⊢
    rcases hP : (if (Node.mk false none cur.children : Node V).has_no_child then
        pruneUp ctxs.reverse (.mk false none cur.children)
      else (ctxs.reverse, .mk false none cur.children, 0)) with ⟨rctxs2, cur2, removed⟩
    simp only [hP] at h ⊢
    by_cases hn : cur2.not_key_with_single_child = true
    · simp only [if_pos hn] at h ⊢
      rcases hT : tryCompressF fuel rctxs2 cur2 with ⟨ok, hd, d⟩
      simp only [hT] at h ⊢
      have htc := tryCompressF_sound fuel rctxs2 cur2 (by rw [hT]; exact h)
      rw [hT] at htc
      rw [htc]
    · simp only [if_neg hn]

def applyOpF (fuel : Nat) (t : RadixTree V) : Op V → Bool × RadixTree V
  | .set k v => (true, rax_setF t k v)
  | .del k =>
    match rax_delF fuel t k with
    | (ok, r) => (ok, r.getD t)

theorem applyOpF_sound (fuel : Nat) (t : RadixTree V) (op : Op V)
    (h : (applyOpF fuel t op).1 = true) : applyOp t op = (applyOpF fuel t op).2 := by
  cases op with
  | set k v =>
    show rax_set t k v = rax_setF t k v
    rw [rax_setF_eq]
  | del k =>
    show applyDel t k = (applyOpF fuel t (Op.del k)).2
    rw [applyOpF] at h ⊢
    match hE : rax_delF fuel t k with
    | (ok, r) =>
      rw [hE] at h
      have hd := rax_delF_sound fuel t k (by rw [hE]; exact h)
      rw [hE] at hd
      rw [applyDel, hd]

def stepF (fuel : Nat) (acc : Bool × RadixTree V) (op : Op V) : Bool × RadixTree V :=
  match applyOpF fuel acc.2 op with
  | (ok, t) => (acc.1 && ok, t)

def runOpsF (fuel : Nat) (ops : List (Op V)) : Bool × RadixTree V :=
  ops.foldl (stepF fuel) (true, RadixTree.empty)

theorem foldl_stepF_acc (fuel : Nat) : ∀ (ops : List (Op V)) (t : RadixTree V) (b : Bool),
    ops.foldl (stepF fuel) (b, t) =
      (b && (ops.foldl (stepF fuel) (true, t)).1, (ops.foldl (stepF fuel) (true, t)).2)
  | [], t, b => by cases b <;> rfl
  | op :: ops, t, b => by
    rw [List.foldl_cons, List.foldl_cons]
    have hs : ∀ b2 : Bool, stepF fuel (b2, t) op = (b2 && (applyOpF fuel t op).1, (applyOpF fuel t op).2) := by
      intro b2
      rw [stepF]
    rw [hs b, hs true, foldl_stepF_acc fuel ops (applyOpF fuel t op).2 (b && (applyOpF fuel t op).1),
      foldl_stepF_acc fuel ops (applyOpF fuel t op).2 (true && (applyOpF fuel t op).1)]
    cases b <;> cases hE : (applyOpF fuel t op).1 <;> simp

theorem foldl_applyOpF_sound (fuel : Nat) : ∀ (ops : List (Op V)) (t : RadixTree V),
    (ops.foldl (stepF fuel) (true, t)).1 = true →
    ops.foldl applyOp t = (ops.foldl (stepF fuel) (true, t)).2
  | [], _, _ => rfl
  | op :: ops, t, h => by
    rw [List.foldl_cons] at h ⊢
    rw [List.foldl_cons]
    have hs : stepF fuel (true, t) op = (true && (applyOpF fuel t op).1, (applyOpF fuel t op).2) := by
      rw [stepF]
    rw [hs] at h ⊢
    rw [foldl_stepF_acc fuel ops (applyOpF fuel t op).2 (true && (applyOpF fuel t op).1)] at h ⊢
    have hok : (applyOpF fuel t op).1 = true := by
      cases hE : (applyOpF fuel t op).1
      · rw [hE] at h; simpa using h
      · rfl
    have hrest : (ops.foldl (stepF fuel) (true, (applyOpF fuel t op).2)).1 = true := by
      rw [hok] at h
      simpa using h
    rw [applyOpF_sound fuel t op hok, foldl_applyOpF_sound fuel ops (applyOpF fuel t op).2 hrest]

theorem runOpsF_sound (fuel : Nat) (ops : List (Op V))
    (h : (runOpsF fuel ops).1 = true) : runOps ops = (runOpsF fuel ops).2 :=
  foldl_applyOpF_sound fuel ops RadixTree.empty h


/-! ### Evaluation equations for the specification-side checkers, and
assorted helper lemmas for the claim theorems -/

theorem hasAdjNkscL_nil : hasAdjNkscL ([] : List (List Char × Node V)) = false := by
  rw [hasAdjNkscL]

theorem hasAdjNkscL_cons (e : List Char) (c : Node V) (rest : List (List Char × Node V)) :
    hasAdjNkscL ((e, c) :: rest) = (hasAdjNksc c || hasAdjNkscL rest) := by
  rw [hasAdjNkscL]

theorem specStructB_mk (k : Bool) (d : Option V) (ch : List (List Char × Node V)) :
    specStructB (.mk k d ch) =
    ((ch.length == 0 ||
      (ch.length == 1 && ch.all (fun pr => 1 ≤ pr.1.length)) ||
      ((2 ≤ ch.length) && ch.all (fun pr => pr.1.length == 1) &&
        decide ((ch.map (fun pr => pr.1.getD 0 'A')).Nodup))) &&
    ch.all (fun pr => pr.1.length ≤ 1 || ch.length == 1) &&
    ch.all (fun pr =>
      !((Node.mk k d ch).not_key_with_single_child && pr.2.not_key_with_single_child)) &&
    specStructL ch) := by
  rw [specStructB]

theorem specStructL_nil : specStructL ([] : List (List Char × Node V)) = true := by
  rw [specStructL]

theorem specStructL_cons (e : List Char) (c : Node V) (rest : List (List Char × Node V)) :
    specStructL ((e, c) :: rest) = (specStructB c && specStructL rest) := by
  rw [specStructL]

theorem keyCount_mk (k : Bool) (d : Option V) (ch : List (List Char × Node V)) :
    keyCount (.mk k d ch) = (if k then 1 else 0) + keyCountL ch := by
  rw [keyCount]

theorem keyCountL_nil : keyCountL ([] : List (List Char × Node V)) = 0 := by
  rw [keyCountL]

theorem keyCountL_cons (e : List Char) (c : Node V) (rest : List (List Char × Node V)) :
    keyCountL ((e, c) :: rest) = keyCount c + keyCountL rest := by
  rw [keyCountL]

/-- When the root is not a key, the ascending iteration is exactly the model's
key column. -/
theorem ascFrom_model_of_not_key {n : Node V} (hv : Valid n) (hk : n.is_key = false) :
    ascFrom n = (model n).map Prod.fst := by
  have h := ascWith_model hv
  rw [ascWith, hk] at h
  simpa using h

theorem pairwise_fst_of_KSorted {α : Type} {l : List (List Char × α)} (h : KSorted l) :
    (l.map Prod.fst).Pairwise (fun a b => lexLt a b = true) :=
  List.pairwise_map.mpr h

theorem nodup_of_pairwise_lexLt {l : List (List Char)}
    (h : l.Pairwise (fun a b => lexLt a b = true)) : l.Nodup :=
  h.imp (fun hab => lexLt_ne hab)

/-- The root stays a non-key node across any operation sequence whose inserted
keys are all non-empty. -/
theorem runOps_root_not_key (ops : List (Op V))
    (hne : ∀ op ∈ ops, ∀ k v, op = Op.set k v → k ≠ []) :
    (runOps ops).head.is_key = false :=
  foldl_ops_root ops RadixTree.empty Valid_empty rfl hne

/-- In a valid node that is not compressed every edge has length 1. -/
theorem edges_len1_of_not_compressed {n : Node V} (hv : Valid n)
    (hc : n.is_compressed = false) : ∀ pr ∈ n.children, pr.1.length = 1 := by
  intro pr hpr
  rcases hn : n.children with _ | ⟨⟨e, c⟩, rest⟩
  · rw [hn] at hpr
    exact absurd hpr (List.not_mem_nil pr)
  · rcases rest with _ | ⟨q, rest2⟩
    · rw [hn] at hpr
      have hpr1 : pr = (e, c) := List.mem_singleton.mp hpr
      have hne : pr.1 ≠ [] := hv.labelsNe pr (by rw [hn, hpr1]; exact List.mem_singleton_self _)
      have hlen : ¬ (1 < e.length) := by
        unfold Node.is_compressed at hc
        rw [hn] at hc
        simpa using hc
      rw [hpr1]
      rw [hpr1] at hne
      simp only at hne ⊢
      have : e.length ≠ 0 := fun h0 => hne (List.length_eq_zero.mp h0)
      omega
    · exact hv.multiLen1 (by rw [hn]; simp) pr hpr

/-- `contains` agrees with a lookup in the model. -/
theorem rax_contains_lookup {t : RadixTree V} (hv : Valid t.head) (key : List Char) :
    rax_contains t key = (lookupM key (model t.head)).isSome := by
  rw [rax_contains, rax_get, ← rax_find_model hv key]


/-! ### The claims -/

/-- Operation sequence inserting only the empty key. -/
def opsEK : List (Op Nat) := [Op.set [] 0]

theorem opsEK_facts :
    (runOps opsEK).head.is_key = true ∧
    ascKeys (runOps opsEK) = [] ∧
    descKeys (runOps opsEK) = [[]] := by
  obtain ⟨hv, hm, he⟩ := runOps_spec opsEK
  have hm2 : model (runOps opsEK).head = [([], some 0)] := hm
  have hkey : (runOps opsEK).head.is_key = true := by
    cases hk : (runOps opsEK).head.is_key
    · have h2 := lookupM_model_nil hv
      rw [hk, hm2] at h2
      simp [lookupM] at h2
    · rfl
  have h3 : ascWith (runOps opsEK).head = [[]] := by
    rw [ascWith_model hv, hm2]
    rfl
  have h4 : ascKeys (runOps opsEK) = [] := by
    have h5 := h3
    rw [ascWith, hkey] at h5
    simp at h5
    rw [ascKeys]
    exact h5
  refine ⟨hkey, h4, ?_⟩
  rw [descKeys, descFrom_reverse hv, h3]
  rfl

/-- Claim C1: running any operation sequence against the tree and against the
reference ordered associative array gives the same length, the same lookup
result for every key (present keys return the stored value, absent keys report
not-found), and delete reports not-found on exactly the same keys. -/
theorem claim_C1_refinement (ops : List (Op V)) (key : List Char) :
    (runOps ops).elem_cnt = ((runOpsM ops).length : Int) ∧
    rax_get (runOps ops) key = (mFind key (runOpsM ops)).map some ∧
    (rax_del (runOps ops) key = none ↔ mDel key (runOpsM ops) = none) := by
  obtain ⟨hv, hm, he⟩ := runOps_spec ops
  refine ⟨he, ?_, ?_⟩
  · show (rax_find (runOps ops) key).map Node.get_data = _
    rw [rax_find_model hv key, hm, lookupM_asModel]
  · rw [(rax_del_spec hv key).1, hm, lookupM_asModel, mDel_none_iff]
    cases mFind key (runOpsM ops) <;> simp

/-- Claim C2 as stated is false: after `set` of the empty key, descending
iteration yields the empty key but ascending iteration does not, so descending
is not the reverse of ascending. -/
theorem claim_C2_counterexample :
    ascKeys (runOps opsEK) = [] ∧ descKeys (runOps opsEK) = [[]] ∧
    descKeys (runOps opsEK) ≠ (ascKeys (runOps opsEK)).reverse := by
  obtain ⟨hkey, ha, hd⟩ := opsEK_facts
  refine ⟨ha, hd, ?_⟩
  rw [ha, hd]
  simp

/-- Claim C2 (amended): for trees built from operations whose inserted keys are
all non-empty, ascending iteration yields exactly the stored keys (the model's
key column; equivalently, a key is yielded iff `contains` holds for it) in
strictly increasing lexicographic order, and descending iteration is its exact
reverse. -/
theorem claim_C2_amended (ops : List (Op V))
    (hne : ∀ op ∈ ops, ∀ k v, op = Op.set k v → k ≠ []) :
    ascKeys (runOps ops) = (model (runOps ops).head).map Prod.fst ∧
    (∀ k, k ∈ ascKeys (runOps ops) ↔ rax_contains (runOps ops) k = true) ∧
    (ascKeys (runOps ops)).Pairwise (fun a b => lexLt a b = true) ∧
    descKeys (runOps ops) = (ascKeys (runOps ops)).reverse := by
  obtain ⟨hv, hm, he⟩ := runOps_spec ops
  have hroot := runOps_root_not_key ops hne
  have hasc : ascKeys (runOps ops) = (model (runOps ops).head).map Prod.fst := by
    rw [ascKeys, ascFrom_model_of_not_key hv hroot]
  refine ⟨hasc, ?_, ?_, ?_⟩
  · intro k
    rw [hasc, mem_map_fst_iff, rax_contains_lookup hv k]
  · rw [hasc]
    exact pairwise_fst_of_KSorted (model_sorted _ hv)
  · rw [descKeys, descFrom_reverse hv, ascWith, hroot, ascKeys]
    simp

theorem claim_C2_amended_witness :
    ascKeys (runOps [Op.set ['a'] (0 : Nat)]) =
      (model (runOps [Op.set ['a'] (0 : Nat)]).head).map Prod.fst ∧
    (∀ k, k ∈ ascKeys (runOps [Op.set ['a'] (0 : Nat)]) ↔
      rax_contains (runOps [Op.set ['a'] (0 : Nat)]) k = true) ∧
    (ascKeys (runOps [Op.set ['a'] (0 : Nat)])).Pairwise (fun a b => lexLt a b = true) ∧
    descKeys (runOps [Op.set ['a'] (0 : Nat)]) =
      (ascKeys (runOps [Op.set ['a'] (0 : Nat)])).reverse :=
  claim_C2_amended [Op.set ['a'] 0] (by
    intro op hop k v hkv
    rw [List.mem_singleton] at hop
    subst hop
    injection hkv with h1 h2
    subst h1
    simp)

/-- Claim C3 as stated is false: `set` of the empty key marks the root node as
a key. -/
theorem claim_C3_counterexample : (runOps opsEK).head.is_key = true :=
  opsEK_facts.1

/-- Claim C3 (amended): the root node never carries a key across operation
sequences whose inserted keys are all non-empty. -/
theorem claim_C3_amended (ops : List (Op V))
    (hne : ∀ op ∈ ops, ∀ k v, op = Op.set k v → k ≠ []) :
    (runOps ops).head.is_key = false :=
  runOps_root_not_key ops hne

theorem claim_C3_amended_witness : (runOps [Op.set ['a'] (0 : Nat)]).head.is_key = false :=
  claim_C3_amended [Op.set ['a'] 0] (by
    intro op hop k v hkv
    rw [List.mem_singleton] at hop
    subst hop
    injection hkv with h1 h2
    subst h1
    simp)

/-- Claim C9: `get` and `contains` leave the tree completely unchanged. -/
theorem claim_C9_frame (t : RadixTree V) (key : List Char) :
    (rax_get_st t key).2 = t ∧ (rax_contains_st t key).2 = t :=
  ⟨rfl, rfl⟩


/-- A tree satisfying the specification text's structural invariants I1-I4:
root (non-key) -"a"→ key node A -"xyz"→ non-key single-child node C -"w"→ key
leaf D.  The code's own invariant is stricter (it also forbids the non-key
single-child node under the long edge), and the insert routine relies on that
strictness. -/
def T0C4 : RadixTree Nat :=
  ⟨.mk false none [(['a'], .mk true (some 0) [(['x','y','z'],
      .mk false none [(['w'], .mk true (some 1) [])])])], 2, 3⟩

/-- Claim C4 as stated is false: `T0C4` satisfies the specification's
structural invariants I1-I4 and has a non-key root, yet a single
`set("axq", 2)` leaves two adjacent nodes that are both non-key with exactly
one child. -/
theorem claim_C4_counterexample :
    SpecStructuralInv T0C4 ∧ T0C4.head.is_key = false ∧
    hasAdjNksc T0C4.head = false ∧
    hasAdjNksc (rax_set T0C4 ['a','x','q'] 2).head = true := by
  refine ⟨⟨?_, ?_, ?_⟩, rfl, ?_, ?_⟩
  · show specStructB (Node.mk false none [(['a'], Node.mk true (some 0) [(['x','y','z'],
        Node.mk false none [(['w'], Node.mk true (some (1:Nat)) [])])])]) = true
    simp +decide [specStructB_mk, specStructL_cons, specStructL_nil,
      Node.not_key_with_single_child, Node.children_num]
  · show (2 : Int) = (keyCount (Node.mk false none [(['a'], Node.mk true (some 0) [(['x','y','z'],
        Node.mk false none [(['w'], Node.mk true (some (1:Nat)) [])])])]) : Int)
    simp [keyCount_mk, keyCountL_cons, keyCountL_nil]
  · show (3 : Int) = (countBelow (Node.mk false none [(['a'], Node.mk true (some 0) [(['x','y','z'],
        Node.mk false none [(['w'], Node.mk true (some (1:Nat)) [])])])]) : Int)
    simp [countBelow_mk, countL_cons, countL_nil]
  · show hasAdjNksc (Node.mk false none [(['a'], Node.mk true (some 0) [(['x','y','z'],
        Node.mk false none [(['w'], Node.mk true (some (1:Nat)) [])])])]) = false
    simp +decide [hasAdjNksc_mk, hasAdjNkscL_cons, hasAdjNkscL_nil,
      Node.not_key_with_single_child, Node.children_num, Node.is_key, Node.children]
  · rw [← rax_setF_eq]
    show hasAdjNksc (Node.mk false none [(['a'], Node.mk true (some 0) [(['x'],
      Node.mk false none [(['q'], Node.mk true (some 2) []),
        (['y'], Node.mk false none [(['z'], Node.mk false none [(['w'],
          Node.mk true (some (1:Nat)) [])])])])])]) = true
    simp +decide [hasAdjNksc_mk, hasAdjNkscL_cons, hasAdjNkscL_nil,
      Node.not_key_with_single_child, Node.children_num, Node.is_key, Node.children]

/-- Claim C4 (amended): after a single `set`, or a `delete` that succeeds, on a
tree satisfying the code's full invariant, no two adjacent nodes are both
non-key with exactly one child. -/
theorem claim_C4_amended {t : RadixTree V} (hv : Valid t.head) (key : List Char) (v : V) :
    hasAdjNksc (rax_set t key v).head = false ∧
    (∀ t2, rax_del t key = some t2 → hasAdjNksc t2.head = false) := by
  constructor
  · exact hasAdjNksc_false_of_valid (rax_set_spec hv key v).1
  · intro t2 h2
    exact hasAdjNksc_false_of_valid ((rax_del_spec hv key).2 t2 h2).1

theorem claim_C4_amended_witness :
    hasAdjNksc (rax_set (RadixTree.empty : RadixTree Nat) ['a'] 1).head = false ∧
    (∀ t2, rax_del (RadixTree.empty : RadixTree Nat) ['a'] = some t2 →
      hasAdjNksc t2.head = false) :=
  claim_C4_amended Valid_empty ['a'] 1


/-- Claim C5: `get` and `delete` report not-found exactly when the walk stops
early (some key is left unconsumed), stops strictly inside a compressed edge
(nonzero split offset), or ends at a non-key node; and a not-found `delete`
leaves the tree completely unchanged. -/
theorem claim_C5_notfound {t : RadixTree V} (hv : Valid t.head) (key : List Char)
    {ctxs : List (Ctx V)} {cur : Node V} {rem : List Char} {j : Nat}
    (hw : lowWalkN t.head key = (ctxs, cur, rem, j)) :
    (rax_get t key = none ↔ (rem ≠ [] ∨ j ≠ 0 ∨ cur.is_key = false)) ∧
    (rax_del t key = none ↔ (rem ≠ [] ∨ j ≠ 0 ∨ cur.is_key = false)) ∧
    (rax_del t key = none → applyDel t key = t) := by
  obtain ⟨Pm, Sm, path, sAt, cE, hsk, hvcur, hrg, htop, hmodel, hcount, hPb, hSb, hstopf⟩ :=
    walk_spec key.length key t.head le_rfl hv ctxs cur rem j hw
  have hjc : j ≠ 0 → cur.is_compressed = true := by
    intro hj
    rcases hstopf with ⟨_, _, hj0⟩ | ⟨_, _, hme⟩
    · exact absurd hj0 hj
    · rcases matchEdge_none_spec hme with ⟨e, c, hcompr, _⟩ | ⟨_, _, hj0, _⟩
      · exact hcompr
      · exact absurd hj0 hj
  have hcond : (rem ≠ [] ∨ (cur.is_compressed = true ∧ j ≠ 0) ∨ cur.is_key = false) ↔
      (rem ≠ [] ∨ j ≠ 0 ∨ cur.is_key = false) := by
    constructor
    · rintro (h | ⟨_, h⟩ | h)
      · exact Or.inl h
      · exact Or.inr (Or.inl h)
      · exact Or.inr (Or.inr h)
    · rintro (h | h | h)
      · exact Or.inl h
      · exact Or.inr (Or.inl ⟨hjc h, h⟩)
      · exact Or.inr (Or.inr h)
  have hfind : rax_find t key =
      (if rem ≠ [] ∨ (cur.is_compressed ∧ j ≠ 0) ∨ cur.is_key = false then none
       else some cur) := by
    unfold rax_find
    rw [hw]
  have hfn : rax_find t key = none ↔
      (rem ≠ [] ∨ (cur.is_compressed = true ∧ j ≠ 0) ∨ cur.is_key = false) := by
    rw [hfind]
    by_cases hc : rem ≠ [] ∨ (cur.is_compressed ∧ j ≠ 0) ∨ cur.is_key = false
    · rw [if_pos hc]
      simp only [true_iff, iff_true]
      exact hc
    · rw [if_neg hc]
      constructor
      · intro h2
        exact absurd h2 (Option.some_ne_none cur)
      · intro h2
        exact absurd h2 hc
  have hget : rax_get t key = none ↔ rax_find t key = none := by
    show (rax_find t key).map Node.get_data = none ↔ _
    exact Option.map_eq_none'
  have hluk : lookupM key (model t.head) = none ↔
      (rem ≠ [] ∨ j ≠ 0 ∨ cur.is_key = false) := by
    rw [← rax_find_model hv key]
    exact Option.map_eq_none'.trans (hfn.trans hcond)
  refine ⟨hget.trans (hfn.trans hcond), (rax_del_spec hv key).1.trans hluk, fun h => ?_⟩
  rw [applyDel, h]
  rfl

theorem claim_C5_witness :
    (rax_get (RadixTree.empty : RadixTree Nat) ['a'] = none ↔
      (['a'] ≠ ([] : List Char) ∨ (0 : Nat) ≠ 0 ∨
        (RadixTree.empty : RadixTree Nat).head.is_key = false)) ∧
    (rax_del (RadixTree.empty : RadixTree Nat) ['a'] = none ↔
      (['a'] ≠ ([] : List Char) ∨ (0 : Nat) ≠ 0 ∨
        (RadixTree.empty : RadixTree Nat).head.is_key = false)) ∧
    (rax_del (RadixTree.empty : RadixTree Nat) ['a'] = none →
      applyDel (RadixTree.empty : RadixTree Nat) ['a'] = RadixTree.empty) :=
  claim_C5_notfound Valid_empty ['a'] (lowWalkN_stop (Or.inl rfl))

/-- Claim C7: a nonzero split offset is returned exactly when the walk halted
strictly inside a compressed edge (after its first character and before its
last), and a zero split offset means the walk stopped at a node boundary: the
key ran out, or no child edge starts with the next key character. -/
theorem claim_C7_split {t : RadixTree V} (hv : Valid t.head) (key : List Char)
    {ctxs : List (Ctx V)} {cur : Node V} {rem : List Char} {j : Nat}
    (hw : lowWalkN t.head key = (ctxs, cur, rem, j)) :
    (j ≠ 0 → cur.is_compressed = true ∧
      ∃ e c, cur.children = [(e, c)] ∧ 0 < j ∧ j < e.length) ∧
    (j = 0 → rem = [] ∨
      (∀ x xs, rem = x :: xs → ∀ pr ∈ cur.children, pr.1.getD 0 'A' ≠ x)) := by
  obtain ⟨Pm, Sm, path, sAt, cE, hsk, hvcur, hrg, htop, hmodel, hcount, hPb, hSb, hstopf⟩ :=
    walk_spec key.length key t.head le_rfl hv ctxs cur rem j hw
  constructor
  · intro hj
    rcases hstopf with ⟨_, _, hj0⟩ | ⟨hnc, hsne, hme⟩
    · exact absurd hj0 hj
    · rcases matchEdge_none_spec hme with
        ⟨e, c, hcompr, hch, _, hjlt, _, _, _, _⟩ | ⟨_, _, hj0, _⟩
      · exact ⟨hcompr, e, c, hch, Nat.pos_of_ne_zero hj, hjlt⟩
      · exact absurd hj0 hj
  · intro hj
    subst hj
    rcases hstopf with ⟨hA, hrem, _⟩ | ⟨hnc, hsne, hme⟩
    · rcases hA with hnc | hsnil
      · right
        intro x xs hx pr hpr
        rw [has_no_child_iff.mp hnc] at hpr
        exact absurd hpr (List.not_mem_nil pr)
      · left
        rw [hrem, hsnil]
    · rcases matchEdge_none_spec hme with
        ⟨e, c, hcompr, hch, hlen, hjlt, hjle, htake, hremeq, hlast⟩ |
        ⟨hncompr, hremeq, _, hdisj⟩
      · rcases hlast with hslen | ⟨hlt, hne⟩
        · exact absurd (List.length_eq_zero.mp hslen) hsne
        · right
          intro x xs hx pr hpr
          rw [hch] at hpr
          have hpr1 : pr = (e, c) := List.mem_singleton.mp hpr
          rw [List.drop_zero] at hremeq
          rw [hremeq] at hx
          subst hx
          rw [hpr1]
          simpa using hne
      · rcases hdisj with hsnil | ⟨x, xs, hsx, hall⟩
        · exact absurd hsnil hsne
        · right
          intro x2 xs2 hx2 pr hpr
          rw [hremeq, hsx] at hx2
          have hx2' : x = x2 := (List.cons.injEq x xs x2 xs2 ▸ hx2).1
          subst hx2'
          have hlen1 : pr.1.length = 1 := edges_len1_of_not_compressed hvcur hncompr pr hpr
          have hne1 : pr.1 ≠ [x] := hall pr hpr
          match pr, hlen1 with
          | (⟨[y], c2⟩ : List Char × Node V), _ =>
            intro hcon
            simp only [List.getD] at hcon
            apply hne1
            simp only
            rw [show y = x from hcon]
  

theorem claim_C7_witness :
    ((0 : Nat) ≠ 0 → (RadixTree.empty : RadixTree Nat).head.is_compressed = true ∧
      ∃ e c, (RadixTree.empty : RadixTree Nat).head.children = [(e, c)] ∧
        0 < 0 ∧ 0 < e.length) ∧
    ((0 : Nat) = 0 → ['a'] = ([] : List Char) ∨
      (∀ x xs, ['a'] = x :: xs →
        ∀ pr ∈ (RadixTree.empty : RadixTree Nat).head.children, pr.1.getD 0 'A' ≠ x)) :=
  claim_C7_split Valid_empty ['a'] (lowWalkN_stop (Or.inl rfl))

/-- Operation sequence for the C6 counterexample: two keys sharing the prefix
"a". -/
def opsC6 : List (Op Nat) := [Op.set ['a'] 1, Op.set ['a','b','c','d'] 2]

/-- Claim C6 as stated is false: inserting "ax" into the two-key tree
{"a", "abcd"} splits the compressed edge (node_cnt 2 → 4); deleting "ax" again
re-merges only partially, leaving node_cnt 3 ≠ 2, although the key "ax" was
absent before the insert. -/
theorem claim_C6_counterexample :
    (runOps opsC6).node_cnt = 2 ∧
    lookupM ['a','x'] (model (runOps opsC6).head) = none ∧
    (applyDel (rax_set (runOps opsC6) ['a','x'] 3) ['a','x']).node_cnt = 3 := by
  obtain ⟨hv, hm, he⟩ := runOps_spec opsC6
  refine ⟨?_, ?_, ?_⟩
  · rw [runOpsF_sound 32 opsC6 (by rfl)]
    rfl
  · rw [hm]
    rfl
  · rw [runOpsF_sound 32 opsC6 (by rfl), ← rax_setF_eq]
    rw [applyDel, rax_delF_sound 32 _ ['a','x'] (by rfl)]
    rfl

/-- Claim C6 (amended): for a valid tree and a key absent from it, `set(k,v)`
followed by `delete(k)` restores `elem_cnt` and the stored content exactly;
`node_cnt` is not restored in general (see the counterexample). -/
theorem claim_C6_amended {t : RadixTree V} (hv : Valid t.head) (key : List Char) (v : V)
    (habs : lookupM key (model t.head) = none) :
    model (applyDel (rax_set t key v) key).head = model t.head ∧
    (applyDel (rax_set t key v) key).elem_cnt = t.elem_cnt := by
  obtain ⟨hv1, hm1, he1, _⟩ := rax_set_spec hv key v
  obtain ⟨hnone, hsucc⟩ := rax_del_spec hv1 key
  cases hd : rax_del (rax_set t key v) key with
  | none =>
    have h2 := hnone.mp hd
    rw [hm1, lookupM_insertM_self] at h2
    exact Option.noConfusion h2
  | some t2 =>
    obtain ⟨hv2, hm2, he2⟩ := hsucc t2 hd
    have happ : applyDel (rax_set t key v) key = t2 := by
      rw [applyDel, hd]
      rfl
    rw [happ]
    constructor
    · rw [hm2, hm1, eraseM_insertM_absent habs]
    · rw [he2, he1, habs]
      simp

theorem claim_C6_amended_witness :
    model (applyDel (rax_set (RadixTree.empty : RadixTree Nat) ['a'] 1) ['a']).head =
      model (RadixTree.empty : RadixTree Nat).head ∧
    (applyDel (rax_set (RadixTree.empty : RadixTree Nat) ['a'] 1) ['a']).elem_cnt =
      (RadixTree.empty : RadixTree Nat).elem_cnt :=
  claim_C6_amended Valid_empty ['a'] 1 (by
    show lookupM ['a'] (model (Node.mk false none ([] : List (List Char × Node Nat)))) = none
    rw [model_childless]
    rfl)


/-- The seven keys of the specification's worked example. -/
def opsC8 : List (Op Nat) :=
  [Op.set ['P','Y'] 0, Op.set ['P','Y','T','H','O','N'] 1, Op.set ['P','Y','T','E','S','T'] 2,
   Op.set ['P','T','L','I','S','T'] 3, Op.set ['G','O'] 4, Op.set ['G','O','L','A','N','G'] 5,
   Op.set ['G','T','E','S','T'] 6]

def t7C8 : RadixTree Nat := runOps opsC8

def t4C8 : RadixTree Nat :=
  applyDel (applyDel (applyDel t7C8 ['G','O']) ['G','O','L','A','N','G']) ['G','T','E','S','T']

set_option maxRecDepth 8000 in
/-- Claim C8: inserting the seven example keys gives seven elements, the
expected ascending key order, not-found for "PYTH"; deleting the three
G-prefixed keys removes the whole G branch from the root while the P branch is
exactly the one from before the deletions. -/
theorem claim_C8_scenario :
    t7C8.elem_cnt = 7 ∧
    ascKeys t7C8 = [['G','O'], ['G','O','L','A','N','G'], ['G','T','E','S','T'],
      ['P','T','L','I','S','T'], ['P','Y'], ['P','Y','T','E','S','T'],
      ['P','Y','T','H','O','N']] ∧
    rax_get t7C8 ['P','Y','T','H'] = none ∧
    t4C8.elem_cnt = 4 ∧
    t4C8.head.children = t7C8.head.children.filter (fun pr => pr.1.getD 0 'A' != 'G') ∧
    (∀ pr ∈ t4C8.head.children, pr.1.getD 0 'A' ≠ 'G') := by
  obtain ⟨hv, hm, he⟩ := runOps_spec opsC8
  have hne : ∀ op ∈ opsC8, ∀ k v, op = Op.set k v → k ≠ [] := by
    intro op hop k v hkv
    simp [opsC8] at hop
    rcases hop with rfl | rfl | rfl | rfl | rfl | rfl | rfl <;>
      (injection hkv with h1 h2; subst h1; simp)
  have hroot : (runOps opsC8).head.is_key = false := runOps_root_not_key opsC8 hne
  have hchild : t4C8.head.children =
      t7C8.head.children.filter (fun pr => pr.1.getD 0 'A' != 'G') := by
    show (applyDel (applyDel (applyDel (runOps opsC8) ['G','O']) ['G','O','L','A','N','G'])
        ['G','T','E','S','T']).head.children =
      (runOps opsC8).head.children.filter (fun pr => pr.1.getD 0 'A' != 'G')
    rw [runOpsF_sound 32 opsC8 (by rfl)]
    simp only [applyDel]
    rw [rax_delF_sound 32 _ ['G','O'] (by rfl)]
    rw [rax_delF_sound 32 _ ['G','O','L','A','N','G'] (by rfl)]
    rw [rax_delF_sound 32 _ ['G','T','E','S','T'] (by rfl)]
    rfl
  refine ⟨?_, ?_, ?_, ?_, hchild, ?_⟩
  · show (runOps opsC8).elem_cnt = 7
    rw [runOpsF_sound 32 opsC8 (by rfl)]
    rfl
  · show ascKeys (runOps opsC8) = _
    rw [ascKeys, ascFrom_model_of_not_key hv hroot, hm]
    rfl
  · show (rax_find (runOps opsC8) ['P','Y','T','H']).map Node.get_data = none
    rw [rax_find_model hv, hm]
    rfl
  · show (applyDel (applyDel (applyDel (runOps opsC8) ['G','O']) ['G','O','L','A','N','G'])
        ['G','T','E','S','T']).elem_cnt = 4
    rw [runOpsF_sound 32 opsC8 (by rfl)]
    simp only [applyDel]
    rw [rax_delF_sound 32 _ ['G','O'] (by rfl)]
    rw [rax_delF_sound 32 _ ['G','O','L','A','N','G'] (by rfl)]
    rw [rax_delF_sound 32 _ ['G','T','E','S','T'] (by rfl)]
    rfl
  · intro pr hpr
    rw [hchild] at hpr
    have h2 := (List.mem_filter.mp hpr).2
    simpa using h2

/-- Claim C10: for trees built from operations whose inserted keys are all
non-empty, ascending iteration yields pairwise distinct keys, as many as
`elem_cnt`, and a key is yielded exactly when `contains` holds for it. -/
theorem claim_C10_iteration (ops : List (Op V))
    (hne : ∀ op ∈ ops, ∀ k v, op = Op.set k v → k ≠ []) :
    (ascKeys (runOps ops)).Nodup ∧
    ((ascKeys (runOps ops)).length : Int) = (runOps ops).elem_cnt ∧
    (∀ k, k ∈ ascKeys (runOps ops) ↔ rax_contains (runOps ops) k = true) := by
  obtain ⟨hv, hm, he⟩ := runOps_spec ops
  have hroot := runOps_root_not_key ops hne
  have hasc : ascKeys (runOps ops) = (model (runOps ops).head).map Prod.fst := by
    rw [ascKeys, ascFrom_model_of_not_key hv hroot]
  refine ⟨?_, ?_, ?_⟩
  · rw [hasc]
    exact nodup_of_pairwise_lexLt (pairwise_fst_of_KSorted (model_sorted _ hv))
  · rw [hasc, List.length_map, hm, length_asModel, he]
  · intro k
    rw [hasc, mem_map_fst_iff, rax_contains_lookup hv k]

theorem claim_C10_witness :
    (ascKeys (runOps [Op.set ['a'] (0 : Nat)])).Nodup ∧
    ((ascKeys (runOps [Op.set ['a'] (0 : Nat)])).length : Int) =
      (runOps [Op.set ['a'] (0 : Nat)]).elem_cnt ∧
    (∀ k, k ∈ ascKeys (runOps [Op.set ['a'] (0 : Nat)]) ↔
      rax_contains (runOps [Op.set ['a'] (0 : Nat)]) k = true) :=
  claim_C10_iteration [Op.set ['a'] 0] (by
    intro op hop k v hkv
    rw [List.mem_singleton] at hop
    subst hop
    injection hkv with h1 h2
    subst h1
    simp)


end Rax
